import Mathlib

/-!
# Bytecode fusion and the optimized-code cache

A shallow embedding of `core/opcodeCompiler/compiler/opcodeProcessor.go` and
`core/vm/compiler/OpCodeCache.go`.

* Byte buffers (`[]byte`) are `List Nat`; every element stands for one byte.
* Code that can panic at run time (an index out of range) returns `Option`;
  `none` is the panic.
* Go maps are association lists without duplicate keys (`GoMap`).
* `uint64` and `uint256.Int` values are `Nat` with an explicit `%`.
* The coordinator (`OpcodeProcessor`) is a record passed from call to call;
  its channel is a list and one worker step handles the oldest task. The call
  sites hand the code hash to the cache; the cache methods of `OpCodeCache.go`
  take the address alone, so the hash stops at that boundary.
* The cache those call sites are written against takes the address and the
  hash; its declaration is not among the sources, and `CodeCache` models it
  from the spec for the one property that is about its key.
-/

namespace OpcodeCompiler

/-! ## Opcode byte space -/

/-- Names of the `ByteCode` constants that the two source files refer to:
the standard trigger opcodes, the filler `Nop` and the synthetic opcodes. -/
inductive Opcode
  | PUSH1 | PUSH2 | PUSH32
  | AND | SWAP1 | SWAP2 | POP | JUMP | JUMPI | ISZERO | ADD | SHL | SUB
  | DUP1 | DUP2 | LT
  | Nop
  | ShlAndSub | AndSwap1PopSwap2Swap1 | JumpIfZero
  | Swap2Swap1PopJump | Swap1PopSwap2Swap1 | PopSwap2Swap1Pop
  | Push2Jump | Push2JumpI | Push1Push1
  | Push1Add | Push1Shl | Push1Dup1
  | Swap1Pop | PopJump | Pop2 | Swap2Swap1 | Swap2Pop | Dup2LT
  deriving DecidableEq, Repr, Fintype

/-- Modelled from the spec: the numeric values of the `ByteCode` constants are
declared outside the two source files, so the value of every constant is a
parameter of the embedding. -/
abbrev OpcodeTable := Opcode → Nat

/-- Modelled from the spec: what section 6 asks of the opcode byte space. The
constants are distinct byte values ("synthetic opcode values must occupy
numeric slots that do not collide with any standard opcode"), the push family
is the contiguous block `PUSH1 .. PUSH32` whose "value encodes how many literal
bytes follow, range 1..32", and no other constant lies inside that block. -/
def OpcodeTable.WellFormed (T : OpcodeTable) : Prop :=
  (∀ a b : Opcode, T a = T b → a = b) ∧
  (∀ a : Opcode, T a < 256) ∧
  T .PUSH2 = T .PUSH1 + 1 ∧
  T .PUSH32 = T .PUSH1 + 31 ∧
  (∀ a : Opcode, a ≠ .PUSH1 → a ≠ .PUSH2 → a ≠ .PUSH32 →
    T a < T .PUSH1 ∨ T .PUSH32 < T a)

instance (T : OpcodeTable) : Decidable T.WellFormed := by
  unfold OpcodeTable.WellFormed
  infer_instance

/-- A sample assignment: the standard opcodes carry their EVM values and the
filler and synthetic opcodes sit in the unassigned range from `0xb0`. -/
def sampleTable : OpcodeTable
  | .PUSH1 => 0x60 | .PUSH2 => 0x61 | .PUSH32 => 0x7f
  | .AND => 0x16 | .SWAP1 => 0x90 | .SWAP2 => 0x91 | .POP => 0x50
  | .JUMP => 0x56 | .JUMPI => 0x57 | .ISZERO => 0x15 | .ADD => 0x01
  | .SHL => 0x1b | .SUB => 0x03 | .DUP1 => 0x80 | .DUP2 => 0x81 | .LT => 0x10
  | .Nop => 0xb0
  | .AndSwap1PopSwap2Swap1 => 0xb1 | .Swap2Swap1PopJump => 0xb2
  | .Swap1PopSwap2Swap1 => 0xb3 | .PopSwap2Swap1Pop => 0xb4
  | .Push2Jump => 0xb5 | .Push2JumpI => 0xb6 | .Push1Push1 => 0xb7
  | .Push1Add => 0xb8 | .Push1Shl => 0xb9 | .Push1Dup1 => 0xba
  | .Swap1Pop => 0xbb | .PopJump => 0xbc | .Pop2 => 0xbd
  | .Swap2Swap1 => 0xbe | .Swap2Pop => 0xbf | .Dup2LT => 0xc0
  | .JumpIfZero => 0xc1 | .ShlAndSub => 0xc2

/-! ## Go maps -/

/-- A Go map as an association list; `set` keeps at most one pair per key. -/
abbrev GoMap (K V : Type) := List (K × V)

/-- Map lookup `m[k]`; `none` is Go's `ok == false`. -/
def GoMap.get? {K V : Type} [DecidableEq K] : GoMap K V → K → Option V
  | [], _ => none
  | (k', v) :: m, k => if k' = k then some v else GoMap.get? m k

/-- The statement `delete(m, k)`. -/
def GoMap.delete {K V : Type} [DecidableEq K] (m : GoMap K V) (k : K) : GoMap K V :=
  m.filter (fun e => decide (e.1 ≠ k))

/-- The assignment `m[k] = v`. -/
def GoMap.set {K V : Type} [DecidableEq K] (m : GoMap K V) (k : K) (v : V) : GoMap K V :=
  (k, v) :: GoMap.delete m k

/-! ## `OpCodeCache.go` -/

/-- The type `common.Address`, an opaque comparable identifier. -/
abbrev Address := Nat

/-- The type `OptCode`, a byte slice. -/
abbrev OptCode := List Nat

/-- The error values of the package; Go's `nil` error is `Option.none`. -/
inductive Error
  | ErrFailPreprocessing
  | ErrOptiDisabled
  deriving DecidableEq, Repr

def CodeCacheGCThreshold : Nat := 1024 * 1024 * 1024

def CodeCacheGCSoftLimit : Nat := 200 * 1024 * 1024

/-- Aux struct for code fusion of 3 uint8 operands. -/
structure ThreeU8Operands where
  x : Nat
  y : Nat
  z : Nat
  deriving DecidableEq, Repr

/-- The struct `OpCodeCache` without its two mutexes. A `*uint256.Int` stored in
`shlAndSubMap` is `some v` with `v < 2^256`, or `none` for a nil pointer. Both
maps are allocated by `GetOpCodeCacheInstance` and never reassigned, so they
are never nil. -/
structure OpCodeCache where
  opcodesCache : GoMap Address OptCode
  codeCacheSize : Nat
  shlAndSubMap : GoMap ThreeU8Operands (Option Nat)
  deriving DecidableEq, Repr

/-- The cache built by `GetOpCodeCacheInstance`. -/
def GetOpCodeCacheInstance : OpCodeCache :=
  { opcodesCache := [], codeCacheSize := 0, shlAndSubMap := [] }

/-- `GetCachedCode`; `none` is the nil slice returned when the key is absent. -/
def OpCodeCache.GetCachedCode (c : OpCodeCache) (address : Address) : Option OptCode :=
  match GoMap.get? c.opcodesCache address with
  | some processedCode => some processedCode
  | none => none

/-- `RemoveCachedCode`. The map is never nil, so of the guard
`c.opcodesCache == nil || c.codeCacheSize == 0` only the second test can hold. -/
def OpCodeCache.RemoveCachedCode (c : OpCodeCache) (address : Address) : OpCodeCache :=
  if c.codeCacheSize = 0 then c
  else
    match GoMap.get? c.opcodesCache address with
    | some _ => { c with opcodesCache := GoMap.delete c.opcodesCache address }
    | none => c

/-- `UpdateCodeCache`; the second component is the returned error. -/
def OpCodeCache.UpdateCodeCache (c : OpCodeCache) (address : Address) (code : OptCode) :
    OpCodeCache × Option Error :=
  let c1 : OpCodeCache :=
    if (c.codeCacheSize + CodeCacheGCSoftLimit) % 2 ^ 64 > CodeCacheGCThreshold then
      { c with opcodesCache := [], codeCacheSize := 0 }
    else c
  ({ c1 with
      opcodesCache := GoMap.set c1.opcodesCache address code
      codeCacheSize := (c1.codeCacheSize + code.length) % 2 ^ 64 }, none)

/-- `CacheShlAndSubMap`: a lookup of an absent key yields the nil pointer. -/
def OpCodeCache.CacheShlAndSubMap (c : OpCodeCache) (x y z : Nat) (val : Option Nat) :
    OpCodeCache :=
  if (GoMap.get? c.shlAndSubMap ⟨x, y, z⟩).join = none then
    { c with shlAndSubMap := GoMap.set c.shlAndSubMap ⟨x, y, z⟩ val }
  else c

/-- `GetValFromShlAndSubMap`; `none` is the nil pointer. -/
def OpCodeCache.GetValFromShlAndSubMap (c : OpCodeCache) (x y z : Nat) : Option Nat :=
  match GoMap.get? c.shlAndSubMap ⟨x, y, z⟩ with
  | none => none
  | some val => val

/-! ## `uint256` arithmetic used by the fusion engine -/

/-- `uint256.NewInt(uint64(v))`. -/
def NewInt (v : Nat) : Nat := v % 2 ^ 64

/-- `z.Lsh(x, n)`: shift left by `n` bits, keeping 256 bits. -/
def Lsh (x n : Nat) : Nat := (x * 2 ^ n) % 2 ^ 256

/-- `z.Sub(x, y)`: subtraction modulo `2^256`. -/
def Sub (x y : Nat) : Nat := (x + (2 ^ 256 - y % 2 ^ 256)) % 2 ^ 256

/-! ## `opcodeProcessor.go`: the fusion engine -/

/-- The read `buf[i]`; `none` is the index-out-of-range panic. -/
def rd (buf : List Nat) (i : Nat) : Option Nat := buf[i]?

/-- The write `buf[i] = v`; `none` is the index-out-of-range panic. -/
def wr (buf : List Nat) (i v : Nat) : Option (List Nat) :=
  if i < buf.length then some (buf.set i v) else none

/-- A run of writes `buf[i] = v`, in order. -/
def wrAll : List Nat → List (Nat × Nat) → Option (List Nat)
  | buf, [] => some buf
  | buf, (i, v) :: ws => (wr buf i v).bind (fun b => wrAll b ws)

/-- One `if cond { writes; skipToNext = true }` statement acting on the buffer
and on the flag `skipToNext`. -/
def fuseIf (cond : Prop) [Decidable cond] (writes : List (Nat × Nat))
    (st : List Nat × Bool) : Option (List Nat × Bool) :=
  if cond then (wrAll st.1 writes).map (fun b => (b, true)) else some st

/-- `calculateSkipSteps`. -/
def calculateSkipSteps (T : OpcodeTable) (code : List Nat) (cur : Nat) :
    Option (Bool × Nat) :=
  (rd code cur).bind fun inst =>
    if inst ≥ T .PUSH1 ∧ inst ≤ T .PUSH32 then
      some (true, (inst - T .PUSH1 + 1) % 256)
    else if inst = T .ShlAndSub then some (true, 7)
    else if inst = T .Push2Jump ∨ inst = T .Push2JumpI then some (true, 3)
    else if inst = T .Push1Push1 then some (true, 3)
    else if inst = T .Push1Add ∨ inst = T .Push1Shl ∨ inst = T .Push1Dup1 then
      some (true, 2)
    else if inst = T .JumpIfZero then some (true, 4)
    else some (false, 0)

/-- The slice expression `buf[lo:hi]` on a buffer whose capacity is its
length; `none` is the slice-bounds panic. -/
def rdSlice (buf : List Nat) (lo hi : Nat) : Option (List Nat) :=
  if lo ≤ hi ∧ hi ≤ buf.length then some ((buf.drop lo).take (hi - lo)) else none

/-- The rewrite inside the `length > cur+7` block once the pattern
`PUSH1 x PUSH1 y PUSH1 z SHL SUB` is recognised: it computes `(y<<z) - x`,
writes the opcode, caches the value, writes the three operands and fills the
remainder with `Nop`. The result is the buffer, the cache and `i` after
`i += 7`. -/
def fuseShlAndSub (T : OpcodeTable) (fusedCode : List Nat) (codeCache : OpCodeCache)
    (cur code1 code3 code5 : Nat) : Option (List Nat × OpCodeCache × Nat) := do
  let x := code1
  let y := code3
  let z := code5
  let val := Sub (Lsh (NewInt y) z) (NewInt x)
  let b1 ← wr fusedCode cur (T .ShlAndSub)
  let codeCache1 := codeCache.CacheShlAndSubMap x y z (some val)
  let b2 ← wrAll b1 [(cur + 1, x), (cur + 2, y), (cur + 3, z)]
  let b3 ← wrAll b2 [(cur + 4, T .Nop), (cur + 5, T .Nop), (cur + 6, T .Nop),
    (cur + 7, T .Nop)]
  pure (b3, codeCache1, cur + 7)

/-- The block of `doCodeFusion` guarded by `length > cur+7`. The result
`some (some r)` is the `continue` after a rewrite, `r` holding the buffer, the
cache and the value of `i`; `some none` falls through to the next block. -/
def block8 (T : OpcodeTable) (length : Nat) (fusedCode : List Nat)
    (codeCache : OpCodeCache) (cur : Nat) :
    Option (Option (List Nat × OpCodeCache × Nat)) :=
  if length > cur + 7 then do
    let code0 ← rd fusedCode (cur + 0)
    let code1 ← rd fusedCode (cur + 1)
    let code2 ← rd fusedCode (cur + 2)
    let code3 ← rd fusedCode (cur + 3)
    let code4 ← rd fusedCode (cur + 4)
    let code5 ← rd fusedCode (cur + 5)
    let code6 ← rd fusedCode (cur + 6)
    let code7 ← rd fusedCode (cur + 7)
    if code0 = T .PUSH1 ∧ code2 = T .PUSH1 ∧ code4 = T .PUSH1 ∧
        code6 = T .SHL ∧ code7 = T .SUB then
      (fuseShlAndSub T fusedCode codeCache cur code1 code3 code5).map some
    else pure none
  else pure none

/-- The block guarded by `length > cur+4`; the result is the buffer and the
flag `skipToNext`. -/
def block5 (T : OpcodeTable) (length : Nat) (fusedCode : List Nat) (cur : Nat) :
    Option (List Nat × Bool) :=
  if length > cur + 4 then do
    let code0 ← rd fusedCode (cur + 0)
    let code1 ← rd fusedCode (cur + 1)
    let code2 ← rd fusedCode (cur + 2)
    let code3 ← rd fusedCode (cur + 3)
    let code4 ← rd fusedCode (cur + 4)
    let st ← fuseIf (code0 = T .AND ∧ code1 = T .SWAP1 ∧ code2 = T .POP ∧
        code3 = T .SWAP2 ∧ code4 = T .SWAP1)
      [(cur, T .AndSwap1PopSwap2Swap1), (cur + 1, T .Nop), (cur + 2, T .Nop),
        (cur + 3, T .Nop), (cur + 4, T .Nop)] (fusedCode, false)
    if code0 = T .ISZERO ∧ code1 = T .PUSH2 ∧ code4 = T .JUMPI then do
      let b ← wrAll st.1 [(cur, T .JumpIfZero), (cur + 1, T .Nop), (cur + 4, T .Nop)]
      let _ ← rdSlice b (cur + 2) (cur + 4)
      pure (b, true)
    else pure st
  else pure (fusedCode, false)

/-- The block guarded by `length > cur+3`. -/
def block4 (T : OpcodeTable) (length : Nat) (fusedCode : List Nat) (cur : Nat) :
    Option (List Nat × Bool) :=
  if length > cur + 3 then do
    let code0 ← rd fusedCode (cur + 0)
    let code1 ← rd fusedCode (cur + 1)
    let code2 ← rd fusedCode (cur + 2)
    let code3 ← rd fusedCode (cur + 3)
    let st ← fuseIf (code0 = T .SWAP2 ∧ code1 = T .SWAP1 ∧ code2 = T .POP ∧
        code3 = T .JUMP)
      [(cur, T .Swap2Swap1PopJump), (cur + 1, T .Nop), (cur + 2, T .Nop),
        (cur + 3, T .Nop)] (fusedCode, false)
    let st ← fuseIf (code0 = T .SWAP1 ∧ code1 = T .POP ∧ code2 = T .SWAP2 ∧
        code3 = T .SWAP1)
      [(cur, T .Swap1PopSwap2Swap1), (cur + 1, T .Nop), (cur + 2, T .Nop),
        (cur + 3, T .Nop)] st
    let st ← fuseIf (code0 = T .POP ∧ code1 = T .SWAP2 ∧ code2 = T .SWAP1 ∧
        code3 = T .POP)
      [(cur, T .PopSwap2Swap1Pop), (cur + 1, T .Nop), (cur + 2, T .Nop),
        (cur + 3, T .Nop)] st
    let st ← fuseIf (code0 = T .PUSH2 ∧ code3 = T .JUMP)
      [(cur, T .Push2Jump), (cur + 3, T .Nop)] st
    let st ← fuseIf (code0 = T .PUSH2 ∧ code3 = T .JUMPI)
      [(cur, T .Push2JumpI), (cur + 3, T .Nop)] st
    fuseIf (code0 = T .PUSH1 ∧ code2 = T .PUSH1)
      [(cur, T .Push1Push1), (cur + 2, T .Nop)] st
  else pure (fusedCode, false)

/-- The block guarded by `length > cur+2`. -/
def block3 (T : OpcodeTable) (length : Nat) (fusedCode : List Nat) (cur : Nat) :
    Option (List Nat × Bool) :=
  if length > cur + 2 then do
    let code0 ← rd fusedCode (cur + 0)
    let _ ← rd fusedCode (cur + 1)
    let code2 ← rd fusedCode (cur + 2)
    if code0 = T .PUSH1 then do
      let st ← fuseIf (code2 = T .ADD)
        [(cur, T .Push1Add), (cur + 2, T .Nop)] (fusedCode, false)
      let st ← fuseIf (code2 = T .SHL)
        [(cur, T .Push1Shl), (cur + 2, T .Nop)] st
      fuseIf (code2 = T .DUP1)
        [(cur, T .Push1Dup1), (cur + 2, T .Nop)] st
    else pure (fusedCode, false)
  else pure (fusedCode, false)

/-- The block guarded by `length > cur+1`. -/
def block2 (T : OpcodeTable) (length : Nat) (fusedCode : List Nat) (cur : Nat) :
    Option (List Nat × Bool) :=
  if length > cur + 1 then do
    let code0 ← rd fusedCode (cur + 0)
    let code1 ← rd fusedCode (cur + 1)
    let st ← fuseIf (code0 = T .SWAP1 ∧ code1 = T .POP)
      [(cur, T .Swap1Pop), (cur + 1, T .Nop)] (fusedCode, false)
    let st ← fuseIf (code0 = T .POP ∧ code1 = T .JUMP)
      [(cur, T .PopJump), (cur + 1, T .Nop)] st
    let st ← fuseIf (code0 = T .POP ∧ code1 = T .POP)
      [(cur, T .Pop2), (cur + 1, T .Nop)] st
    let st ← fuseIf (code0 = T .SWAP2 ∧ code1 = T .SWAP1)
      [(cur, T .Swap2Swap1), (cur + 1, T .Nop)] st
    let st ← fuseIf (code0 = T .SWAP2 ∧ code1 = T .POP)
      [(cur, T .Swap2Pop), (cur + 1, T .Nop)] st
    fuseIf (code0 = T .DUP2 ∧ code1 = T .LT)
      [(cur, T .Dup2LT), (cur + 1, T .Nop)] st
  else pure (fusedCode, false)

/-- The body of the `for` loop of `doCodeFusion` at `i = cur`. The result is
the buffer, the cache and the value of `i` when the body ends, before the
loop's own `i++`. -/
def fusionBody (T : OpcodeTable) (length : Nat) (fusedCode : List Nat)
    (codeCache : OpCodeCache) (cur : Nat) : Option (List Nat × OpCodeCache × Nat) := do
  match ← block8 T length fusedCode codeCache cur with
  | some r => pure r
  | none =>
    let s5 ← block5 T length fusedCode cur
    if s5.2 then pure (s5.1, codeCache, cur + 4) else
    let s4 ← block4 T length s5.1 cur
    if s4.2 then pure (s4.1, codeCache, cur + 3) else
    let s3 ← block3 T length s4.1 cur
    if s3.2 then pure (s3.1, codeCache, cur + 2) else
    let s2 ← block2 T length s3.1 cur
    if s2.2 then pure (s2.1, codeCache, cur + 1) else
    let r ← calculateSkipSteps T s2.1 cur
    if r.1 then pure (s2.1, codeCache, cur + r.2) else pure (s2.1, codeCache, cur)

/-- The `for i := 0; i < length; i++` loop of `doCodeFusion`. Every iteration
moves `i` forward, so `length` units of fuel are enough; running out of fuel is
`none`. -/
def fusionLoop (T : OpcodeTable) (length : Nat) :
    Nat → List Nat → OpCodeCache → Nat → Option (List Nat × OpCodeCache)
  | fuel, fusedCode, codeCache, i =>
    if i < length then
      match fuel with
      | 0 => none
      | fuel + 1 =>
        (fusionBody T length fusedCode codeCache i).bind fun r =>
          fusionLoop T length fuel r.1 r.2.1 (r.2.2 + 1)
    else some (fusedCode, codeCache)

/-- `doCodeFusion`. The cache is the one bound to the processor instance, which
the source reaches through `GetOpcodeProcessorInstance().codeCache`: its only
caller runs behind the `enabled` gate, and `EnableOptimization` binds the cache
when it sets the flag. The result holds the fused code, the returned error and
the cache afterwards. -/
def doCodeFusion (T : OpcodeTable) (codeCache : OpCodeCache) (code : List Nat) :
    Option (List Nat × Option Error × OpCodeCache) :=
  (fusionLoop T code.length code.length code codeCache 0).map fun r =>
    (r.1, none, r.2)

/-- Lifting of a block result over a buffer part `p` the block never looks at. -/
def liftFlag (p : List Nat) (r : List Nat × Bool) : List Nat × Bool := (p ++ r.1, r.2)

/-- Lifting of a loop-body result over a buffer part `p` the body never looks
at: the buffer is extended and the index shifted. -/
def liftBody (p : List Nat) (r : List Nat × OpCodeCache × Nat) :
    List Nat × OpCodeCache × Nat := (p ++ r.1, r.2.1, p.length + r.2.2)

/-- The value `(y<<z) - x` that the `ShlAndSub` rewrite caches. -/
def shlAndSubVal (x y z : Nat) : Nat := Sub (Lsh (NewInt y) z) (NewInt x)

/-- The cache after a loop iteration that started from cache `c`: unchanged, or
extended by one `CacheShlAndSubMap` call with operands `q`. -/
def stepCache (c : OpCodeCache) : Option (Nat × Nat × Nat) → OpCodeCache
  | none => c
  | some q => c.CacheShlAndSubMap q.1 q.2.1 q.2.2 (some (shlAndSubVal q.1 q.2.1 q.2.2))

/-- The cache states reachable from the cache built by
`GetOpCodeCacheInstance` through `UpdateCodeCache` and `RemoveCachedCode`. -/
inductive Reachable : OpCodeCache → Prop
  | init : Reachable GetOpCodeCacheInstance
  | update (c : OpCodeCache) (address : Address) (code : OptCode) :
      Reachable c → Reachable (c.UpdateCodeCache address code).1
  | remove (c : OpCodeCache) (address : Address) :
      Reachable c → Reachable (c.RemoveCachedCode address)

/-- The two-byte idioms recognised at the head of `s`: the bytes that replace
the matched span. -/
def idiom2 (T : OpcodeTable) : List Nat → Option (List Nat)
  | c0 :: c1 :: _ =>
    if c0 = T .SWAP1 ∧ c1 = T .POP then some [T .Swap1Pop, T .Nop]
    else if c0 = T .POP ∧ c1 = T .JUMP then some [T .PopJump, T .Nop]
    else if c0 = T .POP ∧ c1 = T .POP then some [T .Pop2, T .Nop]
    else if c0 = T .SWAP2 ∧ c1 = T .SWAP1 then some [T .Swap2Swap1, T .Nop]
    else if c0 = T .SWAP2 ∧ c1 = T .POP then some [T .Swap2Pop, T .Nop]
    else if c0 = T .DUP2 ∧ c1 = T .LT then some [T .Dup2LT, T .Nop]
    else none
  | _ => none

/-- The three-byte idioms recognised at the head of `s`. -/
def idiom3 (T : OpcodeTable) : List Nat → Option (List Nat)
  | c0 :: c1 :: c2 :: _ =>
    if c0 = T .PUSH1 then
      if c2 = T .ADD then some [T .Push1Add, c1, T .Nop]
      else if c2 = T .SHL then some [T .Push1Shl, c1, T .Nop]
      else if c2 = T .DUP1 then some [T .Push1Dup1, c1, T .Nop]
      else none
    else none
  | _ => none

/-- The four-byte idioms recognised at the head of `s`. -/
def idiom4 (T : OpcodeTable) : List Nat → Option (List Nat)
  | c0 :: c1 :: c2 :: c3 :: _ =>
    if c0 = T .SWAP2 ∧ c1 = T .SWAP1 ∧ c2 = T .POP ∧ c3 = T .JUMP then
      some [T .Swap2Swap1PopJump, T .Nop, T .Nop, T .Nop]
    else if c0 = T .SWAP1 ∧ c1 = T .POP ∧ c2 = T .SWAP2 ∧ c3 = T .SWAP1 then
      some [T .Swap1PopSwap2Swap1, T .Nop, T .Nop, T .Nop]
    else if c0 = T .POP ∧ c1 = T .SWAP2 ∧ c2 = T .SWAP1 ∧ c3 = T .POP then
      some [T .PopSwap2Swap1Pop, T .Nop, T .Nop, T .Nop]
    else if c0 = T .PUSH2 ∧ c3 = T .JUMP then some [T .Push2Jump, c1, c2, T .Nop]
    else if c0 = T .PUSH2 ∧ c3 = T .JUMPI then some [T .Push2JumpI, c1, c2, T .Nop]
    else if c0 = T .PUSH1 ∧ c2 = T .PUSH1 then some [T .Push1Push1, c1, T .Nop, c3]
    else none
  | _ => none

/-- The five-byte idioms recognised at the head of `s`. -/
def idiom5 (T : OpcodeTable) : List Nat → Option (List Nat)
  | c0 :: c1 :: c2 :: c3 :: c4 :: _ =>
    if c0 = T .AND ∧ c1 = T .SWAP1 ∧ c2 = T .POP ∧ c3 = T .SWAP2 ∧ c4 = T .SWAP1 then
      some [T .AndSwap1PopSwap2Swap1, T .Nop, T .Nop, T .Nop, T .Nop]
    else if c0 = T .ISZERO ∧ c1 = T .PUSH2 ∧ c4 = T .JUMPI then
      some [T .JumpIfZero, T .Nop, c2, c3, T .Nop]
    else none
  | _ => none

/-- The eight-byte idiom recognised at the head of `s`. -/
def idiom8 (T : OpcodeTable) : List Nat → Option (List Nat)
  | c0 :: c1 :: c2 :: c3 :: c4 :: c5 :: c6 :: c7 :: _ =>
    if c0 = T .PUSH1 ∧ c2 = T .PUSH1 ∧ c4 = T .PUSH1 ∧ c6 = T .SHL ∧ c7 = T .SUB then
      some [T .ShlAndSub, c1, c3, c5, T .Nop, T .Nop, T .Nop, T .Nop]
    else none
  | _ => none

/-- The idiom recognised at the head of `s`, longest span first. -/
def headIdiom (T : OpcodeTable) (s : List Nat) : Option (List Nat) :=
  match idiom8 T s with
  | some o => some o
  | none =>
    match idiom5 T s with
    | some o => some o
    | none =>
      match idiom4 T s with
      | some o => some o
      | none =>
        match idiom3 T s with
        | some o => some o
        | none => idiom2 T s

/-- The number of bytes `calculateSkipSteps` asks to skip after the opcode
byte `b`; `0` when it reports no skip. -/
def skipOf (T : OpcodeTable) (b : Nat) : Nat :=
  match calculateSkipSteps T [b] 0 with
  | some r => if r.1 then r.2 else 0
  | none => 0

/-- The fused bytes of a code, the same from every cache. -/
def fusedBytes (T : OpcodeTable) (code : List Nat) : List Nat :=
  match doCodeFusion T GetOpCodeCacheInstance code with
  | some r => r.1
  | none => []

/-- The skip-length table of section 4.1 of the spec, by opcode name: the
number of trailing bytes of the opcode, `0` for an opcode that occupies one
byte. -/
def Opcode.skip : Opcode → Nat
  | .PUSH1 => 1 | .PUSH2 => 2 | .PUSH32 => 32
  | .ShlAndSub => 7
  | .Push2Jump => 3 | .Push2JumpI => 3
  | .Push1Push1 => 3
  | .Push1Add => 2 | .Push1Shl => 2 | .Push1Dup1 => 2
  | .JumpIfZero => 4
  | _ => 0

/-- The opcodes that start a trigger pattern. -/
def Opcode.isTriggerHead : Opcode → Bool
  | .PUSH1 | .PUSH2 | .AND | .ISZERO | .SWAP1 | .SWAP2 | .POP | .DUP2 => true
  | _ => false

/-- One row of the idiom table of `doCodeFusion`: the trigger pattern (`none`
is a byte that is not tested), the synthetic opcode written at the start of the
span, and what is written at each later offset of the span: `some i` is the
byte read at offset `i` of the span, `none` is `Nop`. -/
structure Idiom where
  trigger : List (Option Opcode)
  synthetic : Opcode
  operands : List (Option Nat)
  deriving DecidableEq, Repr

/-- The span of an idiom in bytes. -/
def Idiom.span (I : Idiom) : Nat := I.trigger.length

/-- The idiom table, one row per `if` of `doCodeFusion`, longest span first. -/
def idiomTable : List Idiom :=
  [ ⟨[some .PUSH1, none, some .PUSH1, none, some .PUSH1, none, some .SHL, some .SUB],
      .ShlAndSub, [some 1, some 3, some 5, none, none, none, none]⟩,
    ⟨[some .AND, some .SWAP1, some .POP, some .SWAP2, some .SWAP1],
      .AndSwap1PopSwap2Swap1, [none, none, none, none]⟩,
    ⟨[some .ISZERO, some .PUSH2, none, none, some .JUMPI],
      .JumpIfZero, [none, some 2, some 3, none]⟩,
    ⟨[some .SWAP2, some .SWAP1, some .POP, some .JUMP],
      .Swap2Swap1PopJump, [none, none, none]⟩,
    ⟨[some .SWAP1, some .POP, some .SWAP2, some .SWAP1],
      .Swap1PopSwap2Swap1, [none, none, none]⟩,
    ⟨[some .POP, some .SWAP2, some .SWAP1, some .POP],
      .PopSwap2Swap1Pop, [none, none, none]⟩,
    ⟨[some .PUSH2, none, none, some .JUMP], .Push2Jump, [some 1, some 2, none]⟩,
    ⟨[some .PUSH2, none, none, some .JUMPI], .Push2JumpI, [some 1, some 2, none]⟩,
    ⟨[some .PUSH1, none, some .PUSH1, none], .Push1Push1, [some 1, none, some 3]⟩,
    ⟨[some .PUSH1, none, some .ADD], .Push1Add, [some 1, none]⟩,
    ⟨[some .PUSH1, none, some .SHL], .Push1Shl, [some 1, none]⟩,
    ⟨[some .PUSH1, none, some .DUP1], .Push1Dup1, [some 1, none]⟩,
    ⟨[some .SWAP1, some .POP], .Swap1Pop, [none]⟩,
    ⟨[some .POP, some .JUMP], .PopJump, [none]⟩,
    ⟨[some .POP, some .POP], .Pop2, [none]⟩,
    ⟨[some .SWAP2, some .SWAP1], .Swap2Swap1, [none]⟩,
    ⟨[some .SWAP2, some .POP], .Swap2Pop, [none]⟩,
    ⟨[some .DUP2, some .LT], .Dup2LT, [none]⟩ ]

/-- The bytes of `code` start with the trigger pattern: enough bytes remain
and every tested offset holds the opcode of the pattern. -/
def matchTrigger (T : OpcodeTable) : List (Option Opcode) → List Nat → Bool
  | [], _ => true
  | _ :: _, [] => false
  | none :: ps, _ :: cs => matchTrigger T ps cs
  | some op :: ps, c :: cs => c == T op && matchTrigger T ps cs

/-- The bytes an idiom writes over its span when it fires on `code`. -/
def Idiom.emit (T : OpcodeTable) (I : Idiom) (code : List Nat) : List Nat :=
  T I.synthetic :: I.operands.map fun
    | some i => code.getD i 0
    | none => T .Nop

/-- The first opcode of the trigger of a row. -/
def Idiom.headOp (I : Idiom) : Option Opcode := I.trigger.head?.join

/-- The synthetic opcodes, the ones `doCodeFusion` writes at the start of a
fused span. -/
def Opcode.isSynthetic : Opcode → Bool
  | .ShlAndSub | .AndSwap1PopSwap2Swap1 | .JumpIfZero | .Swap2Swap1PopJump
  | .Swap1PopSwap2Swap1 | .PopSwap2Swap1Pop | .Push2Jump | .Push2JumpI | .Push1Push1
  | .Push1Add | .Push1Shl | .Push1Dup1 | .Swap1Pop | .PopJump | .Pop2 | .Swap2Swap1
  | .Swap2Pop | .Dup2LT => true
  | _ => false

/-- A scan of `s` with the skip logic of `doCodeFusion` that finds no idiom
at any position it visits: the second pass over such bytes writes nothing. -/
inductive Stable (T : OpcodeTable) : List Nat → Prop
  | nil : Stable T []
  | step (b0 : Nat) (t : List Nat) :
      headIdiom T (b0 :: t) = none → Stable T (t.drop (skipOf T b0)) → Stable T (b0 :: t)

/-! ## `opcodeProcessor.go`: the coordinator -/

/-- The type `common.Hash`, an identifier compared for equality only. -/
abbrev Hash := Nat

/-- The type `optimizeTaskType`. -/
inductive optimizeTaskType
  | unknown
  | generate
  | flush
  deriving DecidableEq, Repr

/-- The struct `optimizeTask`; a nil `rawCode` is `[]`. -/
structure optimizeTask where
  taskType : optimizeTaskType
  addr : Address
  codeHash : Hash
  rawCode : List Nat
  deriving DecidableEq, Repr

/-- The struct `OpcodeProcessor`, the process-wide instance. `codeCache` is
the state of the cache instance that `EnableOptimization` binds: the pointer
is nil only while `enabled` has never been set, and no method reads it with
`enabled` false. `taskChannel` holds the queued tasks, oldest first; its
capacity and the blocking of a send on a full channel are left out. -/
structure OpcodeProcessor where
  enabled : Bool
  codeCache : OpCodeCache
  taskChannel : List optimizeTask
  deriving DecidableEq, Repr

/-- `EnableOptimization`. -/
def OpcodeProcessor.EnableOptimization (p : OpcodeProcessor) : OpcodeProcessor :=
  if p.enabled then p else { p with enabled := true }

/-- `DisableOptimization`. -/
def OpcodeProcessor.DisableOptimization (p : OpcodeProcessor) : OpcodeProcessor :=
  { p with enabled := false }

/-- `LoadOptimizedCode`; `none` is the nil result. The call site passes `hash`
to `GetCachedCode` as well; the cache of `OpCodeCache.go` has no parameter for
it and looks the address up alone. -/
def OpcodeProcessor.LoadOptimizedCode (p : OpcodeProcessor) (address : Address)
    (_hash : Hash) : Option OptCode :=
  if !p.enabled then none
  else p.codeCache.GetCachedCode address

/-- `GenOrLoadOptimizedCode`: the send on the task channel. -/
def OpcodeProcessor.GenOrLoadOptimizedCode (p : OpcodeProcessor) (address : Address)
    (code : List Nat) (hash : Hash) : OpcodeProcessor :=
  { p with taskChannel := p.taskChannel ++ [⟨.generate, address, hash, code⟩] }

/-- `FlushCodeCache`: the send on the task channel. -/
def OpcodeProcessor.FlushCodeCache (p : OpcodeProcessor) (address : Address) (hash : Hash) :
    OpcodeProcessor :=
  { p with taskChannel := p.taskChannel ++ [⟨.flush, address, hash, []⟩] }

/-- `RewriteOptimizedCodeForDB`. -/
def OpcodeProcessor.RewriteOptimizedCodeForDB (p : OpcodeProcessor) (address : Address)
    (code : List Nat) (hash : Hash) : OpcodeProcessor :=
  if p.enabled then p.GenOrLoadOptimizedCode address code hash else p

/-- `doOpcodesProcess`; the result holds the code (`none` is nil), the error
and the cache afterwards. -/
def doOpcodesProcess (T : OpcodeTable) (codeCache : OpCodeCache) (code : List Nat) :
    Option (Option OptCode × Option Error × OpCodeCache) :=
  (doCodeFusion T codeCache code).map fun r =>
    match r.2.1 with
    | some _ => (none, some Error.ErrFailPreprocessing, r.2.2)
    | none => (some r.1, none, r.2.2)

/-- `processByteCodes`. -/
def processByteCodes (T : OpcodeTable) (codeCache : OpCodeCache) (code : List Nat) :
    Option (Option OptCode × Option Error × OpCodeCache) :=
  doOpcodesProcess T codeCache code

/-- `GenOrRewriteOptimizedCode`; the result holds the code (`none` is nil), the
error and the processor afterwards. `UpdateCodeCache` is called with the
address and the code; see `LoadOptimizedCode` for the hash. -/
def OpcodeProcessor.GenOrRewriteOptimizedCode (T : OpcodeTable) (p : OpcodeProcessor)
    (address : Address) (code : List Nat) (_hash : Hash) :
    Option (Option OptCode × Option Error × OpcodeProcessor) :=
  if !p.enabled then some (none, some Error.ErrOptiDisabled, p)
  else
    (processByteCodes T p.codeCache code).map fun r =>
      match r.2.1 with
      | some err => (none, some err, { p with codeCache := r.2.2 })
      | none =>
        let u := r.2.2.UpdateCodeCache address (r.1.getD [])
        (r.1, u.2, { p with codeCache := u.1 })

/-- `TryGenerateOptimizedCode`; the result holds the code, the flag `hit`, the
error and the processor afterwards. -/
def OpcodeProcessor.TryGenerateOptimizedCode (T : OpcodeTable) (p : OpcodeProcessor)
    (address : Address) (code : List Nat) (hash : Hash) :
    Option (Option OptCode × Bool × Option Error × OpcodeProcessor) :=
  if !p.enabled then some (none, false, some Error.ErrOptiDisabled, p)
  else
    match p.codeCache.GetCachedCode address with
    | none =>
      (p.GenOrRewriteOptimizedCode T address code hash).map fun r => (r.1, false, r.2.1, r.2.2)
    | some processedCode =>
      if processedCode.length = 0 then
        (p.GenOrRewriteOptimizedCode T address code hash).map fun r =>
          (r.1, false, r.2.1, r.2.2)
      else some (some processedCode, true, none, p)

/-- `DeleteCodeCache`. -/
def OpcodeProcessor.DeleteCodeCache (p : OpcodeProcessor) (addr : Address) (_hash : Hash) :
    OpcodeProcessor :=
  if !p.enabled then p
  else { p with codeCache := p.codeCache.RemoveCachedCode addr }

/-- The method `GetValFromShlAndSubMap` of the processor. -/
def OpcodeProcessor.GetValFromShlAndSubMap (p : OpcodeProcessor) (x y z : Nat) : Option Nat :=
  if !p.enabled then none
  else p.codeCache.GetValFromShlAndSubMap x y z

/-- `handleOptimizationTask`; `none` is a panic inside the fusion engine. -/
def OpcodeProcessor.handleOptimizationTask (T : OpcodeTable) (p : OpcodeProcessor)
    (task : optimizeTask) : Option OpcodeProcessor :=
  match task.taskType with
  | .generate =>
    (p.TryGenerateOptimizedCode T task.addr task.rawCode task.codeHash).map fun r => r.2.2.2
  | .flush => some (p.DeleteCodeCache task.addr task.codeHash)
  | .unknown => some p

/-- One iteration of the loop of `taskProcessor`: the oldest task is received
from the channel and handled; with an empty channel the worker waits. -/
def OpcodeProcessor.taskProcessor (T : OpcodeTable) (p : OpcodeProcessor) :
    Option OpcodeProcessor :=
  match p.taskChannel with
  | [] => some p
  | task :: rest => ({ p with taskChannel := rest }).handleOptimizationTask T task

/-- The rows of the idiom table whose synthetic opcode is followed by operand
bytes. -/
def Idiom.carriesOperands (I : Idiom) : Bool := I.operands.any Option.isSome

/-! ## The cache the coordinator calls, keyed by the code identity -/

/-- Modelled from the spec: the Code Identity of section 3, the pair of the
contract address and the code-content hash that `opcodeProcessor.go` hands to
every cache call. -/
abbrev CodeIdentity := Address × Hash

/-- Modelled from the spec: the Code Cache that `opcodeProcessor.go` binds
with `getOpCodeCacheInstance()` and calls with an address and a hash; its
declaration is not among the sources. Section 3: a Code Cache Entry maps a
Code Identity to Optimized Code, with an aggregate byte-size counter tracked
alongside the map, and the pair is the cache key. -/
structure CodeCache where
  entries : GoMap CodeIdentity OptCode
  aggregateSize : Nat
  deriving DecidableEq, Repr

/-- Modelled from the spec: `get(identity)` of section 4.3, the missing
`GetCachedCode(address, hash)`; `none` is absent. -/
def CodeCache.GetCachedCode (c : CodeCache) (address : Address) (hash : Hash) :
    Option OptCode :=
  GoMap.get? c.entries (address, hash)

/-- Modelled from the spec: `put(identity, code)` of section 4.3, the missing
`UpdateCodeCache(address, code, hash)`. Before inserting, if the aggregate
size plus the soft limit exceeds the hard threshold, the entire cache is
cleared and the aggregate size reset to zero; then the new entry is inserted
and the aggregate size updated, so that it stays the sum of the lengths of the
cached values. -/
def CodeCache.UpdateCodeCache (c : CodeCache) (address : Address) (code : OptCode)
    (hash : Hash) : CodeCache :=
  let c1 : CodeCache :=
    if c.aggregateSize + CodeCacheGCSoftLimit > CodeCacheGCThreshold then ⟨[], 0⟩ else c
  { entries := GoMap.set c1.entries (address, hash) code
    aggregateSize :=
      c1.aggregateSize - ((GoMap.get? c1.entries (address, hash)).map List.length).getD 0 +
        code.length }

/-! ## Reads and writes -/

@[simp] theorem rd_nil (i : Nat) : rd [] i = none := by simp [rd]
@[simp] theorem rd_cons_zero (a : Nat) (l : List Nat) : rd (a :: l) 0 = some a := by simp [rd]
@[simp] theorem rd_cons_succ (a : Nat) (l : List Nat) (i : Nat) :
    rd (a :: l) (i + 1) = rd l i := by simp [rd]
@[simp] theorem wr_nil (i v : Nat) : wr [] i v = none := by simp [wr]
@[simp] theorem wr_cons_zero (a : Nat) (l : List Nat) (v : Nat) :
    wr (a :: l) 0 v = some (v :: l) := by simp [wr]
@[simp] theorem wr_cons_succ (a : Nat) (l : List Nat) (i v : Nat) :
    wr (a :: l) (i + 1) v = (wr l i v).map (a :: ·) := by
  simp [wr]


theorem rd_append_add (p s : List Nat) (k : Nat) : rd (p ++ s) (p.length + k) = rd s k := by
  simp [rd, List.getElem?_append_right]
theorem wr_append_add (p s : List Nat) (k v : Nat) :
    wr (p ++ s) (p.length + k) v = (wr s k v).map (p ++ ·) := by
  simp [wr]
theorem wrAll_append (p : List Nat) (ws : List (Nat × Nat)) (s : List Nat) :
    wrAll (p ++ s) (ws.map fun w => (p.length + w.1, w.2)) = (wrAll s ws).map (p ++ ·) := by
  induction ws generalizing s with
  | nil => simp [wrAll]
  | cons w ws ih =>
    simp only [List.map_cons, wrAll, wr_append_add]
    cases h : wr s w.1 w.2 <;> simp [ih]
theorem wr_length (buf : List Nat) (i v : Nat) (b : List Nat) (h : wr buf i v = some b) :
    b.length = buf.length := by
  unfold wr at h; split at h <;> simp at h; subst h; simp
theorem wrAll_length (ws : List (Nat × Nat)) (buf b : List Nat) (h : wrAll buf ws = some b) :
    b.length = buf.length := by
  induction ws generalizing buf with
  | nil => simp [wrAll] at h; subst h; rfl
  | cons w ws ih =>
    simp only [wrAll] at h
    cases h1 : wr buf w.1 w.2 with
    | none => simp [h1] at h
    | some b1 => simp [h1] at h; rw [ih b1 h, wr_length _ _ _ _ h1]
theorem wrAll_isSome (ws : List (Nat × Nat)) (buf : List Nat)
    (h : ∀ w ∈ ws, w.1 < buf.length) : ∃ b, wrAll buf ws = some b ∧ b.length = buf.length := by
  induction ws generalizing buf with
  | nil => exact ⟨buf, rfl, rfl⟩
  | cons w ws ih =>
    have hw : w.1 < buf.length := h w (by simp)
    simp only [wrAll, wr, hw, if_true, Option.some_bind]
    obtain ⟨b, hb, hl⟩ := ih (buf.set w.1 w.2) (by intro w' hw'; simpa using h w' (by simp [hw']))
    exact ⟨b, hb, by simpa using hl⟩

/-! ## The loop body leaves the bytes before `cur` alone -/

theorem rd_of_lt (buf : List Nat) (i : Nat) (h : i < buf.length) : ∃ v, rd buf i = some v := by
  exact ⟨buf[i], by simp [rd, List.getElem?_eq_getElem h]⟩

theorem rd_append_len (p s : List Nat) : rd (p ++ s) p.length = rd s 0 := by
  simpa using rd_append_add p s 0

theorem wr_append_len (p s : List Nat) (v : Nat) :
    wr (p ++ s) p.length v = (wr s 0 v).map (p ++ ·) := by
  simpa using wr_append_add p s 0 v

theorem rdSlice_append (p b : List Nat) (lo hi : Nat) :
    rdSlice (p ++ b) (p.length + lo) (p.length + hi) = rdSlice b lo hi := by
  unfold rdSlice
  have h1 : List.drop (p.length + lo) (p ++ b) = List.drop lo b := by
    rw [List.drop_append]
  have h2 : p.length + hi - (p.length + lo) = hi - lo := by omega
  simp only [h1, h2, List.length_append, Nat.add_le_add_iff_left]

theorem fuseIf_frame (cond : Prop) [Decidable cond] (p : List Nat) (ws ws' : List (Nat × Nat))
    (st : List Nat × Bool) (h : ws' = ws.map fun w => (p.length + w.1, w.2)) :
    fuseIf cond ws' (liftFlag p st) = (fuseIf cond ws st).map (liftFlag p) := by
  subst h
  unfold fuseIf
  split
  · simp [wrAll_append, liftFlag, Function.comp_def]
  · simp [liftFlag]

theorem bind_lift {p : List Nat} {x' x : Option (List Nat × Bool)}
    {g' g : List Nat × Bool → Option (List Nat × Bool)}
    (hx : x' = x.map (liftFlag p))
    (hg : ∀ st, g' (liftFlag p st) = (g st).map (liftFlag p)) :
    x'.bind g' = (x.bind g).map (liftFlag p) := by
  subst hx
  cases x with
  | none => rfl
  | some st => simpa using hg st

theorem block2_append (T : OpcodeTable) (p s : List Nat) (n : Nat) :
    block2 T (p.length + n) (p ++ s) p.length = (block2 T n s 0).map (liftFlag p) := by
  unfold block2
  simp only [rd_append_add, Nat.add_lt_add_iff_left, gt_iff_lt, Nat.zero_add,
    Option.bind_eq_bind, Option.pure_def]
  by_cases h : 1 < n
  · simp only [h, if_true]
    cases rd s 0 with
    | none => rfl
    | some code0 =>
      cases rd s 1 with
      | none => rfl
      | some code1 =>
        simp only [Option.some_bind]
        repeat (first
          | exact fuseIf_frame _ p _ _ (_, _) (by simp)
          | refine bind_lift (fuseIf_frame _ p _ _ (_, _) (by simp)) (fun st => ?_))
  · simp only [h, if_false]; rfl

theorem block3_append (T : OpcodeTable) (p s : List Nat) (n : Nat) :
    block3 T (p.length + n) (p ++ s) p.length = (block3 T n s 0).map (liftFlag p) := by
  unfold block3
  simp only [rd_append_add, Nat.add_lt_add_iff_left, gt_iff_lt, Nat.zero_add,
    Option.bind_eq_bind, Option.pure_def]
  by_cases h : 2 < n
  · simp only [h, if_true]
    cases rd s 0 with
    | none => rfl
    | some code0 =>
      cases rd s 1 with
      | none => rfl
      | some code1 =>
        cases rd s 2 with
        | none => rfl
        | some code2 =>
          simp only [Option.some_bind]
          by_cases h0 : code0 = T .PUSH1
          · simp only [h0, if_true]
            repeat (first
              | exact fuseIf_frame _ p _ _ (_, _) (by simp)
              | refine bind_lift (fuseIf_frame _ p _ _ (_, _) (by simp)) (fun st => ?_))
          · simp only [h0, if_false]; rfl
  · simp only [h, if_false]; rfl

theorem block4_append (T : OpcodeTable) (p s : List Nat) (n : Nat) :
    block4 T (p.length + n) (p ++ s) p.length = (block4 T n s 0).map (liftFlag p) := by
  unfold block4
  simp only [rd_append_add, Nat.add_lt_add_iff_left, gt_iff_lt, Nat.zero_add,
    Option.bind_eq_bind, Option.pure_def]
  by_cases h : 3 < n
  · simp only [h, if_true]
    cases rd s 0 with
    | none => rfl
    | some code0 =>
      cases rd s 1 with
      | none => rfl
      | some code1 =>
        cases rd s 2 with
        | none => rfl
        | some code2 =>
          cases rd s 3 with
          | none => rfl
          | some code3 =>
            simp only [Option.some_bind]
            repeat (first
              | exact fuseIf_frame _ p _ _ (_, _) (by simp)
              | refine bind_lift (fuseIf_frame _ p _ _ (_, _) (by simp)) (fun st => ?_))
  · simp only [h, if_false]; rfl

theorem block5_append (T : OpcodeTable) (p s : List Nat) (n : Nat) :
    block5 T (p.length + n) (p ++ s) p.length = (block5 T n s 0).map (liftFlag p) := by
  unfold block5
  simp only [rd_append_add, Nat.add_lt_add_iff_left, gt_iff_lt, Nat.zero_add,
    Option.bind_eq_bind, Option.pure_def]
  by_cases h : 4 < n
  · simp only [h, if_true]
    cases rd s 0 with
    | none => rfl
    | some code0 =>
      cases rd s 1 with
      | none => rfl
      | some code1 =>
        cases rd s 2 with
        | none => rfl
        | some code2 =>
          cases rd s 3 with
          | none => rfl
          | some code3 =>
            cases rd s 4 with
            | none => rfl
            | some code4 =>
              simp only [Option.some_bind]
              refine bind_lift (fuseIf_frame _ p _ _ (_, _) (by simp)) (fun st => ?_)
              by_cases hz : code0 = T .ISZERO ∧ code1 = T .PUSH2 ∧ code4 = T .JUMPI
              · simp only [hz, and_self, if_true, liftFlag]
                have e : [(p.length, T .JumpIfZero), (p.length + 1, T .Nop),
                    (p.length + 4, T .Nop)]
                    = List.map (fun w : Nat × Nat => (p.length + w.1, w.2))
                      [(0, T .JumpIfZero), (1, T .Nop), (4, T .Nop)] := by simp
                rw [e, wrAll_append]
                cases wrAll st.1 [(0, T .JumpIfZero), (1, T .Nop), (4, T .Nop)] with
                | none => rfl
                | some b =>
                  simp only [Option.map_some', Option.some_bind, rdSlice_append]
                  cases rdSlice b 2 4 <;> rfl
              · simp only [hz, if_false]; rfl
  · simp only [h, if_false]; rfl

theorem fuseShlAndSub_append (T : OpcodeTable) (p s : List Nat) (c : OpCodeCache)
    (c1 c3 c5 : Nat) :
    fuseShlAndSub T (p ++ s) c p.length c1 c3 c5
      = (fuseShlAndSub T s c 0 c1 c3 c5).map (liftBody p) := by
  unfold fuseShlAndSub
  simp only [Option.bind_eq_bind, Option.pure_def, wr_append_len, Nat.zero_add]
  cases wr s 0 (T .ShlAndSub) with
  | none => rfl
  | some b1 =>
    simp only [Option.map_some', Option.some_bind]
    have e1 : [(p.length + 1, c1), (p.length + 2, c3), (p.length + 3, c5)]
        = List.map (fun w : Nat × Nat => (p.length + w.1, w.2))
          [(1, c1), (2, c3), (3, c5)] := by simp
    rw [e1, wrAll_append]
    cases wrAll b1 [(1, c1), (2, c3), (3, c5)] with
    | none => rfl
    | some b2 =>
      simp only [Option.map_some', Option.some_bind]
      have e2 : [(p.length + 4, T .Nop), (p.length + 5, T .Nop), (p.length + 6, T .Nop),
          (p.length + 7, T .Nop)]
          = List.map (fun w : Nat × Nat => (p.length + w.1, w.2))
            [(4, T .Nop), (5, T .Nop), (6, T .Nop), (7, T .Nop)] := by simp
      rw [e2, wrAll_append]
      cases wrAll b2 [(4, T .Nop), (5, T .Nop), (6, T .Nop), (7, T .Nop)] with
      | none => rfl
      | some b3 => rfl

theorem block8_append (T : OpcodeTable) (p s : List Nat) (n : Nat) (c : OpCodeCache) :
    block8 T (p.length + n) (p ++ s) c p.length
      = (block8 T n s c 0).map (Option.map (liftBody p)) := by
  unfold block8
  simp only [rd_append_add, Nat.add_lt_add_iff_left, gt_iff_lt, Nat.zero_add,
    Option.bind_eq_bind, Option.pure_def]
  by_cases h : 7 < n
  · simp only [h, if_true]
    cases rd s 0 with
    | none => rfl
    | some code0 =>
    cases rd s 1 with
    | none => rfl
    | some code1 =>
    cases rd s 2 with
    | none => rfl
    | some code2 =>
    cases rd s 3 with
    | none => rfl
    | some code3 =>
    cases rd s 4 with
    | none => rfl
    | some code4 =>
    cases rd s 5 with
    | none => rfl
    | some code5 =>
    cases rd s 6 with
    | none => rfl
    | some code6 =>
    cases rd s 7 with
    | none => rfl
    | some code7 =>
      simp only [Option.some_bind]
      split
      · rw [fuseShlAndSub_append]
        cases fuseShlAndSub T s c 0 code1 code3 code5 <;> rfl
      · rfl
  · simp only [h, if_false]; rfl

theorem calculateSkipSteps_append (T : OpcodeTable) (p s : List Nat) :
    calculateSkipSteps T (p ++ s) p.length = calculateSkipSteps T s 0 := by
  unfold calculateSkipSteps
  rw [rd_append_len]

theorem fusionBody_append (T : OpcodeTable) (p s : List Nat) (n : Nat) (c : OpCodeCache) :
    fusionBody T (p.length + n) (p ++ s) c p.length
      = (fusionBody T n s c 0).map (liftBody p) := by
  unfold fusionBody
  simp only [Option.bind_eq_bind, Option.pure_def, block8_append, Nat.zero_add]
  cases block8 T n s c 0 with
  | none => rfl
  | some r8 =>
  cases r8 with
  | some r => rfl
  | none =>
  simp only [Option.map_some', Option.some_bind, Option.map_none', block5_append]
  cases block5 T n s 0 with
  | none => rfl
  | some s5 =>
  simp only [Option.map_some', Option.some_bind, liftFlag]
  cases h5 : s5.2 with
  | true => simp [liftBody]
  | false =>
  simp only [Bool.false_eq_true, if_false, block4_append]
  cases block4 T n s5.1 0 with
  | none => rfl
  | some s4 =>
  simp only [Option.map_some', Option.some_bind, liftFlag]
  cases h4 : s4.2 with
  | true => simp [liftBody]
  | false =>
  simp only [Bool.false_eq_true, if_false, block3_append]
  cases block3 T n s4.1 0 with
  | none => rfl
  | some s3 =>
  simp only [Option.map_some', Option.some_bind, liftFlag]
  cases h3 : s3.2 with
  | true => simp [liftBody]
  | false =>
  simp only [Bool.false_eq_true, if_false, block2_append]
  cases block2 T n s3.1 0 with
  | none => rfl
  | some s2 =>
  simp only [Option.map_some', Option.some_bind, liftFlag]
  cases h2 : s2.2 with
  | true => simp [liftBody]
  | false =>
  simp only [Bool.false_eq_true, if_false, calculateSkipSteps_append]
  cases calculateSkipSteps T s2.1 0 with
  | none => rfl
  | some r =>
  simp only [Option.some_bind]
  cases r.1 <;> simp [liftBody]

/-! ## Every block returns and keeps the buffer length -/

theorem fuseIf_length (cond : Prop) [Decidable cond] (ws : List (Nat × Nat))
    (st r : List Nat × Bool) (h : fuseIf cond ws st = some r) :
    r.1.length = st.1.length := by
  unfold fuseIf at h
  split at h
  · cases h1 : wrAll st.1 ws with
    | none => simp [h1] at h
    | some b => simp [h1] at h; subst h; exact wrAll_length _ _ _ h1
  · simp at h; subst h; rfl

theorem fuseIf_isSome (cond : Prop) [Decidable cond] (ws : List (Nat × Nat))
    (st : List Nat × Bool) (h : ∀ w ∈ ws, w.1 < st.1.length) :
    ∃ r, fuseIf cond ws st = some r ∧ r.1.length = st.1.length := by
  unfold fuseIf
  split
  · obtain ⟨b, hb, hl⟩ := wrAll_isSome ws st.1 h
    exact ⟨(b, true), by simp [hb], hl⟩
  · exact ⟨st, rfl, rfl⟩

theorem fuseIf_chain (cond : Prop) [Decidable cond] (ws : List (Nat × Nat))
    (st : List Nat × Bool) (n : Nat) (hl : st.1.length = n) (hw : ∀ w ∈ ws, w.1 < n)
    (g : List Nat × Bool → Option (List Nat × Bool))
    (hg : ∀ r : List Nat × Bool, r.1.length = n → ∃ r', g r = some r' ∧ r'.1.length = n) :
    ∃ r', (fuseIf cond ws st).bind g = some r' ∧ r'.1.length = n := by
  obtain ⟨r, hr, hrl⟩ := fuseIf_isSome cond ws st (by rw [hl]; exact hw)
  rw [hr, Option.some_bind]
  exact hg r (by rw [hrl, hl])

theorem fuseIf_last (cond : Prop) [Decidable cond] (ws : List (Nat × Nat))
    (st : List Nat × Bool) (n : Nat) (hl : st.1.length = n) (hw : ∀ w ∈ ws, w.1 < n) :
    ∃ r', fuseIf cond ws st = some r' ∧ r'.1.length = n := by
  obtain ⟨r, hr, hrl⟩ := fuseIf_isSome cond ws st (by rw [hl]; exact hw)
  exact ⟨r, hr, by rw [hrl, hl]⟩

theorem block2_total (T : OpcodeTable) (n : Nat) (buf : List Nat) (cur : Nat)
    (hn : buf.length = n) : ∃ r, block2 T n buf cur = some r ∧ r.1.length = n := by
  unfold block2
  simp only [Option.bind_eq_bind, Option.pure_def, gt_iff_lt]
  split
  · obtain ⟨c0, h0⟩ := rd_of_lt buf (cur + 0) (by omega)
    obtain ⟨c1, h1⟩ := rd_of_lt buf (cur + 1) (by omega)
    simp only [h0, h1, Option.some_bind]
    repeat (first
      | exact fuseIf_last _ _ _ n (by assumption) (by simp; omega)
      | refine fuseIf_chain _ _ _ n (by assumption) (by simp; omega) _ (fun r hr => ?_))
  · exact ⟨_, rfl, hn⟩

theorem block3_total (T : OpcodeTable) (n : Nat) (buf : List Nat) (cur : Nat)
    (hn : buf.length = n) : ∃ r, block3 T n buf cur = some r ∧ r.1.length = n := by
  unfold block3
  simp only [Option.bind_eq_bind, Option.pure_def, gt_iff_lt]
  split
  · obtain ⟨c0, h0⟩ := rd_of_lt buf (cur + 0) (by omega)
    obtain ⟨c1, h1⟩ := rd_of_lt buf (cur + 1) (by omega)
    obtain ⟨c2, h2⟩ := rd_of_lt buf (cur + 2) (by omega)
    simp only [h0, h1, h2, Option.some_bind]
    split
    · repeat (first
        | exact fuseIf_last _ _ _ n (by assumption) (by simp; omega)
        | refine fuseIf_chain _ _ _ n (by assumption) (by simp; omega) _ (fun r hr => ?_))
    · exact ⟨_, rfl, hn⟩
  · exact ⟨_, rfl, hn⟩

theorem block4_total (T : OpcodeTable) (n : Nat) (buf : List Nat) (cur : Nat)
    (hn : buf.length = n) : ∃ r, block4 T n buf cur = some r ∧ r.1.length = n := by
  unfold block4
  by_cases hg : n > cur + 3
  swap
  · rw [if_neg hg]; exact ⟨_, rfl, hn⟩
  rw [if_pos hg]
  simp only [Option.bind_eq_bind, Option.pure_def]
  · obtain ⟨c0, h0⟩ := rd_of_lt buf (cur + 0) (by omega)
    obtain ⟨c1, h1⟩ := rd_of_lt buf (cur + 1) (by omega)
    obtain ⟨c2, h2⟩ := rd_of_lt buf (cur + 2) (by omega)
    obtain ⟨c3, h3⟩ := rd_of_lt buf (cur + 3) (by omega)
    simp only [h0, h1, h2, h3, Option.some_bind]
    repeat (first
      | exact fuseIf_last _ _ _ n (by assumption) (by simp; omega)
      | refine fuseIf_chain _ _ _ n (by assumption) (by simp; omega) _ (fun r hr => ?_))

theorem block5_total (T : OpcodeTable) (n : Nat) (buf : List Nat) (cur : Nat)
    (hn : buf.length = n) : ∃ r, block5 T n buf cur = some r ∧ r.1.length = n := by
  unfold block5
  simp only [Option.bind_eq_bind, Option.pure_def, gt_iff_lt]
  split
  · obtain ⟨c0, h0⟩ := rd_of_lt buf (cur + 0) (by omega)
    obtain ⟨c1, h1⟩ := rd_of_lt buf (cur + 1) (by omega)
    obtain ⟨c2, h2⟩ := rd_of_lt buf (cur + 2) (by omega)
    obtain ⟨c3, h3⟩ := rd_of_lt buf (cur + 3) (by omega)
    obtain ⟨c4, h4⟩ := rd_of_lt buf (cur + 4) (by omega)
    simp only [h0, h1, h2, h3, h4, Option.some_bind]
    obtain ⟨st, hst, hstl⟩ := fuseIf_last (c0 = T .AND ∧ c1 = T .SWAP1 ∧ c2 = T .POP ∧
        c3 = T .SWAP2 ∧ c4 = T .SWAP1)
      [(cur, T .AndSwap1PopSwap2Swap1), (cur + 1, T .Nop), (cur + 2, T .Nop),
        (cur + 3, T .Nop), (cur + 4, T .Nop)] (buf, false) n hn (by simp; omega)
    rw [hst, Option.some_bind]
    split
    · obtain ⟨b, hb, hbl⟩ := wrAll_isSome
        [(cur, T .JumpIfZero), (cur + 1, T .Nop), (cur + 4, T .Nop)] st.1
        (by simp; omega)
      have hs : ∃ sl, rdSlice b (cur + 2) (cur + 4) = some sl := by
        unfold rdSlice
        rw [if_pos (by omega)]
        exact ⟨_, rfl⟩
      obtain ⟨sl, hsl⟩ := hs
      simp only [hb, hsl, Option.some_bind]
      exact ⟨_, rfl, by simp [hbl, hstl]⟩
    · exact ⟨_, rfl, hstl⟩
  · exact ⟨_, rfl, hn⟩

theorem fuseShlAndSub_total (T : OpcodeTable) (buf : List Nat) (c : OpCodeCache)
    (cur c1 c3 c5 : Nat) (h : cur + 7 < buf.length) :
    ∃ b, fuseShlAndSub T buf c cur c1 c3 c5
        = some (b, c.CacheShlAndSubMap c1 c3 c5 (some (Sub (Lsh (NewInt c3) c5) (NewInt c1))),
            cur + 7)
      ∧ b.length = buf.length := by
  unfold fuseShlAndSub
  simp only [Option.bind_eq_bind, Option.pure_def]
  have h1 : wr buf cur (T .ShlAndSub) = some (buf.set cur (T .ShlAndSub)) := by
    simp [wr]; omega
  obtain ⟨b2, hb2, hl2⟩ := wrAll_isSome [(cur + 1, c1), (cur + 2, c3), (cur + 3, c5)]
    (buf.set cur (T .ShlAndSub)) (by simp only [List.length_set]; simp; omega)
  obtain ⟨b3, hb3, hl3⟩ := wrAll_isSome [(cur + 4, T .Nop), (cur + 5, T .Nop),
    (cur + 6, T .Nop), (cur + 7, T .Nop)] b2 (by rw [hl2, List.length_set]; simp; omega)
  simp only [h1, hb2, hb3, Option.some_bind]
  exact ⟨b3, rfl, by simp [hl3, hl2]⟩

theorem block8_total (T : OpcodeTable) (n : Nat) (buf : List Nat) (c : OpCodeCache) (cur : Nat)
    (hn : buf.length = n) :
    block8 T n buf c cur = some none ∨
      ∃ b c' , block8 T n buf c cur = some (some (b, c', cur + 7)) ∧ b.length = n := by
  unfold block8
  by_cases hg : n > cur + 7
  swap
  · rw [if_neg hg]; left; rfl
  rw [if_pos hg]
  simp only [Option.bind_eq_bind, Option.pure_def]
  · obtain ⟨c0, h0⟩ := rd_of_lt buf (cur + 0) (by omega)
    obtain ⟨c1, h1⟩ := rd_of_lt buf (cur + 1) (by omega)
    obtain ⟨c2, h2⟩ := rd_of_lt buf (cur + 2) (by omega)
    obtain ⟨c3, h3⟩ := rd_of_lt buf (cur + 3) (by omega)
    obtain ⟨c4, h4⟩ := rd_of_lt buf (cur + 4) (by omega)
    obtain ⟨c5, h5⟩ := rd_of_lt buf (cur + 5) (by omega)
    obtain ⟨c6, h6⟩ := rd_of_lt buf (cur + 6) (by omega)
    obtain ⟨c7, h7⟩ := rd_of_lt buf (cur + 7) (by omega)
    simp only [h0, h1, h2, h3, h4, h5, h6, h7, Option.some_bind]
    split
    · obtain ⟨b, hb, hbl⟩ := fuseShlAndSub_total T buf c cur c1 c3 c5 (by omega)
      right
      exact ⟨b, _, by rw [hb]; rfl, by omega⟩
    · left; rfl

theorem calculateSkipSteps_total (T : OpcodeTable) (code : List Nat) (cur : Nat)
    (h : cur < code.length) : ∃ r, calculateSkipSteps T code cur = some r := by
  unfold calculateSkipSteps
  obtain ⟨v, hv⟩ := rd_of_lt code cur h
  rw [hv, Option.some_bind]
  repeat (first | exact ⟨_, rfl⟩ | split)

theorem fusionBody_total (T : OpcodeTable) (buf : List Nat) (c : OpCodeCache) (cur : Nat)
    (h : cur < buf.length) :
    ∃ b c' k, fusionBody T buf.length buf c cur = some (b, c', cur + k)
      ∧ b.length = buf.length := by
  unfold fusionBody
  simp only [Option.bind_eq_bind, Option.pure_def]
  rcases block8_total T buf.length buf c cur rfl with h8 | ⟨b, c', h8, hl⟩
  · rw [h8, Option.some_bind]
    obtain ⟨s5, h5, l5⟩ := block5_total T buf.length buf cur rfl
    simp only [h5, Option.some_bind]
    split
    · exact ⟨_, _, 4, rfl, l5⟩
    obtain ⟨s4, h4, l4⟩ := block4_total T buf.length s5.1 cur l5
    simp only [h4, Option.some_bind]
    split
    · exact ⟨_, _, 3, rfl, l4⟩
    obtain ⟨s3, h3, l3⟩ := block3_total T buf.length s4.1 cur l4
    simp only [h3, Option.some_bind]
    split
    · exact ⟨_, _, 2, rfl, l3⟩
    obtain ⟨s2, h2, l2⟩ := block2_total T buf.length s3.1 cur l3
    simp only [h2, Option.some_bind]
    split
    · exact ⟨_, _, 1, rfl, l2⟩
    obtain ⟨r, hr⟩ := calculateSkipSteps_total T s2.1 cur (by omega)
    simp only [hr, Option.some_bind]
    split
    · exact ⟨_, _, r.2, rfl, l2⟩
    · exact ⟨_, _, 0, rfl, l2⟩
  · rw [h8, Option.some_bind]
    exact ⟨b, c', 7, rfl, hl⟩

/-! ## The loop: termination, fuel and locality -/

theorem fusionLoop_ge (T : OpcodeTable) (n fuel : Nat) (buf : List Nat) (c : OpCodeCache)
    (i : Nat) (h : n ≤ i) : fusionLoop T n fuel buf c i = some (buf, c) := by
  unfold fusionLoop
  rw [if_neg (by omega)]

theorem fusionLoop_succ (T : OpcodeTable) (n fuel : Nat) (buf : List Nat) (c : OpCodeCache)
    (i : Nat) (h : i < n) :
    fusionLoop T n (fuel + 1) buf c i
      = (fusionBody T n buf c i).bind fun r => fusionLoop T n fuel r.1 r.2.1 (r.2.2 + 1) := by
  rw [fusionLoop, if_pos h]

theorem fusionLoop_total (T : OpcodeTable) (fuel : Nat) (buf : List Nat) (c : OpCodeCache)
    (i : Nat) (hf : buf.length ≤ i + fuel) :
    ∃ b c', fusionLoop T buf.length fuel buf c i = some (b, c') ∧ b.length = buf.length := by
  induction fuel generalizing buf c i with
  | zero => exact ⟨buf, c, fusionLoop_ge T _ _ _ _ _ (by omega), rfl⟩
  | succ f ih =>
    by_cases h : i < buf.length
    · obtain ⟨b, c', k, hb, hl⟩ := fusionBody_total T buf c i h
      rw [fusionLoop_succ T _ _ _ _ _ h, hb, Option.some_bind]
      obtain ⟨b', c'', h', hl'⟩ := ih b c' (i + k + 1) (by omega)
      rw [hl] at h'
      exact ⟨b', c'', h', by omega⟩
    · exact ⟨buf, c, fusionLoop_ge T _ _ _ _ _ (by omega), rfl⟩

theorem fusionLoop_fuel (T : OpcodeTable) (f f' : Nat) (buf : List Nat) (c : OpCodeCache)
    (i : Nat) (hf : buf.length ≤ i + f) (hf' : buf.length ≤ i + f') :
    fusionLoop T buf.length f buf c i = fusionLoop T buf.length f' buf c i := by
  induction f generalizing f' buf c i with
  | zero => rw [fusionLoop_ge T _ _ _ _ _ (by omega), fusionLoop_ge T _ _ _ _ _ (by omega)]
  | succ f ih =>
    by_cases h : i < buf.length
    · obtain ⟨f0, rfl⟩ : ∃ f0, f' = f0 + 1 := ⟨f' - 1, by omega⟩
      obtain ⟨b, c', k, hb, hl⟩ := fusionBody_total T buf c i h
      rw [fusionLoop_succ T _ _ _ _ _ h, fusionLoop_succ T _ _ _ _ _ h, hb,
        Option.some_bind, Option.some_bind]
      have := ih f0 b c' (i + k + 1) (by omega) (by omega)
      rw [hl] at this
      exact this
    · rw [fusionLoop_ge T _ _ _ _ _ (by omega), fusionLoop_ge T _ _ _ _ _ (by omega)]

/-- The loop started at index `i` is the loop started at index `0` on the
bytes from `i` on, with the bytes before `i` put back in front. -/
theorem fusionLoop_drop (T : OpcodeTable) (fuel : Nat) (buf : List Nat) (c : OpCodeCache)
    (i : Nat) :
    fusionLoop T buf.length fuel buf c i
      = (fusionLoop T (buf.drop i).length fuel (buf.drop i) c 0).map
          fun r => (buf.take i ++ r.1, r.2) := by
  induction fuel generalizing buf c i with
  | zero =>
    by_cases h : i < buf.length
    · have h0 : 0 < (buf.drop i).length := by simp; omega
      rw [fusionLoop, if_pos h, fusionLoop, if_pos h0]; rfl
    · rw [fusionLoop_ge T _ _ _ _ _ (by omega), fusionLoop_ge T _ _ _ _ _ (by simp; omega)]
      have : buf.drop i = [] := by simp; omega
      simp [this, List.take_of_length_le (show buf.length ≤ i by omega)]
  | succ f ih =>
    by_cases h : i < buf.length
    · have h0 : 0 < (buf.drop i).length := by simp; omega
      rw [fusionLoop_succ T _ _ _ _ _ h, fusionLoop_succ T _ _ _ _ _ h0]
      have hsplit : buf = buf.take i ++ buf.drop i := (List.take_append_drop i buf).symm
      have hpl : (buf.take i).length = i := by simp; omega
      have hframe := fusionBody_append T (buf.take i) (buf.drop i) (buf.drop i).length c
      rw [← List.length_append, ← hsplit, hpl] at hframe
      rw [hframe]
      obtain ⟨b, c', k, hb, hl⟩ := fusionBody_total T (buf.drop i) c 0 h0
      rw [hb]
      simp only [Option.map_some', Option.some_bind, liftBody, hpl]
      have e1 := ih (buf.take i ++ b) c' (i + (0 + k) + 1)
      have hlen : (buf.take i ++ b).length = buf.length := by
        rw [List.length_append, hl, ← List.length_append, ← hsplit]
      rw [hlen] at e1
      rw [e1]
      have e2 := ih b c' (0 + k + 1)
      rw [hl] at e2
      rw [e2]
      have hd : List.drop (i + (0 + k) + 1) (buf.take i ++ b) = List.drop (0 + k + 1) b := by
        have : i + (0 + k) + 1 = (buf.take i).length + (0 + k + 1) := by omega
        rw [this, List.drop_append]
      have ht : List.take (i + (0 + k) + 1) (buf.take i ++ b)
          = buf.take i ++ List.take (0 + k + 1) b := by
        have : i + (0 + k) + 1 = (buf.take i).length + (0 + k + 1) := by omega
        rw [this, List.take_append]
      rw [hd, ht]
      cases fusionLoop T (List.drop (0 + k + 1) b).length f (List.drop (0 + k + 1) b) c' 0 with
      | none => rfl
      | some r => simp
    · rw [fusionLoop_ge T _ _ _ _ _ (by omega), fusionLoop_ge T _ _ _ _ _ (by simp; omega)]
      have : buf.drop i = [] := by simp; omega
      simp [this, List.take_of_length_le (show buf.length ≤ i by omega)]

/-! ## The cache does not steer the rewrite; one step of doCodeFusion -/

theorem fuseShlAndSub_eq (T : OpcodeTable) (s : List Nat) (c : OpCodeCache)
    (cur c1 c3 c5 : Nat) :
    fuseShlAndSub T s c cur c1 c3 c5
      = (wrAll s [(cur, T .ShlAndSub), (cur + 1, c1), (cur + 2, c3), (cur + 3, c5),
          (cur + 4, T .Nop), (cur + 5, T .Nop), (cur + 6, T .Nop), (cur + 7, T .Nop)]).map
          fun b => (b, stepCache c (some (c1, c3, c5)), cur + 7) := by
  unfold fuseShlAndSub
  simp only [Option.bind_eq_bind, Option.pure_def, wrAll, stepCache, shlAndSubVal]
  cases wr s cur (T .ShlAndSub) with
  | none => rfl
  | some b1 =>
    simp only [Option.some_bind]
    cases wr b1 (cur + 1) c1 with
    | none => rfl
    | some b2 =>
    simp only [Option.some_bind]
    cases wr b2 (cur + 2) c3 with
    | none => rfl
    | some b3 =>
    simp only [Option.some_bind]
    cases wr b3 (cur + 3) c5 with
    | none => rfl
    | some b4 =>
    simp only [Option.some_bind]
    cases wr b4 (cur + 4) (T .Nop) with
    | none => rfl
    | some b5 =>
    simp only [Option.some_bind]
    cases wr b5 (cur + 5) (T .Nop) with
    | none => rfl
    | some b6 =>
    simp only [Option.some_bind]
    cases wr b6 (cur + 6) (T .Nop) with
    | none => rfl
    | some b7 =>
    simp only [Option.some_bind]
    cases wr b7 (cur + 7) (T .Nop) with
    | none => rfl
    | some b8 => simp only [Option.some_bind, Option.map_some']

theorem block8_shape (T : OpcodeTable) (n : Nat) (s : List Nat) (cur : Nat) :
    ∃ o : Option (Option (List Nat × (Nat × Nat × Nat))),
      ∀ c, block8 T n s c cur
        = o.map (Option.map fun q => (q.1, stepCache c (some q.2), cur + 7)) := by
  unfold block8
  by_cases hg : n > cur + 7
  swap
  · exact ⟨some none, fun c => by rw [if_neg hg]; rfl⟩
  simp only [if_pos hg, Option.bind_eq_bind, Option.pure_def]
  cases rd s (cur + 0) with
  | none => exact ⟨none, fun c => rfl⟩
  | some code0 =>
  cases rd s (cur + 1) with
  | none => exact ⟨none, fun c => rfl⟩
  | some code1 =>
  cases rd s (cur + 2) with
  | none => exact ⟨none, fun c => rfl⟩
  | some code2 =>
  cases rd s (cur + 3) with
  | none => exact ⟨none, fun c => rfl⟩
  | some code3 =>
  cases rd s (cur + 4) with
  | none => exact ⟨none, fun c => rfl⟩
  | some code4 =>
  cases rd s (cur + 5) with
  | none => exact ⟨none, fun c => rfl⟩
  | some code5 =>
  cases rd s (cur + 6) with
  | none => exact ⟨none, fun c => rfl⟩
  | some code6 =>
  cases rd s (cur + 7) with
  | none => exact ⟨none, fun c => rfl⟩
  | some code7 =>
    simp only [Option.some_bind]
    by_cases hc : code0 = T .PUSH1 ∧ code2 = T .PUSH1 ∧ code4 = T .PUSH1 ∧
        code6 = T .SHL ∧ code7 = T .SUB
    · simp only [if_pos hc, fuseShlAndSub_eq]
      cases wrAll s [(cur, T .ShlAndSub), (cur + 1, code1), (cur + 2, code3),
          (cur + 3, code5), (cur + 4, T .Nop), (cur + 5, T .Nop), (cur + 6, T .Nop),
          (cur + 7, T .Nop)] with
      | none => exact ⟨none, fun c => rfl⟩
      | some b => exact ⟨some (some (b, (code1, code3, code5))), fun c => rfl⟩
    · simp only [if_neg hc]
      exact ⟨some none, fun c => rfl⟩

/-- A loop iteration factors through data that does not depend on the cache:
the new buffer, the operands of the `ShlAndSub` rewrite if there was one, and
the new index. -/
theorem fusionBody_shape (T : OpcodeTable) (n : Nat) (s : List Nat) (cur : Nat) :
    ∃ o : Option (List Nat × Option (Nat × Nat × Nat) × Nat),
      ∀ c, fusionBody T n s c cur = o.map fun q => (q.1, stepCache c q.2.1, q.2.2) := by
  obtain ⟨o8, h8⟩ := block8_shape T n s cur
  unfold fusionBody
  simp only [h8, Option.bind_eq_bind, Option.pure_def]
  cases o8 with
  | none => exact ⟨none, fun c => rfl⟩
  | some r8 =>
  cases r8 with
  | some q => exact ⟨some (q.1, some q.2, cur + 7), fun c => rfl⟩
  | none =>
  simp only [Option.map_some', Option.map_none', Option.some_bind]
  cases block5 T n s cur with
  | none => exact ⟨none, fun c => rfl⟩
  | some s5 =>
  simp only [Option.some_bind]
  cases h5 : s5.2 with
  | true => exact ⟨some (s5.1, none, cur + 4), fun c => by simp [stepCache]⟩
  | false =>
  simp only [Bool.false_eq_true, if_false]
  cases block4 T n s5.1 cur with
  | none => exact ⟨none, fun c => rfl⟩
  | some s4 =>
  simp only [Option.some_bind]
  cases h4 : s4.2 with
  | true => exact ⟨some (s4.1, none, cur + 3), fun c => by simp [stepCache]⟩
  | false =>
  simp only [Bool.false_eq_true, if_false]
  cases block3 T n s4.1 cur with
  | none => exact ⟨none, fun c => rfl⟩
  | some s3 =>
  simp only [Option.some_bind]
  cases h3 : s3.2 with
  | true => exact ⟨some (s3.1, none, cur + 2), fun c => by simp [stepCache]⟩
  | false =>
  simp only [Bool.false_eq_true, if_false]
  cases block2 T n s3.1 cur with
  | none => exact ⟨none, fun c => rfl⟩
  | some s2 =>
  simp only [Option.some_bind]
  cases h2 : s2.2 with
  | true => exact ⟨some (s2.1, none, cur + 1), fun c => by simp [stepCache]⟩
  | false =>
  simp only [Bool.false_eq_true, if_false]
  cases calculateSkipSteps T s2.1 cur with
  | none => exact ⟨none, fun c => rfl⟩
  | some r =>
  simp only [Option.some_bind]
  cases hr : r.1 with
  | true => exact ⟨some (s2.1, none, cur + r.2), fun c => by simp [stepCache]⟩
  | false => exact ⟨some (s2.1, none, cur), fun c => by simp [stepCache]⟩
theorem fusionLoop_cache (T : OpcodeTable) (n fuel : Nat) (buf : List Nat)
    (c c' : OpCodeCache) (i : Nat) :
    (fusionLoop T n fuel buf c i).map (fun r => r.1)
      = (fusionLoop T n fuel buf c' i).map (fun r => r.1) := by
  induction fuel generalizing buf c c' i with
  | zero =>
    by_cases h : i < n
    · rw [fusionLoop, if_pos h, fusionLoop, if_pos h]
    · rw [fusionLoop_ge T _ _ _ _ _ (by omega), fusionLoop_ge T _ _ _ _ _ (by omega)]; rfl
  | succ f ih =>
    by_cases h : i < n
    · rw [fusionLoop_succ T _ _ _ _ _ h, fusionLoop_succ T _ _ _ _ _ h]
      obtain ⟨o, ho⟩ := fusionBody_shape T n buf i
      rw [ho c, ho c']
      cases o with
      | none => rfl
      | some q => exact ih q.1 _ _ (q.2.2 + 1)
    · rw [fusionLoop_ge T _ _ _ _ _ (by omega), fusionLoop_ge T _ _ _ _ _ (by omega)]; rfl

/-- The fused bytes do not depend on the cache `doCodeFusion` starts from. -/
theorem doCodeFusion_cache (T : OpcodeTable) (c c' : OpCodeCache) (code : List Nat) :
    (doCodeFusion T c code).map (fun r => r.1) = (doCodeFusion T c' code).map (fun r => r.1) := by
  have := fusionLoop_cache T code.length code.length code c c' 0
  unfold doCodeFusion
  simpa [Option.map_map, Function.comp_def] using this

theorem doCodeFusion_total (T : OpcodeTable) (c : OpCodeCache) (code : List Nat) :
    ∃ fused c', doCodeFusion T c code = some (fused, none, c') ∧ fused.length = code.length := by
  obtain ⟨b, c', h, hl⟩ := fusionLoop_total T code.length code c 0 (by omega)
  exact ⟨b, c', by simp [doCodeFusion, h], hl⟩

/-- One step of `doCodeFusion` on a non-empty code: if the loop body at index
`0` yields buffer `b`, cache `c1` and index `k`, the result is the first `k+1`
bytes of `b` followed by `doCodeFusion` of the remaining bytes, run from `c1`. -/
theorem doCodeFusion_step (T : OpcodeTable) (c c1 : OpCodeCache) (code b : List Nat) (k : Nat)
    (hb : fusionBody T code.length code c 0 = some (b, c1, k)) :
    doCodeFusion T c code
      = (doCodeFusion T c1 (b.drop (k + 1))).map
          fun r => (b.take (k + 1) ++ r.1, r.2.1, r.2.2) := by
  have hpos : 0 < code.length := by
    rcases Nat.eq_zero_or_pos code.length with h0 | h0
    · have := List.length_eq_zero.mp h0
      subst this
      simp [fusionBody, block8, block5, block4, block3, block2, calculateSkipSteps] at hb
    · exact h0
  obtain ⟨b', c', k', hb', hl⟩ := fusionBody_total T code c 0 hpos
  rw [hb] at hb'
  simp only [Option.some.injEq, Prod.mk.injEq] at hb'
  obtain ⟨rfl, rfl, hk⟩ := hb'
  obtain ⟨f, hf⟩ : ∃ f, code.length = f + 1 := ⟨code.length - 1, by omega⟩
  unfold doCodeFusion
  rw [show fusionLoop T code.length code.length code c 0
      = fusionLoop T code.length (f + 1) code c 0 by rw [← hf]]
  rw [fusionLoop_succ T _ _ _ _ _ hpos, hb, Option.some_bind]
  simp only
  rw [← hl, fusionLoop_drop,
    fusionLoop_fuel T f (List.drop (k + 1) b).length (List.drop (k + 1) b) c1 0
      (by simp; omega) (by omega)]
  cases fusionLoop T (List.drop (k + 1) b).length (List.drop (k + 1) b).length
      (List.drop (k + 1) b) c1 0 <;> rfl

theorem doCodeFusion_nil (T : OpcodeTable) (c : OpCodeCache) :
    doCodeFusion T c [] = some ([], none, c) := by
  simp [doCodeFusion, fusionLoop]

/-! ## Claims C1 and C2 -/

theorem fusionBody_shlAndSub (T : OpcodeTable) (c : OpCodeCache) (x y z : Nat)
    (rest : List Nat) :
    fusionBody T (T .PUSH1 :: x :: T .PUSH1 :: y :: T .PUSH1 :: z :: T .SHL :: T .SUB :: rest).length
        (T .PUSH1 :: x :: T .PUSH1 :: y :: T .PUSH1 :: z :: T .SHL :: T .SUB :: rest) c 0
      = some (T .ShlAndSub :: x :: y :: z :: T .Nop :: T .Nop :: T .Nop :: T .Nop :: rest,
          stepCache c (some (x, y, z)), 7) := by
  simp [fusionBody, block8, fuseShlAndSub_eq, wrAll]

theorem fusionBody_single (T : OpcodeTable) (c : OpCodeCache) (b : Nat) :
    ∃ k, fusionBody T 1 [b] c 0 = some ([b], c, k) := by
  have h8 : block8 T 1 [b] c 0 = some none := by
    unfold block8; rw [if_neg (by omega)]; rfl
  have h5 : block5 T 1 [b] 0 = some ([b], false) := by
    unfold block5; rw [if_neg (by omega)]; rfl
  have h4 : block4 T 1 [b] 0 = some ([b], false) := by
    unfold block4; rw [if_neg (by omega)]; rfl
  have h3 : block3 T 1 [b] 0 = some ([b], false) := by
    unfold block3; rw [if_neg (by omega)]; rfl
  have h2 : block2 T 1 [b] 0 = some ([b], false) := by
    unfold block2; rw [if_neg (by omega)]; rfl
  obtain ⟨r, hr⟩ := calculateSkipSteps_total T [b] 0 (by simp)
  unfold fusionBody
  simp only [h8, h5, h4, h3, h2, hr, Option.bind_eq_bind, Option.pure_def,
    Option.some_bind, Bool.false_eq_true, if_false]
  split
  · exact ⟨_, rfl⟩
  · exact ⟨_, rfl⟩

theorem doCodeFusion_single (T : OpcodeTable) (c : OpCodeCache) (b : Nat) :
    doCodeFusion T c [b] = some ([b], none, c) := by
  obtain ⟨k, hk⟩ := fusionBody_single T c b
  rw [doCodeFusion_step T c c [b] [b] k hk]
  simp [doCodeFusion_nil]

/-- C2: for all bytes `x`, `y`, `z` and every `rest`, fusing
`PUSH1 x PUSH1 y PUSH1 z SHL SUB ++ rest` returns
`ShlAndSub x y z Nop Nop Nop Nop` followed by the fusion of `rest` (whatever
the cache holds), with a nil error; in particular
`PUSH1 5 PUSH1 3 PUSH1 2 SHL SUB stop` becomes
`ShlAndSub 5 3 2 Nop Nop Nop Nop stop` for every single byte `stop`, such as
`STOP`. -/
theorem doCodeFusion_shlAndSub (T : OpcodeTable) (c c' : OpCodeCache) (x y z : Nat)
    (rest : List Nat) :
    (∃ out c1 c2, doCodeFusion T c' rest = some (out, none, c1) ∧
      doCodeFusion T c
          ([T .PUSH1, x, T .PUSH1, y, T .PUSH1, z, T .SHL, T .SUB] ++ rest)
        = some ([T .ShlAndSub, x, y, z, T .Nop, T .Nop, T .Nop, T .Nop] ++ out, none, c2)) ∧
    (∀ stop : Nat, ∃ c2,
      doCodeFusion T c [T .PUSH1, 5, T .PUSH1, 3, T .PUSH1, 2, T .SHL, T .SUB, stop]
        = some ([T .ShlAndSub, 5, 3, 2, T .Nop, T .Nop, T .Nop, T .Nop, stop], none, c2)) := by
  have key : ∀ (x y z : Nat) (rest : List Nat) (c c' : OpCodeCache),
      ∃ out c1 c2, doCodeFusion T c' rest = some (out, none, c1) ∧
      doCodeFusion T c
          ([T .PUSH1, x, T .PUSH1, y, T .PUSH1, z, T .SHL, T .SUB] ++ rest)
        = some ([T .ShlAndSub, x, y, z, T .Nop, T .Nop, T .Nop, T .Nop] ++ out, none, c2) := by
    intro x y z rest c c'
    obtain ⟨out, c1, h1, -⟩ := doCodeFusion_total T c' rest
    obtain ⟨out2, c2, h2, -⟩ := doCodeFusion_total T (stepCache c (some (x, y, z))) rest
    have hc := doCodeFusion_cache T c' (stepCache c (some (x, y, z))) rest
    rw [h1, h2] at hc
    simp only [Option.map_some', Option.some.injEq] at hc
    subst hc
    refine ⟨out, c1, c2, h1, ?_⟩
    have hb := fusionBody_shlAndSub T c x y z rest
    have := doCodeFusion_step T c _ _ _ 7 hb
    simp only [List.cons_append, List.nil_append]
    rw [this]
    simp [h2]
  refine ⟨key x y z rest c c', fun stop => ?_⟩
  obtain ⟨out, c1, c2, h1, h2⟩ := key 5 3 2 [stop] c c
  rw [doCodeFusion_single] at h1
  simp only [Option.some.injEq, Prod.mk.injEq] at h1
  obtain ⟨rfl, -⟩ := h1
  exact ⟨c2, h2⟩

/-- C1: for every byte sequence (the empty one included), `doCodeFusion`
returns, with a nil error, a byte sequence of exactly the same length. -/
theorem doCodeFusion_length (T : OpcodeTable) (c : OpCodeCache) (code : List Nat) :
    ∃ fused c', doCodeFusion T c code = some (fused, none, c') ∧
      fused.length = code.length :=
  doCodeFusion_total T c code

/-! ## Claims C3, C5, C9 and C10 -/

theorem sub_mod_cast (a x M : Nat) (hx : x ≤ M) :
    (((a % M + (M - x)) % M : Nat) : Int) = ((a : Int) - x) % (M : Int) := by
  push_cast [Nat.cast_sub hx]
  rw [Int.emod_add_emod]
  have : (a : Int) + ((M : Int) - x) = (a - x) + M := by ring
  rw [this, Int.add_emod_self]

theorem shlAndSubVal_eq (x y z : Nat) (hx : x < 256) (hy : y < 256) :
    (shlAndSubVal x y z : Int) = ((y : Int) * 2 ^ z - x) % 2 ^ 256 := by
  have hM : (256 : Nat) ≤ 2 ^ 256 := by norm_num
  have h64 : (256 : Nat) ≤ 2 ^ 64 := by norm_num
  have h1 : y % 2 ^ 64 = y := Nat.mod_eq_of_lt (Nat.lt_of_lt_of_le hy h64)
  have h2 : x % 2 ^ 64 = x := Nat.mod_eq_of_lt (Nat.lt_of_lt_of_le hx h64)
  have h3 : x % 2 ^ 256 = x := Nat.mod_eq_of_lt (Nat.lt_of_lt_of_le hx hM)
  have := sub_mod_cast (y * 2 ^ z) x (2 ^ 256) (Nat.le_of_lt (Nat.lt_of_lt_of_le hx hM))
  unfold shlAndSubVal Sub Lsh NewInt
  rw [h1, h2, h3, this]
  push_cast
  rfl

theorem shlAndSubVal_5_3_2 : shlAndSubVal 5 3 2 = 7 := by
  unfold shlAndSubVal Sub Lsh NewInt
  norm_num
theorem GoMap.get?_delete_self {K V : Type} [DecidableEq K] (m : GoMap K V) (k : K) :
    GoMap.get? (GoMap.delete m k) k = none := by
  induction m with
  | nil => rfl
  | cons e m ih =>
    obtain ⟨k', v⟩ := e
    by_cases h : k' = k
    · simpa [GoMap.delete, List.filter, h] using ih
    · simpa [GoMap.delete, List.filter, h, GoMap.get?] using ih

theorem GoMap.get?_delete_other {K V : Type} [DecidableEq K] (m : GoMap K V) (k k' : K)
    (hne : k' ≠ k) : GoMap.get? (GoMap.delete m k) k' = GoMap.get? m k' := by
  induction m with
  | nil => rfl
  | cons e m ih =>
    obtain ⟨k0, v⟩ := e
    by_cases h : k0 = k
    · subst h
      have hk : ¬ k0 = k' := fun h' => hne h'.symm
      simpa [GoMap.delete, List.filter, GoMap.get?, hk] using ih
    · by_cases h2 : k0 = k'
      · subst h2
        simp [GoMap.delete, List.filter, hne, GoMap.get?]
      · simpa [GoMap.delete, List.filter, h, GoMap.get?, h2] using ih

theorem GoMap.get?_set_self {K V : Type} [DecidableEq K] (m : GoMap K V) (k : K) (v : V) :
    GoMap.get? (GoMap.set m k v) k = some v := by
  simp [GoMap.set, GoMap.get?]

theorem GoMap.get?_set_other {K V : Type} [DecidableEq K] (m : GoMap K V) (k k' : K) (v : V)
    (hne : k' ≠ k) : GoMap.get? (GoMap.set m k v) k' = GoMap.get? m k' := by
  have hk : ¬ k = k' := fun h' => hne h'.symm
  simp [GoMap.set, GoMap.get?, hk, GoMap.get?_delete_other m k k' hne]

/-- A cached non-nil value survives any later `CacheShlAndSubMap` call. -/
theorem CacheShlAndSubMap_keeps (c : OpCodeCache) (x y z x' y' z' v : Nat) (val : Option Nat)
    (h : c.GetValFromShlAndSubMap x y z = some v) :
    (c.CacheShlAndSubMap x' y' z' val).GetValFromShlAndSubMap x y z = some v := by
  unfold OpCodeCache.CacheShlAndSubMap
  split
  · rename_i hnil
    by_cases hk : (⟨x, y, z⟩ : ThreeU8Operands) = ⟨x', y', z'⟩
    · exfalso
      unfold OpCodeCache.GetValFromShlAndSubMap at h
      rw [← hk] at hnil
      cases hg : GoMap.get? c.shlAndSubMap ⟨x, y, z⟩ with
      | none => simp [hg] at h
      | some w => simp [hg] at h hnil; rw [h] at hnil; simp at hnil
    · unfold OpCodeCache.GetValFromShlAndSubMap at h ⊢
      simp only
      rw [GoMap.get?_set_other _ _ _ _ hk]
      exact h
  · exact h

/-- On a key whose lookup yields the nil pointer, `CacheShlAndSubMap` stores
the value. -/
theorem CacheShlAndSubMap_stores (c : OpCodeCache) (x y z : Nat) (val : Option Nat)
    (h : c.GetValFromShlAndSubMap x y z = none) :
    (c.CacheShlAndSubMap x y z val).GetValFromShlAndSubMap x y z = val := by
  have hj : (GoMap.get? c.shlAndSubMap ⟨x, y, z⟩).join = none := by
    unfold OpCodeCache.GetValFromShlAndSubMap at h
    cases hg : GoMap.get? c.shlAndSubMap ⟨x, y, z⟩ with
    | none => rfl
    | some w => simp [hg] at h; simp [h]
  unfold OpCodeCache.CacheShlAndSubMap
  rw [if_pos hj]
  unfold OpCodeCache.GetValFromShlAndSubMap
  simp only
  rw [GoMap.get?_set_self]

theorem CacheShlAndSubMap_other (c : OpCodeCache) (x y z x' y' z' : Nat) (val : Option Nat)
    (hk : (⟨x, y, z⟩ : ThreeU8Operands) ≠ ⟨x', y', z'⟩) :
    (c.CacheShlAndSubMap x' y' z' val).GetValFromShlAndSubMap x y z
      = c.GetValFromShlAndSubMap x y z := by
  unfold OpCodeCache.CacheShlAndSubMap
  split
  · unfold OpCodeCache.GetValFromShlAndSubMap
    simp only
    rw [GoMap.get?_set_other _ _ _ _ hk]
  · rfl

theorem stepCache_keeps (c : OpCodeCache) (q : Option (Nat × Nat × Nat)) (x y z v : Nat)
    (h : c.GetValFromShlAndSubMap x y z = some v) :
    (stepCache c q).GetValFromShlAndSubMap x y z = some v := by
  cases q with
  | none => exact h
  | some q => exact CacheShlAndSubMap_keeps c x y z _ _ _ v _ h

theorem fusionLoop_keeps (T : OpcodeTable) (n fuel : Nat) (buf : List Nat) (c : OpCodeCache)
    (i : Nat) (b : List Nat) (c' : OpCodeCache) (x y z v : Nat)
    (hrun : fusionLoop T n fuel buf c i = some (b, c'))
    (h : c.GetValFromShlAndSubMap x y z = some v) :
    c'.GetValFromShlAndSubMap x y z = some v := by
  induction fuel generalizing buf c i with
  | zero =>
    by_cases hi : i < n
    · rw [fusionLoop, if_pos hi] at hrun; simp at hrun
    · rw [fusionLoop_ge T _ _ _ _ _ (by omega)] at hrun
      simp only [Option.some.injEq, Prod.mk.injEq] at hrun
      rw [← hrun.2]; exact h
  | succ f ih =>
    by_cases hi : i < n
    · rw [fusionLoop_succ T _ _ _ _ _ hi] at hrun
      obtain ⟨o, ho⟩ := fusionBody_shape T n buf i
      rw [ho c] at hrun
      cases o with
      | none => simp at hrun
      | some q =>
        simp only [Option.map_some', Option.some_bind] at hrun
        exact ih _ _ _ hrun (stepCache_keeps c q.2.1 x y z v h)
    · rw [fusionLoop_ge T _ _ _ _ _ (by omega)] at hrun
      simp only [Option.some.injEq, Prod.mk.injEq] at hrun
      rw [← hrun.2]; exact h

theorem doCodeFusion_keeps (T : OpcodeTable) (c c' : OpCodeCache) (code fused : List Nat)
    (e : Option Error) (x y z v : Nat)
    (hrun : doCodeFusion T c code = some (fused, e, c'))
    (h : c.GetValFromShlAndSubMap x y z = some v) :
    c'.GetValFromShlAndSubMap x y z = some v := by
  unfold doCodeFusion at hrun
  cases hl : fusionLoop T code.length code.length code c 0 with
  | none => simp [hl] at hrun
  | some r =>
    simp only [hl, Option.map_some', Option.some.injEq, Prod.mk.injEq] at hrun
    obtain ⟨-, -, rfl⟩ := hrun
    exact fusionLoop_keeps T _ _ _ _ _ r.1 r.2 x y z v hl h

/-- C3: for all bytes `x`, `y`, `z`, if the memo table has no entry for
`(x,y,z)`, then after `doCodeFusion` of a code that starts with
`PUSH1 x PUSH1 y PUSH1 z SHL SUB` the lookup
`GetValFromShlAndSubMap(x,y,z)` returns `((y * 2^z) - x) mod 2^256`. -/
theorem doCodeFusion_memo (T : OpcodeTable) (c : OpCodeCache) (x y z : Nat) (rest : List Nat)
    (hx : x < 256) (hy : y < 256)
    (habsent : GoMap.get? c.shlAndSubMap ⟨x, y, z⟩ = none) :
    ∃ fused c' v,
      doCodeFusion T c ([T .PUSH1, x, T .PUSH1, y, T .PUSH1, z, T .SHL, T .SUB] ++ rest)
        = some (fused, none, c') ∧
      c'.GetValFromShlAndSubMap x y z = some v ∧
      (v : Int) = ((y : Int) * 2 ^ z - x) % 2 ^ 256 := by
  have hb := fusionBody_shlAndSub T c x y z rest
  have hstep := doCodeFusion_step T c _ _ _ 7 hb
  obtain ⟨out, c2, h2, -⟩ := doCodeFusion_total T (stepCache c (some (x, y, z))) rest
  have hnone : c.GetValFromShlAndSubMap x y z = none := by
    unfold OpCodeCache.GetValFromShlAndSubMap; rw [habsent]
  have hst : (stepCache c (some (x, y, z))).GetValFromShlAndSubMap x y z
      = some (shlAndSubVal x y z) := CacheShlAndSubMap_stores c x y z _ hnone
  refine ⟨[T .ShlAndSub, x, y, z, T .Nop, T .Nop, T .Nop, T .Nop] ++ out, c2,
    shlAndSubVal x y z, ?_, doCodeFusion_keeps T _ _ _ _ _ x y z _ h2 hst,
    shlAndSubVal_eq x y z hx hy⟩
  simp only [List.cons_append, List.nil_append]
  rw [hstep]
  simp [h2]
/-- The sum of the lengths of all cached values. -/
def cachedBytes (c : OpCodeCache) : Nat := (c.opcodesCache.map fun e => e.2.length).sum

theorem doCodeFusion_memo_witness :
    ((5 : Nat) < 256 ∧ (3 : Nat) < 256 ∧
      GoMap.get? GetOpCodeCacheInstance.shlAndSubMap ⟨5, 3, 2⟩ = none) ∧
    ∃ fused c',
      doCodeFusion sampleTable GetOpCodeCacheInstance
          ([sampleTable .PUSH1, 5, sampleTable .PUSH1, 3, sampleTable .PUSH1, 2,
            sampleTable .SHL, sampleTable .SUB] ++ [0])
        = some (fused, none, c') ∧
      c'.GetValFromShlAndSubMap 5 3 2 = some 7 := by
  refine ⟨⟨by decide, by decide, rfl⟩, ?_⟩
  obtain ⟨fused, c', v, h1, h2, h3⟩ :=
    doCodeFusion_memo sampleTable GetOpCodeCacheInstance 5 3 2 [0] (by decide) (by decide) rfl
  refine ⟨fused, c', h1, ?_⟩
  have hv : v = 7 := by
    norm_num at h3
    exact_mod_cast h3
  rw [h2, hv]

/-- C5: `none` is the index-out-of-range panic of a checked read or write, so
a result `some _` says that every buffer access of the run was below the
buffer length. For every byte sequence, `doCodeFusion` returns; every single
loop iteration returns on every buffer (raw or fused, wherever it ends) at every
index below its length; and `calculateSkipSteps` returns at every such
index. -/
theorem doCodeFusion_inBounds (T : OpcodeTable) (c : OpCodeCache) (code : List Nat) :
    (doCodeFusion T c code).isSome = true ∧
    (∀ cur, cur < code.length → (fusionBody T code.length code c cur).isSome = true) ∧
    (∀ cur, cur < code.length → (calculateSkipSteps T code cur).isSome = true) := by
  refine ⟨?_, ?_, ?_⟩
  · obtain ⟨fused, c', h, -⟩ := doCodeFusion_total T c code
    rw [h]; rfl
  · intro cur h
    obtain ⟨b, c', k, hb, -⟩ := fusionBody_total T code c cur h
    rw [hb]; rfl
  · intro cur h
    obtain ⟨r, hr⟩ := calculateSkipSteps_total T code cur h
    rw [hr]; rfl

/-- C9: starting from a table with no entry for the key `(x,y,z)`,
`CacheShlAndSubMap(x,y,z,v1)` followed by `CacheShlAndSubMap(x,y,z,v2)` leaves
`GetValFromShlAndSubMap(x,y,z) = v1`, whether or not `v2` equals `v1`; the
entries of all other keys and the code cache are unchanged. -/
theorem CacheShlAndSubMap_writeOnce (c : OpCodeCache) (x y z v1 v2 : Nat)
    (habsent : GoMap.get? c.shlAndSubMap ⟨x, y, z⟩ = none) :
    ((c.CacheShlAndSubMap x y z (some v1)).CacheShlAndSubMap x y z
        (some v2)).GetValFromShlAndSubMap x y z = some v1 ∧
    (∀ k : ThreeU8Operands, k ≠ ⟨x, y, z⟩ →
      GoMap.get? ((c.CacheShlAndSubMap x y z (some v1)).CacheShlAndSubMap x y z
        (some v2)).shlAndSubMap k = GoMap.get? c.shlAndSubMap k) ∧
    ((c.CacheShlAndSubMap x y z (some v1)).CacheShlAndSubMap x y z
        (some v2)).opcodesCache = c.opcodesCache ∧
    ((c.CacheShlAndSubMap x y z (some v1)).CacheShlAndSubMap x y z
        (some v2)).codeCacheSize = c.codeCacheSize := by
  have h1 : c.CacheShlAndSubMap x y z (some v1)
      = { c with shlAndSubMap := GoMap.set c.shlAndSubMap ⟨x, y, z⟩ (some v1) } := by
    unfold OpCodeCache.CacheShlAndSubMap
    rw [habsent]; rfl
  have h2 : (c.CacheShlAndSubMap x y z (some v1)).CacheShlAndSubMap x y z (some v2)
      = c.CacheShlAndSubMap x y z (some v1) := by
    rw [h1]
    unfold OpCodeCache.CacheShlAndSubMap
    simp only [GoMap.get?_set_self]
    rfl
  rw [h2, h1]
  refine ⟨?_, ?_, rfl, rfl⟩
  · unfold OpCodeCache.GetValFromShlAndSubMap
    simp only [GoMap.get?_set_self]
  · intro k hk
    exact GoMap.get?_set_other _ _ _ _ hk

theorem CacheShlAndSubMap_writeOnce_witness :
    GoMap.get? GetOpCodeCacheInstance.shlAndSubMap ⟨5, 3, 2⟩ = none ∧
    ((GetOpCodeCacheInstance.CacheShlAndSubMap 5 3 2 (some 7)).CacheShlAndSubMap 5 3 2
        (some 9)).GetValFromShlAndSubMap 5 3 2 = some 7 :=
  ⟨rfl, (CacheShlAndSubMap_writeOnce GetOpCodeCacheInstance 5 3 2 7 9 rfl).1⟩

/-- C10 (the code at the failing inputs): after `UpdateCodeCache(1, [0x60])`
and `RemoveCachedCode(1)` on the fresh cache, a reachable state, the cache
holds no value while `codeCacheSize` is still `1`; and after inserting the same
identity twice the cache holds one byte while `codeCacheSize` is `2`. -/
theorem codeCacheSize_drifts :
    Reachable ((GetOpCodeCacheInstance.UpdateCodeCache 1 [0x60]).1.RemoveCachedCode 1) ∧
    ((GetOpCodeCacheInstance.UpdateCodeCache 1 [0x60]).1.RemoveCachedCode 1).codeCacheSize = 1 ∧
    cachedBytes ((GetOpCodeCacheInstance.UpdateCodeCache 1 [0x60]).1.RemoveCachedCode 1) = 0 ∧
    Reachable ((GetOpCodeCacheInstance.UpdateCodeCache 1 [0x60]).1.UpdateCodeCache 1 [0x60]).1 ∧
    ((GetOpCodeCacheInstance.UpdateCodeCache 1 [0x60]).1.UpdateCodeCache 1 [0x60]).1.codeCacheSize
      = 2 ∧
    cachedBytes ((GetOpCodeCacheInstance.UpdateCodeCache 1 [0x60]).1.UpdateCodeCache 1 [0x60]).1
      = 1 := by
  refine ⟨?_, by decide, by decide, ?_, by decide, by decide⟩
  · exact Reachable.remove _ _ (Reachable.update _ _ _ Reachable.init)
  · exact Reachable.update _ _ _ (Reachable.update _ _ _ Reachable.init)

/-! ## The blocks in terms of the idioms at the head of the unread bytes -/

theorem OpcodeTable.WellFormed.eq_iff {T : OpcodeTable} (h : T.WellFormed) (a b : Opcode) :
    T a = T b ↔ a = b :=
  ⟨h.1 a b, fun e => by rw [e]⟩

theorem block2_eq (T : OpcodeTable) (hT : T.WellFormed) (s : List Nat) :
    block2 T s.length s 0
      = some (match idiom2 T s with
          | some o => (o ++ s.drop 2, true)
          | none => (s, false)) := by
  have hinj := hT.eq_iff
  rcases s with _ | ⟨c0, _ | ⟨c1, t⟩⟩
  · simp [block2, idiom2]
  · simp [block2, idiom2]
  · simp only [block2, idiom2, List.length_cons, Option.bind_eq_bind, Option.pure_def,
      Nat.zero_add, rd_cons_zero, rd_cons_succ, Option.some_bind, gt_iff_lt,
      show 0 + 1 < t.length + 1 + 1 by omega, if_true]
    by_cases h1 : c0 = T .SWAP1 ∧ c1 = T .POP
    · obtain ⟨rfl, rfl⟩ := h1
      simp [fuseIf, wrAll, hinj]
    by_cases h2 : c0 = T .POP ∧ c1 = T .JUMP
    · obtain ⟨rfl, rfl⟩ := h2
      simp [fuseIf, wrAll, hinj]
    by_cases h3 : c0 = T .POP ∧ c1 = T .POP
    · obtain ⟨rfl, rfl⟩ := h3
      simp [fuseIf, wrAll, hinj]
    by_cases h4 : c0 = T .SWAP2 ∧ c1 = T .SWAP1
    · obtain ⟨rfl, rfl⟩ := h4
      simp [fuseIf, wrAll, hinj]
    by_cases h5 : c0 = T .SWAP2 ∧ c1 = T .POP
    · obtain ⟨rfl, rfl⟩ := h5
      simp [fuseIf, wrAll, hinj]
    by_cases h6 : c0 = T .DUP2 ∧ c1 = T .LT
    · obtain ⟨rfl, rfl⟩ := h6
      simp [fuseIf, wrAll, hinj]
    simp [fuseIf, h1, h2, h3, h4, h5, h6]

theorem block3_eq (T : OpcodeTable) (hT : T.WellFormed) (s : List Nat) :
    block3 T s.length s 0
      = some (match idiom3 T s with
          | some o => (o ++ s.drop 3, true)
          | none => (s, false)) := by
  have hinj := hT.eq_iff
  rcases s with _ | ⟨c0, _ | ⟨c1, _ | ⟨c2, t⟩⟩⟩
  · simp [block3, idiom3]
  · simp [block3, idiom3]
  · simp [block3, idiom3]
  · simp only [block3, idiom3, List.length_cons, Option.bind_eq_bind, Option.pure_def,
      Nat.zero_add, rd_cons_zero, rd_cons_succ, Option.some_bind, gt_iff_lt,
      show 0 + 2 < t.length + 1 + 1 + 1 by omega, if_true]
    by_cases h0 : c0 = T .PUSH1
    swap
    · simp [h0]
    subst h0
    by_cases h1 : c2 = T .ADD
    · subst h1
      simp [fuseIf, wrAll, hinj]
    by_cases h2 : c2 = T .SHL
    · subst h2
      simp [fuseIf, wrAll, hinj]
    by_cases h3 : c2 = T .DUP1
    · subst h3
      simp [fuseIf, wrAll, hinj]
    simp [fuseIf, h1, h2, h3]

theorem block4_eq (T : OpcodeTable) (hT : T.WellFormed) (s : List Nat) :
    block4 T s.length s 0
      = some (match idiom4 T s with
          | some o => (o ++ s.drop 4, true)
          | none => (s, false)) := by
  have hinj := hT.eq_iff
  rcases s with _ | ⟨c0, _ | ⟨c1, _ | ⟨c2, _ | ⟨c3, t⟩⟩⟩⟩
  · simp [block4, idiom4]
  · simp [block4, idiom4]
  · simp [block4, idiom4]
  · simp [block4, idiom4]
  · simp only [block4, idiom4, List.length_cons, Option.bind_eq_bind, Option.pure_def,
      Nat.zero_add, rd_cons_zero, rd_cons_succ, Option.some_bind, gt_iff_lt,
      show 0 + 3 < t.length + 1 + 1 + 1 + 1 by omega, if_true]
    by_cases h1 : c0 = T .SWAP2 ∧ c1 = T .SWAP1 ∧ c2 = T .POP ∧ c3 = T .JUMP
    · obtain ⟨rfl, rfl, rfl, rfl⟩ := h1
      simp [fuseIf, wrAll, hinj]
    by_cases h2 : c0 = T .SWAP1 ∧ c1 = T .POP ∧ c2 = T .SWAP2 ∧ c3 = T .SWAP1
    · obtain ⟨rfl, rfl, rfl, rfl⟩ := h2
      simp [fuseIf, wrAll, hinj]
    by_cases h3 : c0 = T .POP ∧ c1 = T .SWAP2 ∧ c2 = T .SWAP1 ∧ c3 = T .POP
    · obtain ⟨rfl, rfl, rfl, rfl⟩ := h3
      simp [fuseIf, wrAll, hinj]
    by_cases h4 : c0 = T .PUSH2 ∧ c3 = T .JUMP
    · obtain ⟨rfl, rfl⟩ := h4
      simp [fuseIf, wrAll, hinj]
    by_cases h5 : c0 = T .PUSH2 ∧ c3 = T .JUMPI
    · obtain ⟨rfl, rfl⟩ := h5
      simp [fuseIf, wrAll, hinj]
    by_cases h6 : c0 = T .PUSH1 ∧ c2 = T .PUSH1
    · obtain ⟨rfl, rfl⟩ := h6
      simp [fuseIf, wrAll, hinj]
    simp [fuseIf, h1, h2, h3, h4, h5, h6]

theorem block5_eq (T : OpcodeTable) (hT : T.WellFormed) (s : List Nat) :
    block5 T s.length s 0
      = some (match idiom5 T s with
          | some o => (o ++ s.drop 5, true)
          | none => (s, false)) := by
  have hinj := hT.eq_iff
  rcases s with _ | ⟨c0, _ | ⟨c1, _ | ⟨c2, _ | ⟨c3, _ | ⟨c4, t⟩⟩⟩⟩⟩
  · simp [block5, idiom5]
  · simp [block5, idiom5]
  · simp [block5, idiom5]
  · simp [block5, idiom5]
  · simp [block5, idiom5]
  · simp only [block5, idiom5, List.length_cons, Option.bind_eq_bind, Option.pure_def,
      Nat.zero_add, rd_cons_zero, rd_cons_succ, Option.some_bind, gt_iff_lt,
      show 0 + 4 < t.length + 1 + 1 + 1 + 1 + 1 by omega, if_true]
    by_cases h1 : c0 = T .AND ∧ c1 = T .SWAP1 ∧ c2 = T .POP ∧ c3 = T .SWAP2 ∧ c4 = T .SWAP1
    · obtain ⟨rfl, rfl, rfl, rfl, rfl⟩ := h1
      simp [fuseIf, wrAll, hinj]
    by_cases h2 : c0 = T .ISZERO ∧ c1 = T .PUSH2 ∧ c4 = T .JUMPI
    · obtain ⟨rfl, rfl, rfl⟩ := h2
      simp [fuseIf, wrAll, hinj, rdSlice]
    simp [fuseIf, h1, h2]

theorem block8_eq (T : OpcodeTable) (s : List Nat) (c : OpCodeCache) :
    ∃ q, block8 T s.length s c 0
      = some ((idiom8 T s).map fun o => (o ++ s.drop 8, stepCache c (some q), 7)) := by
  rcases s with _ | ⟨c0, _ | ⟨c1, _ | ⟨c2, _ | ⟨c3, _ | ⟨c4, _ | ⟨c5, _ | ⟨c6, _ | ⟨c7, t⟩⟩⟩⟩⟩⟩⟩⟩
  all_goals try (refine ⟨(0, 0, 0), ?_⟩; simp [block8, idiom8]; done)
  refine ⟨(c1, c3, c5), ?_⟩
  simp only [block8, idiom8, List.length_cons, Option.bind_eq_bind, Option.pure_def,
      Nat.zero_add, rd_cons_zero, rd_cons_succ, Option.some_bind, gt_iff_lt,
      show 0 + 7 < t.length + 1 + 1 + 1 + 1 + 1 + 1 + 1 + 1 by omega, if_true]
  split
  · simp [fuseShlAndSub_eq, wrAll]
  · rfl

/-! ## One loop iteration and the fused bytes, step by step -/

theorem idiom8_length (T : OpcodeTable) (s o : List Nat) (h : idiom8 T s = some o) :
    o.length = 8 := by
  unfold idiom8 at h
  split at h
  · split at h
    · simp at h; subst h; rfl
    · simp at h
  · simp at h

theorem idiom5_length (T : OpcodeTable) (s o : List Nat) (h : idiom5 T s = some o) :
    o.length = 5 := by
  unfold idiom5 at h
  split at h
  · split_ifs at h <;> first | (simp at h; done) | (simp at h; subst h; rfl)
  · simp at h

theorem idiom4_length (T : OpcodeTable) (s o : List Nat) (h : idiom4 T s = some o) :
    o.length = 4 := by
  unfold idiom4 at h
  split at h
  · split_ifs at h <;> first | (simp at h; done) | (simp at h; subst h; rfl)
  · simp at h

theorem idiom3_length (T : OpcodeTable) (s o : List Nat) (h : idiom3 T s = some o) :
    o.length = 3 := by
  unfold idiom3 at h
  split at h
  · split_ifs at h <;> first | (simp at h; done) | (simp at h; subst h; rfl)
  · simp at h

theorem idiom2_length (T : OpcodeTable) (s o : List Nat) (h : idiom2 T s = some o) :
    o.length = 2 := by
  unfold idiom2 at h
  split at h
  · split_ifs at h <;> first | (simp at h; done) | (simp at h; subst h; rfl)
  · simp at h

theorem calculateSkipSteps_cons (T : OpcodeTable) (b : Nat) (t : List Nat) :
    calculateSkipSteps T (b :: t) 0 = calculateSkipSteps T [b] 0 := by
  simp [calculateSkipSteps]

/-- One loop iteration at the head of the unread bytes, for a well-formed
opcode table: the idiom at the head is rewritten and the index moves to the
last byte of its span, or nothing is written and the index moves over the
bytes that `calculateSkipSteps` asks to skip. -/
theorem fusionBody_eq (T : OpcodeTable) (hT : T.WellFormed) (b0 : Nat) (t : List Nat)
    (c : OpCodeCache) :
    ∃ c1, fusionBody T (b0 :: t).length (b0 :: t) c 0
      = some (match headIdiom T (b0 :: t) with
          | some o => (o ++ (b0 :: t).drop o.length, c1, o.length - 1)
          | none => (b0 :: t, c1, skipOf T b0)) := by
  obtain ⟨q, h8⟩ := block8_eq T (b0 :: t) c
  unfold fusionBody headIdiom
  rw [h8]
  simp only [Option.bind_eq_bind, Option.pure_def, Option.some_bind]
  cases hi8 : idiom8 T (b0 :: t) with
  | some o =>
    have := idiom8_length T _ _ hi8
    exact ⟨stepCache c (some q), by simp [this]⟩
  | none =>
  simp only [Option.map_none']
  rw [block5_eq T hT]
  simp only [Option.some_bind]
  cases hi5 : idiom5 T (b0 :: t) with
  | some o =>
    have := idiom5_length T _ _ hi5
    exact ⟨c, by simp [this]⟩
  | none =>
  simp only [Bool.false_eq_true, if_false]
  rw [block4_eq T hT]
  simp only [Option.some_bind]
  cases hi4 : idiom4 T (b0 :: t) with
  | some o =>
    have := idiom4_length T _ _ hi4
    exact ⟨c, by simp [this]⟩
  | none =>
  simp only [Bool.false_eq_true, if_false]
  rw [block3_eq T hT]
  simp only [Option.some_bind]
  cases hi3 : idiom3 T (b0 :: t) with
  | some o =>
    have := idiom3_length T _ _ hi3
    exact ⟨c, by simp [this]⟩
  | none =>
  simp only [Bool.false_eq_true, if_false]
  rw [block2_eq T hT]
  simp only [Option.some_bind]
  cases hi2 : idiom2 T (b0 :: t) with
  | some o =>
    have := idiom2_length T _ _ hi2
    exact ⟨c, by simp [this]⟩
  | none =>
  simp only [Bool.false_eq_true, if_false]
  rw [calculateSkipSteps_cons]
  unfold skipOf
  obtain ⟨r, hr⟩ := calculateSkipSteps_total T [b0] 0 (by simp)
  rw [hr]
  simp only [Option.some_bind]
  refine ⟨c, ?_⟩
  split <;> simp_all

theorem headIdiom_length (T : OpcodeTable) (s o : List Nat) (h : headIdiom T s = some o) :
    1 ≤ o.length := by
  unfold headIdiom at h
  cases hi8 : idiom8 T s with
  | some o8 => rw [hi8] at h; simp at h; subst h; rw [idiom8_length T _ _ hi8]; omega
  | none =>
  cases hi5 : idiom5 T s with
  | some o5 => rw [hi8, hi5] at h; simp at h; subst h; rw [idiom5_length T _ _ hi5]; omega
  | none =>
  cases hi4 : idiom4 T s with
  | some o4 => rw [hi8, hi5, hi4] at h; simp at h; subst h; rw [idiom4_length T _ _ hi4]; omega
  | none =>
  cases hi3 : idiom3 T s with
  | some o3 =>
    rw [hi8, hi5, hi4, hi3] at h; simp at h; subst h; rw [idiom3_length T _ _ hi3]; omega
  | none =>
    rw [hi8, hi5, hi4, hi3] at h; simp at h; rw [idiom2_length T _ _ h]; omega

theorem doCodeFusion_fusedBytes (T : OpcodeTable) (c : OpCodeCache) (code : List Nat) :
    ∃ c', doCodeFusion T c code = some (fusedBytes T code, none, c') := by
  obtain ⟨out, c', h, -⟩ := doCodeFusion_total T c code
  obtain ⟨out0, c0, h0, -⟩ := doCodeFusion_total T GetOpCodeCacheInstance code
  have hc := doCodeFusion_cache T c GetOpCodeCacheInstance code
  rw [h, h0] at hc
  simp only [Option.map_some', Option.some.injEq] at hc
  subst hc
  refine ⟨c', ?_⟩
  unfold fusedBytes
  rw [h0, h]

theorem fusedBytes_length (T : OpcodeTable) (code : List Nat) :
    (fusedBytes T code).length = code.length := by
  obtain ⟨out, c', h, hl⟩ := doCodeFusion_total T GetOpCodeCacheInstance code
  unfold fusedBytes
  rw [h]; exact hl

theorem fusedBytes_nil (T : OpcodeTable) : fusedBytes T [] = [] := by
  simp [fusedBytes, doCodeFusion_nil]

/-- The fused bytes, one step at a time, for a well-formed opcode table. -/
theorem fusedBytes_cons (T : OpcodeTable) (hT : T.WellFormed) (b0 : Nat) (t : List Nat) :
    fusedBytes T (b0 :: t)
      = match headIdiom T (b0 :: t) with
        | some o => o ++ fusedBytes T ((b0 :: t).drop o.length)
        | none => (b0 :: t).take (skipOf T b0 + 1)
            ++ fusedBytes T ((b0 :: t).drop (skipOf T b0 + 1)) := by
  obtain ⟨c1, hb⟩ := fusionBody_eq T hT b0 t GetOpCodeCacheInstance
  cases hi : headIdiom T (b0 :: t) with
  | some o =>
    rw [hi] at hb
    simp only at hb ⊢
    have hlen := headIdiom_length T _ _ hi
    have hstep := doCodeFusion_step T _ _ _ _ _ hb
    have e1 : o.length - 1 + 1 = o.length := by omega
    rw [e1] at hstep
    obtain ⟨c2, h2⟩ := doCodeFusion_fusedBytes T c1 (List.drop o.length (b0 :: t))
    simp only [List.drop_left, List.take_left] at hstep
    rw [h2] at hstep
    conv_lhs => unfold fusedBytes
    rw [hstep]
    rfl
  | none =>
    rw [hi] at hb
    simp only at hb ⊢
    have hstep := doCodeFusion_step T _ _ _ _ _ hb
    obtain ⟨c2, h2⟩ := doCodeFusion_fusedBytes T c1 (List.drop (skipOf T b0 + 1) (b0 :: t))
    rw [h2] at hstep
    conv_lhs => unfold fusedBytes
    rw [hstep]
    rfl

/-! ## Skip lengths and trigger heads under a well-formed table -/

theorem OpcodeTable.WellFormed.not_push {T : OpcodeTable} (hT : T.WellFormed) (a : Opcode)
    (h1 : a ≠ .PUSH1) (h2 : a ≠ .PUSH2) (h3 : a ≠ .PUSH32) :
    ¬ (T a ≥ T .PUSH1 ∧ T a ≤ T .PUSH32) := by
  rcases hT.2.2.2.2 a h1 h2 h3 with h | h <;> omega

theorem skipOf_push (T : OpcodeTable) (hT : T.WellFormed) (k : Nat) (hk : k ≤ 31) :
    skipOf T (T .PUSH1 + k) = k + 1 := by
  have h32 := hT.2.2.2.1
  have hb := hT.2.1 .PUSH32
  simp only [skipOf, calculateSkipSteps, rd_cons_zero, Option.some_bind]
  rw [if_pos (by omega)]
  simp only [if_true]
  omega

theorem skipOf_op (T : OpcodeTable) (hT : T.WellFormed) (a : Opcode) :
    skipOf T (T a) = a.skip := by
  have hinj := hT.eq_iff
  by_cases h1 : a = .PUSH1
  · subst h1; simpa using skipOf_push T hT 0 (by omega)
  by_cases h2 : a = .PUSH2
  · subst h2; rw [hT.2.2.1]; exact skipOf_push T hT 1 (by omega)
  by_cases h3 : a = .PUSH32
  · subst h3; rw [hT.2.2.2.1]; exact skipOf_push T hT 31 (by omega)
  have hnp := hT.not_push a h1 h2 h3
  simp only [skipOf, calculateSkipSteps, rd_cons_zero, Option.some_bind, if_neg hnp, hinj]
  cases a <;> simp [Opcode.skip] at h1 h2 h3 ⊢

theorem idiom8_head (T : OpcodeTable) (b0 : Nat) (t : List Nat) (h : b0 ≠ T .PUSH1) :
    idiom8 T (b0 :: t) = none := by
  rcases t with _ | ⟨c1, _ | ⟨c2, _ | ⟨c3, _ | ⟨c4, _ | ⟨c5, _ | ⟨c6, _ | ⟨c7, t⟩⟩⟩⟩⟩⟩⟩ <;>
    simp [idiom8, h]

theorem idiom5_head (T : OpcodeTable) (b0 : Nat) (t : List Nat) (h1 : b0 ≠ T .AND)
    (h2 : b0 ≠ T .ISZERO) : idiom5 T (b0 :: t) = none := by
  rcases t with _ | ⟨c1, _ | ⟨c2, _ | ⟨c3, _ | ⟨c4, t⟩⟩⟩⟩ <;> simp [idiom5, h1, h2]

theorem idiom4_head (T : OpcodeTable) (b0 : Nat) (t : List Nat) (h1 : b0 ≠ T .SWAP2)
    (h2 : b0 ≠ T .SWAP1) (h3 : b0 ≠ T .POP) (h4 : b0 ≠ T .PUSH2) (h5 : b0 ≠ T .PUSH1) :
    idiom4 T (b0 :: t) = none := by
  rcases t with _ | ⟨c1, _ | ⟨c2, _ | ⟨c3, t⟩⟩⟩ <;> simp [idiom4, h1, h2, h3, h4, h5]

theorem idiom3_head (T : OpcodeTable) (b0 : Nat) (t : List Nat) (h : b0 ≠ T .PUSH1) :
    idiom3 T (b0 :: t) = none := by
  rcases t with _ | ⟨c1, _ | ⟨c2, t⟩⟩ <;> simp [idiom3, h]

theorem idiom2_head (T : OpcodeTable) (b0 : Nat) (t : List Nat) (h1 : b0 ≠ T .SWAP1)
    (h2 : b0 ≠ T .POP) (h3 : b0 ≠ T .SWAP2) (h4 : b0 ≠ T .DUP2) :
    idiom2 T (b0 :: t) = none := by
  rcases t with _ | ⟨c1, t⟩ <;> simp [idiom2, h1, h2, h3, h4]

/-- No idiom starts at a byte that is not the first opcode of a trigger. -/
theorem headIdiom_head (T : OpcodeTable) (b0 : Nat) (t : List Nat)
    (h : ∀ a : Opcode, a.isTriggerHead = true → b0 ≠ T a) :
    headIdiom T (b0 :: t) = none := by
  unfold headIdiom
  rw [idiom8_head T b0 t (h .PUSH1 rfl), idiom5_head T b0 t (h .AND rfl) (h .ISZERO rfl),
    idiom4_head T b0 t (h .SWAP2 rfl) (h .SWAP1 rfl) (h .POP rfl) (h .PUSH2 rfl) (h .PUSH1 rfl),
    idiom3_head T b0 t (h .PUSH1 rfl),
    idiom2_head T b0 t (h .SWAP1 rfl) (h .POP rfl) (h .SWAP2 rfl) (h .DUP2 rfl)]

theorem headIdiom_op (T : OpcodeTable) (hT : T.WellFormed) (a : Opcode) (t : List Nat)
    (h : a.isTriggerHead = false) : headIdiom T (T a :: t) = none := by
  apply headIdiom_head
  intro a' ha' e
  rw [hT.eq_iff] at e
  subst e
  rw [h] at ha'
  exact Bool.noConfusion ha'

/-! ## Claims C6 and C8 -/

theorem doCodeFusion_of_fusedBytes (T : OpcodeTable) (code out : List Nat)
    (h : fusedBytes T code = out) (c : OpCodeCache) :
    ∃ c', doCodeFusion T c code = some (out, none, c') := by
  subst h
  exact doCodeFusion_fusedBytes T c code

theorem fusedBytes_of_headIdiom (T : OpcodeTable) (hT : T.WellFormed) (s o : List Nat)
    (h : headIdiom T s = some o) : fusedBytes T s = o ++ fusedBytes T (s.drop o.length) := by
  rcases s with _ | ⟨b0, t⟩
  · simp [headIdiom, idiom8, idiom5, idiom4, idiom3, idiom2] at h
  · rw [fusedBytes_cons T hT, h]

theorem fusedBytes_of_none (T : OpcodeTable) (hT : T.WellFormed) (b0 : Nat) (t : List Nat)
    (h : headIdiom T (b0 :: t) = none) :
    fusedBytes T (b0 :: t)
      = (b0 :: t).take (skipOf T b0 + 1) ++ fusedBytes T ((b0 :: t).drop (skipOf T b0 + 1)) := by
  rw [fusedBytes_cons T hT, h]

theorem headIdiom_push2Jump (T : OpcodeTable) (hT : T.WellFormed) (hi lo : Nat)
    (rest : List Nat) :
    headIdiom T (T .PUSH2 :: hi :: lo :: T .JUMP :: rest)
      = some [T .Push2Jump, hi, lo, T .Nop] := by
  have hinj := hT.eq_iff
  unfold headIdiom
  rw [idiom8_head T _ _ (by simp [hinj]), idiom5_head T _ _ (by simp [hinj]) (by simp [hinj])]
  simp [idiom4, hinj]

theorem headIdiom_push2JumpI (T : OpcodeTable) (hT : T.WellFormed) (hi lo : Nat)
    (rest : List Nat) :
    headIdiom T (T .PUSH2 :: hi :: lo :: T .JUMPI :: rest)
      = some [T .Push2JumpI, hi, lo, T .Nop] := by
  have hinj := hT.eq_iff
  unfold headIdiom
  rw [idiom8_head T _ _ (by simp [hinj]), idiom5_head T _ _ (by simp [hinj]) (by simp [hinj])]
  simp [idiom4, hinj]

theorem headIdiom_jumpIfZero (T : OpcodeTable) (hT : T.WellFormed) (hi lo : Nat)
    (rest : List Nat) :
    headIdiom T (T .ISZERO :: T .PUSH2 :: hi :: lo :: T .JUMPI :: rest)
      = some [T .JumpIfZero, T .Nop, hi, lo, T .Nop] := by
  have hinj := hT.eq_iff
  unfold headIdiom
  rw [idiom8_head T _ _ (by simp [hinj])]
  simp [idiom5, hinj]

theorem sampleTable_wellFormed : sampleTable.WellFormed := by decide

/-- C8: for all bytes `hi`, `lo` and every `rest`, the two operand bytes of a
fused jump keep their offsets: `PUSH2 hi lo JUMP` becomes
`Push2Jump hi lo Nop`, `PUSH2 hi lo JUMPI` becomes `Push2JumpI hi lo Nop` and
`ISZERO PUSH2 hi lo JUMPI` becomes `JumpIfZero Nop hi lo Nop`, each followed by
the fusion of `rest`. -/
theorem doCodeFusion_jumpTargets (T : OpcodeTable) (hT : T.WellFormed) (c c' : OpCodeCache)
    (hi lo : Nat) (rest : List Nat) :
    ∃ out c1, doCodeFusion T c' rest = some (out, none, c1) ∧
      (∃ c2, doCodeFusion T c ([T .PUSH2, hi, lo, T .JUMP] ++ rest)
        = some ([T .Push2Jump, hi, lo, T .Nop] ++ out, none, c2)) ∧
      (∃ c2, doCodeFusion T c ([T .PUSH2, hi, lo, T .JUMPI] ++ rest)
        = some ([T .Push2JumpI, hi, lo, T .Nop] ++ out, none, c2)) ∧
      (∃ c2, doCodeFusion T c ([T .ISZERO, T .PUSH2, hi, lo, T .JUMPI] ++ rest)
        = some ([T .JumpIfZero, T .Nop, hi, lo, T .Nop] ++ out, none, c2)) := by
  obtain ⟨c1, h1⟩ := doCodeFusion_fusedBytes T c' rest
  refine ⟨fusedBytes T rest, c1, h1, ?_, ?_, ?_⟩
  · apply doCodeFusion_of_fusedBytes
    simp only [List.cons_append, List.nil_append]
    rw [fusedBytes_of_headIdiom T hT _ _ (headIdiom_push2Jump T hT hi lo rest)]
    rfl
  · apply doCodeFusion_of_fusedBytes
    simp only [List.cons_append, List.nil_append]
    rw [fusedBytes_of_headIdiom T hT _ _ (headIdiom_push2JumpI T hT hi lo rest)]
    rfl
  · apply doCodeFusion_of_fusedBytes
    simp only [List.cons_append, List.nil_append]
    rw [fusedBytes_of_headIdiom T hT _ _ (headIdiom_jumpIfZero T hT hi lo rest)]
    rfl

theorem doCodeFusion_jumpTargets_witness :
    sampleTable.WellFormed ∧
    ∃ out c1, doCodeFusion sampleTable GetOpCodeCacheInstance [0x50, 0x50] = some (out, none, c1) ∧
      (∃ c2, doCodeFusion sampleTable GetOpCodeCacheInstance
          ([sampleTable .PUSH2, 0x01, 0x2a, sampleTable .JUMP] ++ [0x50, 0x50])
        = some ([sampleTable .Push2Jump, 0x01, 0x2a, sampleTable .Nop] ++ out, none, c2)) ∧
      (∃ c2, doCodeFusion sampleTable GetOpCodeCacheInstance
          ([sampleTable .PUSH2, 0x01, 0x2a, sampleTable .JUMPI] ++ [0x50, 0x50])
        = some ([sampleTable .Push2JumpI, 0x01, 0x2a, sampleTable .Nop] ++ out, none, c2)) ∧
      (∃ c2, doCodeFusion sampleTable GetOpCodeCacheInstance
          ([sampleTable .ISZERO, sampleTable .PUSH2, 0x01, 0x2a, sampleTable .JUMPI]
            ++ [0x50, 0x50])
        = some ([sampleTable .JumpIfZero, sampleTable .Nop, 0x01, 0x2a, sampleTable .Nop] ++ out,
            none, c2)) :=
  ⟨sampleTable_wellFormed,
    doCodeFusion_jumpTargets sampleTable sampleTable_wellFormed GetOpCodeCacheInstance
      GetOpCodeCacheInstance 0x01 0x2a [0x50, 0x50]⟩

theorem headIdiom_pushN (T : OpcodeTable) (hT : T.WellFormed) (n : Nat) (h3 : 3 ≤ n)
    (h32 : n ≤ 32) (t : List Nat) : headIdiom T ((T .PUSH1 + (n - 1)) :: t) = none := by
  apply headIdiom_head
  intro a ha e
  have e2 := hT.2.2.1
  have e32 := hT.2.2.2.1
  by_cases h1 : a = .PUSH1
  · subst h1; omega
  by_cases h2 : a = .PUSH2
  · subst h2; omega
  by_cases h3 : a = .PUSH32
  · subst h3; simp [Opcode.isTriggerHead] at ha
  have := hT.not_push a h1 h2 h3
  omega

/-- C6: for every `n` in `3..32`, the opcode `PUSHn` being the byte
`PUSH1 + (n-1)`, the `n` literal bytes after it are copied whatever they are and
fusion resumes behind them; when fewer than `n` bytes follow `PUSHn` the code is
returned unchanged. -/
theorem doCodeFusion_pushData (T : OpcodeTable) (hT : T.WellFormed) (c c' : OpCodeCache)
    (n : Nat) (h3 : 3 ≤ n) (h32 : n ≤ 32) (data rest : List Nat) :
    (data.length = n →
      ∃ out c1 c2, doCodeFusion T c' rest = some (out, none, c1) ∧
        doCodeFusion T c ([T .PUSH1 + (n - 1)] ++ data ++ rest)
          = some ([T .PUSH1 + (n - 1)] ++ data ++ out, none, c2)) ∧
    (data.length < n →
      ∃ c2, doCodeFusion T c ([T .PUSH1 + (n - 1)] ++ data)
        = some ([T .PUSH1 + (n - 1)] ++ data, none, c2)) := by
  have hskip : skipOf T (T .PUSH1 + (n - 1)) = n := by
    rw [skipOf_push T hT (n - 1) (by omega)]; omega
  constructor
  · intro hlen
    obtain ⟨c1, h1⟩ := doCodeFusion_fusedBytes T c' rest
    obtain ⟨c2, h2⟩ := doCodeFusion_fusedBytes T c ([T .PUSH1 + (n - 1)] ++ data ++ rest)
    refine ⟨fusedBytes T rest, c1, c2, h1, ?_⟩
    rw [h2]
    have hf := fusedBytes_of_none T hT _ (data ++ rest) (headIdiom_pushN T hT n h3 h32 _)
    rw [hskip] at hf
    simp only [List.singleton_append, List.cons_append, List.nil_append, List.append_assoc] at hf ⊢
    rw [hf]
    simp [hlen, List.take_append_of_le_length, List.drop_append_of_le_length]
  · intro hlen
    obtain ⟨c2, h2⟩ := doCodeFusion_fusedBytes T c ([T .PUSH1 + (n - 1)] ++ data)
    refine ⟨c2, ?_⟩
    rw [h2]
    have hf := fusedBytes_of_none T hT _ data (headIdiom_pushN T hT n h3 h32 _)
    rw [hskip] at hf
    simp only [List.singleton_append] at hf ⊢
    rw [hf]
    have hd : List.drop (n + 1) ((T .PUSH1 + (n - 1)) :: data) = [] := by
      simp; omega
    have ht : List.take (n + 1) ((T .PUSH1 + (n - 1)) :: data) = (T .PUSH1 + (n - 1)) :: data := by
      simp; omega
    rw [hd, ht, fusedBytes_nil]
    simp

theorem doCodeFusion_pushData_witness :
    sampleTable.WellFormed ∧ ((3 : Nat) ≤ 3 ∧ (3 : Nat) ≤ 32) ∧
    (∃ out c1 c2, doCodeFusion sampleTable GetOpCodeCacheInstance [0x50, 0x50]
        = some (out, none, c1) ∧
      doCodeFusion sampleTable GetOpCodeCacheInstance
          ([sampleTable .PUSH1 + (3 - 1)] ++ [0x90, 0x50, 0x60] ++ [0x50, 0x50])
        = some ([sampleTable .PUSH1 + (3 - 1)] ++ [0x90, 0x50, 0x60] ++ out, none, c2)) ∧
    (∃ c2, doCodeFusion sampleTable GetOpCodeCacheInstance
          ([sampleTable .PUSH1 + (3 - 1)] ++ [0x90, 0x50])
        = some ([sampleTable .PUSH1 + (3 - 1)] ++ [0x90, 0x50], none, c2)) :=
  ⟨sampleTable_wellFormed, ⟨by decide, by decide⟩,
    (doCodeFusion_pushData sampleTable sampleTable_wellFormed GetOpCodeCacheInstance
      GetOpCodeCacheInstance 3 (by decide) (by decide) [0x90, 0x50, 0x60] [0x50, 0x50]).1 rfl,
    (doCodeFusion_pushData sampleTable sampleTable_wellFormed GetOpCodeCacheInstance
      GetOpCodeCacheInstance 3 (by decide) (by decide) [0x90, 0x50] []).2 (by decide)⟩

/-! ## Claim C7: the idiom table and longest match -/

theorem matchTrigger_head (T : OpcodeTable) (a : Opcode) (ps : List (Option Opcode))
    (code : List Nat) (h : matchTrigger T (some a :: ps) code = true) :
    code.head? = some (T a) := by
  rcases code with _ | ⟨c0, t⟩
  · simp [matchTrigger] at h
  · simp [matchTrigger] at h; simp [h.1]

theorem idiomTable_head (I : Idiom) (hI : I ∈ idiomTable) :
    ∃ a ps, I.trigger = some a :: ps ∧ I.headOp = some a := by
  simp only [idiomTable, List.mem_cons, List.mem_singleton, List.not_mem_nil, or_false] at hI
  rcases hI with rfl | rfl | rfl | rfl | rfl | rfl | rfl | rfl | rfl | rfl | rfl | rfl | rfl |
    rfl | rfl | rfl | rfl | rfl <;> exact ⟨_, _, rfl, rfl⟩

/-- A row of the table that matches at the head of `code` and has no longer
row with the same first opcode whose trigger also matches is the idiom that
`headIdiom` finds; this lemma covers the rows one by one. -/
theorem headIdiom_of_row (T : OpcodeTable) (hT : T.WellFormed) (code : List Nat) (I J : Idiom)
    (hI : I ∈ idiomTable) (hJ : J ∈ idiomTable) (hlt : J.span < I.span)
    (hmI : matchTrigger T I.trigger code = true) (hmJ : matchTrigger T J.trigger code = true) :
    headIdiom T code = some (I.emit T code) := by
  have hinj := hT.eq_iff
  obtain ⟨a, ps, hta, ha⟩ := idiomTable_head I hI
  obtain ⟨b, qs, htb, hb⟩ := idiomTable_head J hJ
  have h1 := matchTrigger_head T a ps code (hta ▸ hmI)
  have h2 := matchTrigger_head T b qs code (htb ▸ hmJ)
  have hab : a = b := by
    rw [h1] at h2
    simp only [Option.some.injEq] at h2
    exact (hinj a b).mp h2
  have hh : I.headOp = J.headOp := by rw [ha, hb, hab]
  clear hta htb ha hb h1 h2 hab
  simp only [idiomTable, List.mem_cons, List.mem_singleton, List.not_mem_nil, or_false] at hI hJ
  rcases hI with rfl | rfl | rfl | rfl | rfl | rfl | rfl | rfl | rfl | rfl | rfl | rfl | rfl |
    rfl | rfl | rfl | rfl | rfl <;>
  rcases hJ with rfl | rfl | rfl | rfl | rfl | rfl | rfl | rfl | rfl | rfl | rfl | rfl | rfl |
    rfl | rfl | rfl | rfl | rfl <;>
  first
    | (exfalso; revert hh; decide)
    | (exfalso; revert hlt; decide)
    | skip
  all_goals (
    rcases code with _ | ⟨c0, _ | ⟨c1, _ | ⟨c2, _ | ⟨c3, _ | ⟨c4, _ | ⟨c5, _ | ⟨c6, _ | ⟨c7, t⟩⟩⟩⟩⟩⟩⟩⟩ <;>
    simp_all [matchTrigger, headIdiom, idiom8, idiom5, idiom4, idiom3, idiom2, Idiom.emit])

theorem idiomTable_emit_length (T : OpcodeTable) (I : Idiom) (hI : I ∈ idiomTable)
    (code : List Nat) : (I.emit T code).length = I.span := by
  simp only [idiomTable, List.mem_cons, List.mem_singleton, List.not_mem_nil, or_false] at hI
  rcases hI with rfl | rfl | rfl | rfl | rfl | rfl | rfl | rfl | rfl | rfl | rfl | rfl | rfl |
    rfl | rfl | rfl | rfl | rfl <;> rfl

/-- C7: longest match wins. Whenever the head of `code` matches the trigger of
a row `I` of the idiom table (enough bytes included) and also the trigger of a
row `J` of shorter span, `doCodeFusion` starts with the synthetic opcode of `I`
followed by its operand and `Nop` bytes, `I.span` bytes in all. In particular
`SWAP2 SWAP1 POP JUMP` gives `Swap2Swap1PopJump`, `SWAP1 POP SWAP2 SWAP1` gives
`Swap1PopSwap2Swap1` and `PUSH1 x PUSH1 y PUSH1 z SHL SUB` gives `ShlAndSub`. -/
theorem doCodeFusion_longestMatch (T : OpcodeTable) (hT : T.WellFormed) (c : OpCodeCache) :
    (∀ (code : List Nat) (I J : Idiom), I ∈ idiomTable → J ∈ idiomTable → J.span < I.span →
      matchTrigger T I.trigger code = true → matchTrigger T J.trigger code = true →
      ∃ rest c', doCodeFusion T c code = some (I.emit T code ++ rest, none, c') ∧
        (I.emit T code).length = I.span) ∧
    (∀ rest : List Nat, ∃ out c',
      doCodeFusion T c (T .SWAP2 :: T .SWAP1 :: T .POP :: T .JUMP :: rest)
        = some (T .Swap2Swap1PopJump :: T .Nop :: T .Nop :: T .Nop :: out, none, c')) ∧
    (∀ rest : List Nat, ∃ out c',
      doCodeFusion T c (T .SWAP1 :: T .POP :: T .SWAP2 :: T .SWAP1 :: rest)
        = some (T .Swap1PopSwap2Swap1 :: T .Nop :: T .Nop :: T .Nop :: out, none, c')) ∧
    (∀ (x y z : Nat) (rest : List Nat), ∃ out c',
      doCodeFusion T c
          (T .PUSH1 :: x :: T .PUSH1 :: y :: T .PUSH1 :: z :: T .SHL :: T .SUB :: rest)
        = some (T .ShlAndSub :: x :: y :: z :: T .Nop :: T .Nop :: T .Nop :: T .Nop :: out,
            none, c')) := by
  have main : ∀ (code : List Nat) (I J : Idiom), I ∈ idiomTable → J ∈ idiomTable →
      J.span < I.span →
      matchTrigger T I.trigger code = true → matchTrigger T J.trigger code = true →
      ∃ rest c', doCodeFusion T c code = some (I.emit T code ++ rest, none, c') ∧
        (I.emit T code).length = I.span := by
    intro code I J hI hJ hlt hmI hmJ
    have hh := headIdiom_of_row T hT code I J hI hJ hlt hmI hmJ
    have hf := fusedBytes_of_headIdiom T hT code _ hh
    obtain ⟨c', hc'⟩ := doCodeFusion_of_fusedBytes T code _ hf c
    exact ⟨_, c', hc', idiomTable_emit_length T I hI code⟩
  refine ⟨main, ?_, ?_, ?_⟩
  · intro rest
    obtain ⟨out, c', h, -⟩ := main (T .SWAP2 :: T .SWAP1 :: T .POP :: T .JUMP :: rest)
      ⟨[some .SWAP2, some .SWAP1, some .POP, some .JUMP], .Swap2Swap1PopJump, [none, none, none]⟩
      ⟨[some .SWAP2, some .SWAP1], .Swap2Swap1, [none]⟩ (by decide) (by decide) (by decide)
      (by simp [matchTrigger]) (by simp [matchTrigger])
    exact ⟨out, c', by simpa [Idiom.emit] using h⟩
  · intro rest
    obtain ⟨out, c', h, -⟩ := main (T .SWAP1 :: T .POP :: T .SWAP2 :: T .SWAP1 :: rest)
      ⟨[some .SWAP1, some .POP, some .SWAP2, some .SWAP1], .Swap1PopSwap2Swap1,
        [none, none, none]⟩
      ⟨[some .SWAP1, some .POP], .Swap1Pop, [none]⟩ (by decide) (by decide) (by decide)
      (by simp [matchTrigger]) (by simp [matchTrigger])
    exact ⟨out, c', by simpa [Idiom.emit] using h⟩
  · intro x y z rest
    obtain ⟨out, c', h, -⟩ := main
      (T .PUSH1 :: x :: T .PUSH1 :: y :: T .PUSH1 :: z :: T .SHL :: T .SUB :: rest)
      ⟨[some .PUSH1, none, some .PUSH1, none, some .PUSH1, none, some .SHL, some .SUB],
        .ShlAndSub, [some 1, some 3, some 5, none, none, none, none]⟩
      ⟨[some .PUSH1, none, some .PUSH1, none], .Push1Push1, [some 1, none, some 3]⟩
      (by decide) (by decide) (by decide)
      (by simp [matchTrigger]) (by simp [matchTrigger])
    exact ⟨out, c', by simpa [Idiom.emit] using h⟩

theorem doCodeFusion_longestMatch_witness :
    sampleTable.WellFormed ∧
    ∃ rest c', doCodeFusion sampleTable GetOpCodeCacheInstance [0x91, 0x90, 0x50, 0x56, 0x00]
      = some ([sampleTable .Swap2Swap1PopJump, sampleTable .Nop, sampleTable .Nop,
          sampleTable .Nop] ++ rest, none, c') := by
  refine ⟨sampleTable_wellFormed, ?_⟩
  obtain ⟨rest, c', h, -⟩ :=
    (doCodeFusion_longestMatch sampleTable sampleTable_wellFormed GetOpCodeCacheInstance).1
      [0x91, 0x90, 0x50, 0x56, 0x00]
      ⟨[some .SWAP2, some .SWAP1, some .POP, some .JUMP], .Swap2Swap1PopJump, [none, none, none]⟩
      ⟨[some .SWAP2, some .SWAP1], .Swap2Swap1, [none]⟩ (by decide) (by decide) (by decide)
      (by decide) (by decide)
  exact ⟨rest, c', h⟩

/-! ## Bytes that a second scan leaves alone -/

theorem Stable.head_none {T : OpcodeTable} {b0 : Nat} {t : List Nat}
    (h : Stable T (b0 :: t)) : headIdiom T (b0 :: t) = none := by
  cases h with
  | step _ _ h1 _ => exact h1

theorem Stable.rest {T : OpcodeTable} {b0 : Nat} {t : List Nat}
    (h : Stable T (b0 :: t)) : Stable T (t.drop (skipOf T b0)) := by
  cases h with
  | step _ _ _ h2 => exact h2

theorem headIdiom_eq_none_iff (T : OpcodeTable) (s : List Nat) :
    headIdiom T s = none ↔
      idiom8 T s = none ∧ idiom5 T s = none ∧ idiom4 T s = none ∧ idiom3 T s = none ∧
        idiom2 T s = none := by
  unfold headIdiom
  cases idiom8 T s <;> cases idiom5 T s <;> cases idiom4 T s <;> cases idiom3 T s <;>
    cases idiom2 T s <;> simp

/-- Fusing bytes in which the scan finds no idiom returns them unchanged. -/
theorem fusedBytes_of_stable (T : OpcodeTable) (hT : T.WellFormed) (s : List Nat)
    (h : Stable T s) : fusedBytes T s = s := by
  induction h with
  | nil => exact fusedBytes_nil T
  | step b0 t h1 _ ih =>
    rw [fusedBytes_of_none T hT b0 t h1]
    simp only [List.drop_succ_cons, List.take_succ_cons, List.cons_append]
    rw [ih, List.take_append_drop]

theorem stable_op (T : OpcodeTable) (hT : T.WellFormed) (a : Opcode) (t : List Nat)
    (ha : a.isTriggerHead = false) (h : Stable T (t.drop a.skip)) : Stable T (T a :: t) := by
  refine Stable.step _ _ (headIdiom_op T hT a t ha) ?_
  rw [skipOf_op T hT]
  exact h

theorem stable_emit8 (T : OpcodeTable) (hT : T.WellFormed) (s o F : List Nat)
    (hfo : idiom8 T s = some o) (hF : Stable T F) :
    Stable T (o ++ F) ∧ ∃ S d, o = T S :: d ∧ S.isSynthetic = true := by
  unfold idiom8 at hfo
  split at hfo
  · split_ifs at hfo
    · simp only [Option.some.injEq] at hfo
      subst hfo
      refine ⟨?_, _, _, rfl, rfl⟩
      simp only [List.cons_append, List.nil_append]
      refine stable_op T hT _ _ rfl ?_
      simp only [Opcode.skip, List.drop_succ_cons, List.drop_zero]
      exact hF
  · simp at hfo

theorem stable_emit5 (T : OpcodeTable) (hT : T.WellFormed) (s o F : List Nat)
    (hfo : idiom5 T s = some o) (hF : Stable T F) :
    Stable T (o ++ F) ∧ ∃ S d, o = T S :: d ∧ S.isSynthetic = true := by
  unfold idiom5 at hfo
  split at hfo
  · split_ifs at hfo <;> simp only [Option.some.injEq, reduceCtorEq] at hfo <;> subst hfo <;>
      refine ⟨?_, _, _, rfl, rfl⟩ <;>
      simp only [List.cons_append, List.nil_append] <;>
      repeat (first
        | exact hF
        | (refine stable_op T hT _ _ rfl ?_
           simp only [Opcode.skip, List.drop_succ_cons, List.drop_zero]))
  · simp at hfo

theorem stable_emit4 (T : OpcodeTable) (hT : T.WellFormed) (s o F : List Nat)
    (hfo : idiom4 T s = some o) (hF : Stable T F) :
    Stable T (o ++ F) ∧ ∃ S d, o = T S :: d ∧ S.isSynthetic = true := by
  unfold idiom4 at hfo
  split at hfo
  · split_ifs at hfo <;> simp only [Option.some.injEq, reduceCtorEq] at hfo <;> subst hfo <;>
      refine ⟨?_, _, _, rfl, rfl⟩ <;>
      simp only [List.cons_append, List.nil_append] <;>
      repeat (first
        | exact hF
        | (refine stable_op T hT _ _ rfl ?_
           simp only [Opcode.skip, List.drop_succ_cons, List.drop_zero]))
  · simp at hfo

theorem stable_emit3 (T : OpcodeTable) (hT : T.WellFormed) (s o F : List Nat)
    (hfo : idiom3 T s = some o) (hF : Stable T F) :
    Stable T (o ++ F) ∧ ∃ S d, o = T S :: d ∧ S.isSynthetic = true := by
  unfold idiom3 at hfo
  split at hfo
  · split_ifs at hfo <;> simp only [Option.some.injEq, reduceCtorEq] at hfo <;> subst hfo <;>
      refine ⟨?_, _, _, rfl, rfl⟩ <;>
      simp only [List.cons_append, List.nil_append] <;>
      repeat (first
        | exact hF
        | (refine stable_op T hT _ _ rfl ?_
           simp only [Opcode.skip, List.drop_succ_cons, List.drop_zero]))
  · simp at hfo

theorem stable_emit2 (T : OpcodeTable) (hT : T.WellFormed) (s o F : List Nat)
    (hfo : idiom2 T s = some o) (hF : Stable T F) :
    Stable T (o ++ F) ∧ ∃ S d, o = T S :: d ∧ S.isSynthetic = true := by
  unfold idiom2 at hfo
  split at hfo
  · split_ifs at hfo <;> simp only [Option.some.injEq, reduceCtorEq] at hfo <;> subst hfo <;>
      refine ⟨?_, _, _, rfl, rfl⟩ <;>
      simp only [List.cons_append, List.nil_append] <;>
      repeat (first
        | exact hF
        | (refine stable_op T hT _ _ rfl ?_
           simp only [Opcode.skip, List.drop_succ_cons, List.drop_zero]))
  · simp at hfo

/-- What an idiom writes: a synthetic opcode followed by bytes that a later
scan passes over, so the scan resumes behind the span. -/
theorem stable_emit (T : OpcodeTable) (hT : T.WellFormed) (s o F : List Nat)
    (h : headIdiom T s = some o) (hF : Stable T F) :
    Stable T (o ++ F) ∧ ∃ S d, o = T S :: d ∧ S.isSynthetic = true := by
  unfold headIdiom at h
  cases h8 : idiom8 T s with
  | some o8 => rw [h8] at h; simp at h; subst h; exact stable_emit8 T hT _ _ _ h8 hF
  | none =>
  cases h5 : idiom5 T s with
  | some o5 => rw [h8, h5] at h; simp at h; subst h; exact stable_emit5 T hT _ _ _ h5 hF
  | none =>
  cases h4 : idiom4 T s with
  | some o4 => rw [h8, h5, h4] at h; simp at h; subst h; exact stable_emit4 T hT _ _ _ h4 hF
  | none =>
  cases h3 : idiom3 T s with
  | some o3 =>
    rw [h8, h5, h4, h3] at h; simp at h; subst h; exact stable_emit3 T hT _ _ _ h3 hF
  | none =>
    rw [h8, h5, h4, h3] at h; simp at h
    exact stable_emit2 T hT _ _ _ h hF

/-! ## Claim C4: a second pass changes nothing -/

theorem fusedBytes_head (T : OpcodeTable) (hT : T.WellFormed) (R : List Nat) (a : Opcode)
    (ha : a.isSynthetic = false) (h : (fusedBytes T R).head? = some (T a)) :
    R.head? = some (T a) := by
  rcases R with _ | ⟨r0, R1⟩
  · rw [fusedBytes_nil] at h; simp at h
  · cases hh : headIdiom T (r0 :: R1) with
    | some o =>
      obtain ⟨-, S, d, rfl, hS⟩ := stable_emit T hT _ _ [] hh Stable.nil
      rw [fusedBytes_of_headIdiom T hT _ _ hh] at h
      simp only [List.cons_append, List.head?_cons, Option.some.injEq] at h
      rw [hT.eq_iff] at h
      subst h
      rw [ha] at hS
      exact Bool.noConfusion hS
    | none =>
      rw [fusedBytes_of_none T hT _ _ hh] at h
      simpa using h

theorem idiom8_c2 (T : OpcodeTable) (c0 c1 c2 : Nat) (t : List Nat) (h : c2 ≠ T .PUSH1) :
    idiom8 T (c0 :: c1 :: c2 :: t) = none := by
  rcases t with _ | ⟨c3, _ | ⟨c4, _ | ⟨c5, _ | ⟨c6, _ | ⟨c7, t⟩⟩⟩⟩⟩ <;> simp [idiom8, h]

/-- The first pass found no idiom at `b0`; behind the bytes `d` it skipped it
left `F` where `R` stood, with `F` of the same length, free of idioms for a
later scan, and starting with the same byte as `R` unless it starts with a
synthetic opcode. Then a later scan finds no idiom at `b0` either. -/
theorem headIdiom_transfer (T : OpcodeTable) (hT : T.WellFormed) (b0 : Nat) (d R F : List Nat)
    (hd : d.length = skipOf T b0) (hnone : headIdiom T (b0 :: (d ++ R)) = none)
    (hlen : F.length = R.length)
    (hHT : ∀ a : Opcode, a.isSynthetic = false → F.head? = some (T a) → R.head? = some (T a))
    (hF : Stable T F) : headIdiom T (b0 :: (d ++ F)) = none := by
  have hinj := hT.eq_iff
  by_cases hb : ∃ a : Opcode, a.isTriggerHead = true ∧ b0 = T a
  swap
  · apply headIdiom_head
    intro a ha e
    exact hb ⟨a, ha, e⟩
  obtain ⟨a, ha, rfl⟩ := hb
  rw [skipOf_op T hT] at hd
  rcases F with _ | ⟨f0, F1⟩
  · have : R = [] := List.length_eq_zero.mp hlen.symm
    subst this; exact hnone
  rcases R with _ | ⟨r0, R1⟩
  · simp at hlen
  have hlen1 : F1.length = R1.length := by simpa using hlen
  have hHT0 : ∀ a : Opcode, a.isSynthetic = false → f0 = T a → r0 = T a := by
    intro a ha e
    have := hHT a ha (by simp [e])
    simpa using this
  clear hHT hlen
  rw [headIdiom_eq_none_iff] at hnone ⊢
  obtain ⟨h8, h5, h4, h3, h2⟩ := hnone
  cases a <;> simp only [Opcode.isTriggerHead, Bool.false_eq_true] at ha
  · obtain ⟨x, rfl⟩ := List.length_eq_one.mp (by simpa [Opcode.skip] using hd)
    simp only [List.cons_append, List.nil_append] at *
    have hne : f0 ≠ T .PUSH1 ∨ F1 = [] := by
      by_cases hf : f0 = T .PUSH1
      · right
        have hr := hHT0 .PUSH1 rfl hf
        subst hr
        rcases R1 with _ | ⟨r1, R2⟩
        · exact List.length_eq_zero.mp hlen1
        · simp [idiom4, hinj] at h4
      · left; exact hf
    have e1 := hHT0 .ADD rfl
    have e2 := hHT0 .SHL rfl
    have e3 := hHT0 .DUP1 rfl
    refine ⟨?_, idiom5_head T _ _ (by simp [hinj]) (by simp [hinj]), ?_, ?_,
      idiom2_head T _ _ (by simp [hinj]) (by simp [hinj]) (by simp [hinj]) (by simp [hinj])⟩
    · rcases hne with hne | rfl
      · exact idiom8_c2 T _ _ _ _ hne
      · simp [idiom8]
    · rcases hne with hne | rfl
      · rcases F1 with _ | ⟨f1, F2⟩ <;> simp [idiom4, hinj, hne]
      · simp [idiom4]
    · simp [idiom3, hinj] at h3 ⊢
      split_ifs at h3 ⊢ <;> simp_all
  · obtain ⟨x, y, rfl⟩ := List.length_eq_two.mp (by simpa [Opcode.skip] using hd)
    simp only [List.cons_append, List.nil_append] at *
    have e1 := hHT0 .JUMP rfl
    have e2 := hHT0 .JUMPI rfl
    refine ⟨idiom8_head T _ _ (by simp [hinj]),
      idiom5_head T _ _ (by simp [hinj]) (by simp [hinj]), ?_,
      idiom3_head T _ _ (by simp [hinj]),
      idiom2_head T _ _ (by simp [hinj]) (by simp [hinj]) (by simp [hinj]) (by simp [hinj])⟩
    simp [idiom4, hinj] at h4 ⊢
    split_ifs at h4 ⊢ <;> simp_all
  · obtain rfl := List.length_eq_zero.mp (by simpa [Opcode.skip] using hd)
    simp only [List.nil_append] at *
    refine ⟨idiom8_head T _ _ (by simp [hinj]), ?_,
      idiom4_head T _ _ (by simp [hinj]) (by simp [hinj]) (by simp [hinj]) (by simp [hinj])
        (by simp [hinj]),
      idiom3_head T _ _ (by simp [hinj]),
      idiom2_head T _ _ (by simp [hinj]) (by simp [hinj]) (by simp [hinj]) (by simp [hinj])⟩
    have hs := (headIdiom_eq_none_iff T _).mp hF.head_none
    rcases F1 with _ | ⟨f1, _ | ⟨f2, _ | ⟨f3, F4⟩⟩⟩ <;> simp [idiom5, hinj]
    rintro rfl rfl rfl rfl
    simp [idiom2, hinj] at hs
  · obtain rfl := List.length_eq_zero.mp (by simpa [Opcode.skip] using hd)
    simp only [List.nil_append] at *
    have e1 := hHT0 .POP rfl
    refine ⟨idiom8_head T _ _ (by simp [hinj]),
      idiom5_head T _ _ (by simp [hinj]) (by simp [hinj]), ?_,
      idiom3_head T _ _ (by simp [hinj]), ?_⟩
    · rcases F1 with _ | ⟨f1, _ | ⟨f2, F3⟩⟩ <;> simp [idiom4, hinj]
      rintro rfl rfl rfl
      have h1 := hF.rest
      rw [skipOf_op T hT] at h1
      simp only [Opcode.skip, List.drop_zero] at h1
      have hs := (headIdiom_eq_none_iff T _).mp h1.head_none
      simp [idiom2, hinj] at hs
    · simp [idiom2, hinj] at h2 ⊢
      tauto
  · obtain rfl := List.length_eq_zero.mp (by simpa [Opcode.skip] using hd)
    simp only [List.nil_append] at *
    have e1 := hHT0 .SWAP1 rfl
    have e2 := hHT0 .POP rfl
    have hs := (headIdiom_eq_none_iff T _).mp hF.head_none
    refine ⟨idiom8_head T _ _ (by simp [hinj]),
      idiom5_head T _ _ (by simp [hinj]) (by simp [hinj]), ?_,
      idiom3_head T _ _ (by simp [hinj]), ?_⟩
    · rcases F1 with _ | ⟨f1, _ | ⟨f2, F3⟩⟩ <;> simp [idiom4, hinj]
      rintro rfl rfl rfl
      simp [idiom2, hinj] at hs
    · simp [idiom2, hinj] at h2 ⊢
      split_ifs at h2 ⊢ <;> simp_all
  · obtain rfl := List.length_eq_zero.mp (by simpa [Opcode.skip] using hd)
    simp only [List.nil_append] at *
    have e1 := hHT0 .JUMP rfl
    have e2 := hHT0 .POP rfl
    have hs := (headIdiom_eq_none_iff T _).mp hF.head_none
    refine ⟨idiom8_head T _ _ (by simp [hinj]),
      idiom5_head T _ _ (by simp [hinj]) (by simp [hinj]), ?_,
      idiom3_head T _ _ (by simp [hinj]), ?_⟩
    · rcases F1 with _ | ⟨f1, _ | ⟨f2, F3⟩⟩ <;> simp [idiom4, hinj]
      rintro rfl rfl rfl
      simp [idiom2, hinj] at hs
    · simp [idiom2, hinj] at h2 ⊢
      split_ifs at h2 ⊢ <;> simp_all
  · obtain rfl := List.length_eq_zero.mp (by simpa [Opcode.skip] using hd)
    simp only [List.nil_append] at *
    refine ⟨idiom8_head T _ _ (by simp [hinj]), ?_,
      idiom4_head T _ _ (by simp [hinj]) (by simp [hinj]) (by simp [hinj]) (by simp [hinj])
        (by simp [hinj]),
      idiom3_head T _ _ (by simp [hinj]),
      idiom2_head T _ _ (by simp [hinj]) (by simp [hinj]) (by simp [hinj]) (by simp [hinj])⟩
    have hs := (headIdiom_eq_none_iff T _).mp hF.head_none
    rcases F1 with _ | ⟨f1, _ | ⟨f2, _ | ⟨f3, F4⟩⟩⟩ <;> simp [idiom5, hinj]
    rintro rfl rfl
    simp [idiom4, hinj] at hs
  · obtain rfl := List.length_eq_zero.mp (by simpa [Opcode.skip] using hd)
    simp only [List.nil_append] at *
    have e1 := hHT0 .LT rfl
    refine ⟨idiom8_head T _ _ (by simp [hinj]),
      idiom5_head T _ _ (by simp [hinj]) (by simp [hinj]),
      idiom4_head T _ _ (by simp [hinj]) (by simp [hinj]) (by simp [hinj]) (by simp [hinj])
        (by simp [hinj]),
      idiom3_head T _ _ (by simp [hinj]), ?_⟩
    simp [idiom2, hinj] at h2 ⊢
    tauto

/-- The fused bytes hold no idiom for a later scan. -/
theorem stable_fusedBytes (T : OpcodeTable) (hT : T.WellFormed) (n : Nat) :
    ∀ s : List Nat, s.length ≤ n → Stable T (fusedBytes T s) := by
  induction n with
  | zero =>
    intro s hs
    have : s = [] := List.length_eq_zero.mp (by omega)
    subst this
    rw [fusedBytes_nil]; exact Stable.nil
  | succ n ih =>
    intro s hs
    rcases s with _ | ⟨b0, t⟩
    · rw [fusedBytes_nil]; exact Stable.nil
    have hlt : t.length ≤ n := by simpa using hs
    cases hh : headIdiom T (b0 :: t) with
    | some o =>
      rw [fusedBytes_of_headIdiom T hT _ _ hh]
      have h1 := headIdiom_length T _ _ hh
      refine (stable_emit T hT _ _ _ hh (ih _ ?_)).1
      simp only [List.length_drop, List.length_cons]
      omega
    | none =>
      rw [fusedBytes_of_none T hT _ _ hh]
      simp only [List.take_succ_cons, List.drop_succ_cons, List.cons_append]
      have hF := ih (t.drop (skipOf T b0)) (by simp only [List.length_drop]; omega)
      by_cases hk : skipOf T b0 ≤ t.length
      · refine Stable.step _ _ ?_ ?_
        · refine headIdiom_transfer T hT b0 (t.take (skipOf T b0)) (t.drop (skipOf T b0)) _
            (by simp [hk]) (by rw [List.take_append_drop]; exact hh)
            (fusedBytes_length T _) ?_ hF
          intro a ha h
          exact fusedBytes_head T hT _ a ha h
        · rw [List.drop_append_of_le_length (by simp [hk])]
          have : (List.take (skipOf T b0) t).length = skipOf T b0 := by simp [hk]
          rw [List.drop_of_length_le (by omega)]
          simpa using hF
      · have hd : t.drop (skipOf T b0) = [] := by simp; omega
        have ht : t.take (skipOf T b0) = t := by simp; omega
        rw [hd, ht, fusedBytes_nil, List.append_nil]
        refine Stable.step _ _ hh ?_
        rw [hd]; exact Stable.nil

/-- C4: rescan safety. For a well-formed opcode table (distinct opcodes, the
synthetic ones and `Nop` outside the push family) a second pass over fused
output changes nothing: `doCodeFusion(doCodeFusion(c)) = doCodeFusion(c)`,
from whatever cache either pass starts; and the second pass finds no idiom at
any position it visits (`Stable`), so no filler or operand byte is taken for
an opcode. -/
theorem doCodeFusion_idempotent (T : OpcodeTable) (hT : T.WellFormed) (c c' : OpCodeCache)
    (code : List Nat) :
    ∃ fused c1 c2, doCodeFusion T c code = some (fused, none, c1) ∧
      doCodeFusion T c' fused = some (fused, none, c2) ∧ Stable T fused := by
  obtain ⟨c1, h1⟩ := doCodeFusion_fusedBytes T c code
  have hs := stable_fusedBytes T hT code.length code (Nat.le_refl _)
  obtain ⟨c2, h2⟩ := doCodeFusion_of_fusedBytes T _ _ (fusedBytes_of_stable T hT _ hs) c'
  exact ⟨_, c1, c2, h1, h2, hs⟩

theorem doCodeFusion_idempotent_witness :
    sampleTable.WellFormed ∧
    ∃ fused c1 c2,
      doCodeFusion sampleTable GetOpCodeCacheInstance
          [0x60, 0x05, 0x60, 0x03, 0x60, 0x02, 0x1b, 0x03, 0x90, 0x50, 0x61, 0x00, 0x2a, 0x56]
        = some (fused, none, c1) ∧
      doCodeFusion sampleTable GetOpCodeCacheInstance fused = some (fused, none, c2) ∧
      Stable sampleTable fused :=
  ⟨sampleTable_wellFormed,
    doCodeFusion_idempotent sampleTable sampleTable_wellFormed GetOpCodeCacheInstance
      GetOpCodeCacheInstance
      [0x60, 0x05, 0x60, 0x03, 0x60, 0x02, 0x1b, 0x03, 0x90, 0x50, 0x61, 0x00, 0x2a, 0x56]⟩

/-! ## The code cache and the coordinator: claims C11 to C20 -/

theorem UpdateCodeCache_get_self (c : OpCodeCache) (address : Address) (code : OptCode) :
    (c.UpdateCodeCache address code).1.GetCachedCode address = some code := by
  unfold OpCodeCache.UpdateCodeCache OpCodeCache.GetCachedCode
  simp only [GoMap.get?_set_self]

theorem UpdateCodeCache_get_other (c : OpCodeCache) (address a' : Address) (code : OptCode)
    (hne : a' ≠ address)
    (hkeep : ¬ (c.codeCacheSize + CodeCacheGCSoftLimit) % 2 ^ 64 > CodeCacheGCThreshold) :
    (c.UpdateCodeCache address code).1.GetCachedCode a' = c.GetCachedCode a' := by
  unfold OpCodeCache.UpdateCodeCache OpCodeCache.GetCachedCode
  simp only [if_neg hkeep]
  rw [GoMap.get?_set_other _ _ _ _ hne]

theorem UpdateCodeCache_shlAndSubMap (c : OpCodeCache) (address : Address) (code : OptCode) :
    (c.UpdateCodeCache address code).1.shlAndSubMap = c.shlAndSubMap := by
  unfold OpCodeCache.UpdateCodeCache
  split <;> rfl

theorem RemoveCachedCode_get_self (c : OpCodeCache) (address : Address)
    (hsize : c.codeCacheSize ≠ 0) : (c.RemoveCachedCode address).GetCachedCode address = none := by
  unfold OpCodeCache.RemoveCachedCode
  rw [if_neg hsize]
  cases h : GoMap.get? c.opcodesCache address with
  | none => simp only [OpCodeCache.GetCachedCode, h]
  | some v => simp only [OpCodeCache.GetCachedCode, GoMap.get?_delete_self]

theorem RemoveCachedCode_get_other (c : OpCodeCache) (address a' : Address) (hne : a' ≠ address) :
    (c.RemoveCachedCode address).GetCachedCode a' = c.GetCachedCode a' := by
  unfold OpCodeCache.RemoveCachedCode
  split
  · rfl
  · cases h : GoMap.get? c.opcodesCache address with
    | none => rfl
    | some v =>
      simp only [OpCodeCache.GetCachedCode]
      rw [GoMap.get?_delete_other _ _ _ hne]

theorem processByteCodes_eq (T : OpcodeTable) (c : OpCodeCache) (code : List Nat) :
    ∃ c1, doCodeFusion T c code = some (fusedBytes T code, none, c1) ∧
      processByteCodes T c code = some (some (fusedBytes T code), none, c1) := by
  obtain ⟨c1, h⟩ := doCodeFusion_fusedBytes T c code
  exact ⟨c1, h, by simp only [processByteCodes, doOpcodesProcess, h, Option.map_some']⟩

theorem GenOrRewriteOptimizedCode_disabled (T : OpcodeTable) (p : OpcodeProcessor)
    (hd : p.enabled = false) (address : Address) (code : List Nat) (hash : Hash) :
    p.GenOrRewriteOptimizedCode T address code hash =
      some (none, some Error.ErrOptiDisabled, p) := by
  simp only [OpcodeProcessor.GenOrRewriteOptimizedCode, hd, Bool.not_false, if_true]

theorem GenOrRewriteOptimizedCode_enabled (T : OpcodeTable) (p : OpcodeProcessor)
    (he : p.enabled = true) (address : Address) (code : List Nat) (hash : Hash) :
    ∃ c1, doCodeFusion T p.codeCache code = some (fusedBytes T code, none, c1) ∧
      p.GenOrRewriteOptimizedCode T address code hash =
        some (some (fusedBytes T code), none,
          { p with codeCache := (c1.UpdateCodeCache address (fusedBytes T code)).1 }) := by
  obtain ⟨c1, h1, h2⟩ := processByteCodes_eq T p.codeCache code
  refine ⟨c1, h1, ?_⟩
  simp only [OpcodeProcessor.GenOrRewriteOptimizedCode, he, Bool.not_true, Bool.false_eq_true,
    if_false, h2, Option.map_some', Option.getD_some]
  rfl

theorem TryGenerateOptimizedCode_hit (T : OpcodeTable) (p : OpcodeProcessor)
    (he : p.enabled = true) (address : Address) (code : List Nat) (hash : Hash)
    (cached : OptCode) (hc : p.codeCache.GetCachedCode address = some cached)
    (hne : cached ≠ []) :
    p.TryGenerateOptimizedCode T address code hash = some (some cached, true, none, p) := by
  have hl : ¬ cached.length = 0 := fun h => hne (List.length_eq_zero.mp h)
  simp only [OpcodeProcessor.TryGenerateOptimizedCode, he, Bool.not_true, Bool.false_eq_true,
    if_false, hc, if_neg hl]

theorem TryGenerateOptimizedCode_miss (T : OpcodeTable) (p : OpcodeProcessor)
    (he : p.enabled = true) (address : Address) (code : List Nat) (hash : Hash)
    (hc : p.codeCache.GetCachedCode address = none ∨
      p.codeCache.GetCachedCode address = some []) :
    ∃ c1, doCodeFusion T p.codeCache code = some (fusedBytes T code, none, c1) ∧
      p.TryGenerateOptimizedCode T address code hash =
        some (some (fusedBytes T code), false, none,
          { p with codeCache := (c1.UpdateCodeCache address (fusedBytes T code)).1 }) := by
  obtain ⟨c1, h1, h2⟩ := GenOrRewriteOptimizedCode_enabled T p he address code hash
  refine ⟨c1, h1, ?_⟩
  rcases hc with hc | hc
  · simp only [OpcodeProcessor.TryGenerateOptimizedCode, he, Bool.not_true, Bool.false_eq_true,
      if_false, hc, h2, Option.map_some']
  · simp only [OpcodeProcessor.TryGenerateOptimizedCode, he, Bool.not_true, Bool.false_eq_true,
      if_false, hc, List.length_nil, if_true, h2, Option.map_some']

theorem LoadOptimizedCode_enabled (p : OpcodeProcessor) (he : p.enabled = true)
    (address : Address) (hash : Hash) :
    p.LoadOptimizedCode address hash = p.codeCache.GetCachedCode address := by
  simp only [OpcodeProcessor.LoadOptimizedCode, he, Bool.not_true, Bool.false_eq_true, if_false]

theorem handleOptimizationTask_disabled (T : OpcodeTable) (p : OpcodeProcessor)
    (hd : p.enabled = false) (task : optimizeTask) :
    p.handleOptimizationTask T task = some p := by
  unfold OpcodeProcessor.handleOptimizationTask
  cases task.taskType <;>
    simp only [OpcodeProcessor.TryGenerateOptimizedCode, OpcodeProcessor.DeleteCodeCache, hd,
      Bool.not_false, if_true, Option.map_some']

theorem calculateSkipSteps_at (T : OpcodeTable) (buf : List Nat) (cur b : Nat)
    (h : rd buf cur = some b) : calculateSkipSteps T buf cur = calculateSkipSteps T [b] 0 := by
  simp only [calculateSkipSteps, h, rd_cons_zero, Option.some_bind]

theorem LoadOptimizedCode_withCache (p : OpcodeProcessor) (he : p.enabled = true)
    (c : OpCodeCache) (address : Address) (hash : Hash) :
    ({ p with codeCache := c } : OpcodeProcessor).LoadOptimizedCode address hash =
      c.GetCachedCode address := by
  simp only [OpcodeProcessor.LoadOptimizedCode, he, Bool.not_true, Bool.false_eq_true, if_false]

/-- C11: eviction trigger. With the guard of `UpdateCodeCache` true, the cache
afterwards holds exactly the inserted entry and `codeCacheSize` is the length
of the code; with the guard false every other entry is read back as before and
the identity reads the new code. The guard is the `uint64` comparison of the
source, which is the comparison of the sums when the sum does not wrap. The
memo table is left alone either way. -/
theorem UpdateCodeCache_eviction (c : OpCodeCache) (address : Address) (code : OptCode)
    (hlen : code.length < 2 ^ 64) :
    ((c.codeCacheSize + CodeCacheGCSoftLimit) % 2 ^ 64 > CodeCacheGCThreshold →
      (c.UpdateCodeCache address code).1.opcodesCache = [(address, code)] ∧
      (c.UpdateCodeCache address code).1.codeCacheSize = code.length) ∧
    (¬ (c.codeCacheSize + CodeCacheGCSoftLimit) % 2 ^ 64 > CodeCacheGCThreshold →
      (∀ a', a' ≠ address →
        (c.UpdateCodeCache address code).1.GetCachedCode a' = c.GetCachedCode a') ∧
      (c.UpdateCodeCache address code).1.GetCachedCode address = some code) ∧
    (c.codeCacheSize + CodeCacheGCSoftLimit < 2 ^ 64 →
      ((c.codeCacheSize + CodeCacheGCSoftLimit) % 2 ^ 64 > CodeCacheGCThreshold ↔
        c.codeCacheSize + CodeCacheGCSoftLimit > CodeCacheGCThreshold)) ∧
    (c.UpdateCodeCache address code).1.shlAndSubMap = c.shlAndSubMap := by
  refine ⟨?_, ?_, ?_, UpdateCodeCache_shlAndSubMap c address code⟩
  · intro h
    unfold OpCodeCache.UpdateCodeCache
    simp only [if_pos h, GoMap.set, GoMap.delete, List.filter_nil, Nat.zero_add,
      Nat.mod_eq_of_lt hlen, and_self]
  · intro h
    exact ⟨fun a' hne => UpdateCodeCache_get_other c address a' code hne h,
      UpdateCodeCache_get_self c address code⟩
  · intro h
    rw [Nat.mod_eq_of_lt h]

theorem UpdateCodeCache_eviction_witness :
    ([0x60, 0x01].length < 2 ^ 64 ∧
      (900 * 1024 * 1024 + CodeCacheGCSoftLimit) % 2 ^ 64 > CodeCacheGCThreshold) ∧
    ((⟨[(1, [0x50]), (2, [0x56])], 900 * 1024 * 1024, []⟩ : OpCodeCache).UpdateCodeCache 3
        [0x60, 0x01]).1.opcodesCache = [(3, [0x60, 0x01])] ∧
    ((⟨[(1, [0x50]), (2, [0x56])], 900 * 1024 * 1024, []⟩ : OpCodeCache).UpdateCodeCache 3
        [0x60, 0x01]).1.codeCacheSize = 2 :=
  ⟨⟨by decide, by decide⟩,
    (UpdateCodeCache_eviction ⟨[(1, [0x50]), (2, [0x56])], 900 * 1024 * 1024, []⟩ 3 [0x60, 0x01]
      (by decide)).1 (by decide)⟩

/-- C19: put/get round trip. From every cache state, whether or not the
eviction fires, `GetCachedCode` after `UpdateCodeCache` of the same identity
returns exactly the stored code, and `UpdateCodeCache` returns a nil error. -/
theorem UpdateCodeCache_roundTrip (c : OpCodeCache) (address : Address) (code : OptCode) :
    (c.UpdateCodeCache address code).1.GetCachedCode address = some code ∧
    (c.UpdateCodeCache address code).2 = none :=
  ⟨UpdateCodeCache_get_self c address code, rfl⟩

/-- C16, as stated, fails: on the cache left by `UpdateCodeCache 1 []` from the
fresh instance the counter `codeCacheSize` is `0` although the map has an
entry; the guard of `RemoveCachedCode` returns early and the entry is still
read back afterwards. -/
theorem RemoveCachedCode_keeps_empty_code :
    (GetOpCodeCacheInstance.UpdateCodeCache 1 []).1 = ⟨[(1, [])], 0, []⟩ ∧
    (⟨[(1, [])], 0, []⟩ : OpCodeCache).GetCachedCode 1 = some [] ∧
    (⟨[(1, [])], 0, []⟩ : OpCodeCache).RemoveCachedCode 1 = ⟨[(1, [])], 0, []⟩ ∧
    ((⟨[(1, [])], 0, []⟩ : OpCodeCache).RemoveCachedCode 1).GetCachedCode 1 ≠ none := by
  decide

/-- C16, amended. With `codeCacheSize` not `0`, after `RemoveCachedCode` the
identity has no entry; in every state the entry of every other identity, the
counter and the memo table are as before; when the identity is absent, the
map holds no entry or `codeCacheSize` is `0`, the call changes nothing. -/
theorem RemoveCachedCode_spec (c : OpCodeCache) (address : Address) :
    (c.codeCacheSize ≠ 0 → (c.RemoveCachedCode address).GetCachedCode address = none) ∧
    (∀ a', a' ≠ address →
      (c.RemoveCachedCode address).GetCachedCode a' = c.GetCachedCode a') ∧
    (c.GetCachedCode address = none ∨ c.opcodesCache = [] ∨ c.codeCacheSize = 0 →
      c.RemoveCachedCode address = c) ∧
    (c.RemoveCachedCode address).codeCacheSize = c.codeCacheSize ∧
    (c.RemoveCachedCode address).shlAndSubMap = c.shlAndSubMap := by
  refine ⟨RemoveCachedCode_get_self c address,
    fun a' hne => RemoveCachedCode_get_other c address a' hne, ?_, ?_, ?_⟩
  · intro h
    have habs : c.codeCacheSize ≠ 0 → GoMap.get? c.opcodesCache address = none →
        c.RemoveCachedCode address = c := by
      intro hs hg
      simp only [OpCodeCache.RemoveCachedCode, if_neg hs, hg]
    by_cases hs : c.codeCacheSize = 0
    · simp only [OpCodeCache.RemoveCachedCode, if_pos hs]
    · rcases h with h | h | h
      · apply habs hs
        cases hg : GoMap.get? c.opcodesCache address with
        | none => rfl
        | some v => simp only [OpCodeCache.GetCachedCode, hg] at h; cases h
      · apply habs hs
        rw [h]
        rfl
      · exact absurd h hs
  · unfold OpCodeCache.RemoveCachedCode
    split
    · rfl
    · split <;> rfl
  · unfold OpCodeCache.RemoveCachedCode
    split
    · rfl
    · split <;> rfl

theorem RemoveCachedCode_spec_witness :
    (⟨[(1, [0x50]), (2, [0x56])], 2, []⟩ : OpCodeCache).codeCacheSize ≠ 0 ∧
    ((⟨[(1, [0x50]), (2, [0x56])], 2, []⟩ : OpCodeCache).RemoveCachedCode 1).GetCachedCode 1 =
      none :=
  ⟨by decide, (RemoveCachedCode_spec ⟨[(1, [0x50]), (2, [0x56])], 2, []⟩ 1).1 (by decide)⟩

/-- C17: the cache key is the pair (address, code hash). In the Code Cache
of the spec, for distinct hashes `h1` and `h2` and a cache with no entry for
`(a, h2)`, after the code is stored for `(a, h1)` the lookup for `(a, h2)`
returns absent and the lookup for `(a, h1)` returns the code; the lookup for
any identity other than the stored one is absent or what it was before, so
the code stored for one body is never served for another. -/
theorem CodeCache_key_is_identity (c : CodeCache) (a : Address) (h1 h2 : Hash)
    (code : OptCode) (hne : h1 ≠ h2) (habs : c.GetCachedCode a h2 = none) :
    (c.UpdateCodeCache a code h1).GetCachedCode a h2 = none ∧
    (c.UpdateCodeCache a code h1).GetCachedCode a h1 = some code ∧
    (∀ (a' : Address) (h' : Hash), (a', h') ≠ (a, h1) →
      (c.UpdateCodeCache a code h1).GetCachedCode a' h' = none ∨
      (c.UpdateCodeCache a code h1).GetCachedCode a' h' = c.GetCachedCode a' h') := by
  have hother : ∀ (a' : Address) (h' : Hash), (a', h') ≠ (a, h1) →
      (c.UpdateCodeCache a code h1).GetCachedCode a' h' = none ∨
      (c.UpdateCodeCache a code h1).GetCachedCode a' h' = c.GetCachedCode a' h' := by
    intro a' h' hk
    unfold CodeCache.UpdateCodeCache CodeCache.GetCachedCode
    by_cases hg : c.aggregateSize + CodeCacheGCSoftLimit > CodeCacheGCThreshold
    · left
      simp only [if_pos hg]
      rw [GoMap.get?_set_other _ _ _ _ hk]
      rfl
    · right
      simp only [if_neg hg]
      rw [GoMap.get?_set_other _ _ _ _ hk]
  refine ⟨?_, ?_, hother⟩
  · have hk : (a, h2) ≠ (a, h1) := fun h => hne (Prod.mk.inj h).2.symm
    rcases hother a h2 hk with h | h
    · exact h
    · rw [h, habs]
  · unfold CodeCache.UpdateCodeCache CodeCache.GetCachedCode
    simp only [GoMap.get?_set_self]

theorem CodeCache_key_is_identity_witness :
    ((0xaa : Hash) ≠ 0xbb ∧
      (⟨[((1, 0xcc), [0x56]), ((2, 0xbb), [0x01])], 2⟩ : CodeCache).GetCachedCode 1 0xbb =
        none) ∧
    ((⟨[((1, 0xcc), [0x56]), ((2, 0xbb), [0x01])], 2⟩ : CodeCache).UpdateCodeCache 1 [0x50]
      0xaa).GetCachedCode 1 0xbb = none ∧
    ((⟨[((1, 0xcc), [0x56]), ((2, 0xbb), [0x01])], 2⟩ : CodeCache).UpdateCodeCache 1 [0x50]
      0xaa).GetCachedCode 1 0xaa = some [0x50] :=
  ⟨⟨by decide, by decide⟩,
    (CodeCache_key_is_identity ⟨[((1, 0xcc), [0x56]), ((2, 0xbb), [0x01])], 2⟩ 1 0xaa 0xbb [0x50]
      (by decide) (by decide)).1,
    (CodeCache_key_is_identity ⟨[((1, 0xcc), [0x56]), ((2, 0xbb), [0x01])], 2⟩ 1 0xaa 0xbb [0x50]
      (by decide) (by decide)).2.1⟩

/-- C20, as stated, fails: `Swap1Pop` is what `doCodeFusion` writes for the
idiom `SWAP1 POP` of span 2, and `calculateSkipSteps` on it reports no skip. -/
theorem calculateSkipSteps_swap1Pop_unregistered :
    (doCodeFusion sampleTable GetOpCodeCacheInstance [sampleTable .SWAP1, sampleTable .POP]).map
        (fun r => r.1) = some [sampleTable .Swap1Pop, sampleTable .Nop] ∧
    calculateSkipSteps sampleTable [sampleTable .Swap1Pop, sampleTable .Nop] 0 =
      some (false, 0) ∧
    calculateSkipSteps sampleTable [sampleTable .Swap1Pop, sampleTable .Nop] 0 ≠
      some (true, 1) := by
  decide

/-- C20, amended. For a row of the idiom table of span `s`: when the synthetic
opcode carries operand bytes, `calculateSkipSteps` at a position holding it
returns `(true, s - 1)`; when the rest of the span is all `Nop`, it returns
`(false, 0)`. At a position holding one of `PUSH1 .. PUSH32` it returns `true`
with the number of literal bytes, `1 .. 32`. -/
theorem calculateSkipSteps_registered (T : OpcodeTable) (hT : T.WellFormed)
    (buf : List Nat) (cur : Nat) :
    (∀ I ∈ idiomTable, rd buf cur = some (T I.synthetic) →
      calculateSkipSteps T buf cur =
        some (if I.carriesOperands then (true, I.span - 1) else (false, 0))) ∧
    (∀ k, k ≤ 31 → rd buf cur = some (T .PUSH1 + k) →
      calculateSkipSteps T buf cur = some (true, k + 1)) := by
  have hinj := hT.eq_iff
  constructor
  · intro I hI h
    rw [calculateSkipSteps_at T buf cur _ h]
    have hnp : ∀ a : Opcode, a ≠ .PUSH1 → a ≠ .PUSH2 → a ≠ .PUSH32 →
        calculateSkipSteps T [T a] 0 =
          (if T a = T .ShlAndSub then some (true, 7)
          else if T a = T .Push2Jump ∨ T a = T .Push2JumpI then some (true, 3)
          else if T a = T .Push1Push1 then some (true, 3)
          else if T a = T .Push1Add ∨ T a = T .Push1Shl ∨ T a = T .Push1Dup1 then
            some (true, 2)
          else if T a = T .JumpIfZero then some (true, 4)
          else some (false, 0)) := by
      intro a h1 h2 h3
      simp only [calculateSkipSteps, rd_cons_zero, Option.some_bind,
        if_neg (hT.not_push a h1 h2 h3)]
    simp only [idiomTable, List.mem_cons, List.mem_singleton, List.not_mem_nil, or_false] at hI
    rcases hI with h | h | h | h | h | h | h | h | h | h | h | h | h | h | h | h | h | h <;>
      subst h <;>
      rw [hnp _ (by decide) (by decide) (by decide)] <;>
      simp [hinj, Idiom.carriesOperands, Idiom.span]
  · intro k hk h
    rw [calculateSkipSteps_at T buf cur _ h]
    have h32 := hT.2.2.2.1
    have hb := hT.2.1 .PUSH32
    simp only [calculateSkipSteps, rd_cons_zero, Option.some_bind]
    rw [if_pos (by omega)]
    simp only [Option.some.injEq, Prod.mk.injEq, true_and]
    omega

theorem calculateSkipSteps_registered_witness :
    sampleTable.WellFormed ∧
    calculateSkipSteps sampleTable [sampleTable .JumpIfZero, 0, 1, 2, 0] 0 = some (true, 4) ∧
    calculateSkipSteps sampleTable [sampleTable .Pop2, sampleTable .Nop] 0 = some (false, 0) ∧
    calculateSkipSteps sampleTable [sampleTable .PUSH1 + 31] 0 = some (true, 32) :=
  ⟨sampleTable_wellFormed,
    (calculateSkipSteps_registered sampleTable sampleTable_wellFormed
      [sampleTable .JumpIfZero, 0, 1, 2, 0] 0).1
      ⟨[some .ISZERO, some .PUSH2, none, none, some .JUMPI], .JumpIfZero,
        [none, some 2, some 3, none]⟩ (by decide) (by decide),
    by decide, by decide⟩

/-- C12: cache gating. With `enabled = false`, whatever the cache holds,
`LoadOptimizedCode` returns nil for every identity and
`GenOrRewriteOptimizedCode` returns no code and `ErrOptiDisabled`, and the
processor, with its code cache and memo table, is as before. -/
theorem disabled_gating (T : OpcodeTable) (p : OpcodeProcessor) (hd : p.enabled = false)
    (address : Address) (code : List Nat) (hash : Hash) :
    p.LoadOptimizedCode address hash = none ∧
    p.GenOrRewriteOptimizedCode T address code hash =
      some (none, some Error.ErrOptiDisabled, p) := by
  refine ⟨?_, GenOrRewriteOptimizedCode_disabled T p hd address code hash⟩
  simp only [OpcodeProcessor.LoadOptimizedCode, hd, Bool.not_false, if_true]

theorem disabled_gating_witness :
    (⟨false, ⟨[(1, [0x50])], 1, [(⟨5, 3, 2⟩, some 7)]⟩, []⟩ : OpcodeProcessor).enabled = false ∧
    (⟨false, ⟨[(1, [0x50])], 1, [(⟨5, 3, 2⟩, some 7)]⟩, []⟩ : OpcodeProcessor).LoadOptimizedCode
      1 0xaa = none ∧
    (⟨false, ⟨[(1, [0x50])], 1, [(⟨5, 3, 2⟩, some 7)]⟩, []⟩ :
        OpcodeProcessor).GenOrRewriteOptimizedCode sampleTable 1 [0x60, 0x01, 0x01] 0xaa =
      some (none, some Error.ErrOptiDisabled,
        ⟨false, ⟨[(1, [0x50])], 1, [(⟨5, 3, 2⟩, some 7)]⟩, []⟩) :=
  ⟨rfl, disabled_gating sampleTable ⟨false, ⟨[(1, [0x50])], 1, [(⟨5, 3, 2⟩, some 7)]⟩, []⟩ rfl
    1 [0x60, 0x01, 0x01] 0xaa⟩

/-- C13: synchronous compile. With `enabled = true`, `GenOrRewriteOptimizedCode`
returns the bytes that `doCodeFusion` produces for the raw code with a nil
error, the cache afterwards is the cache left by `doCodeFusion` updated at the
identity, and `LoadOptimizedCode` for the identity then returns the same
bytes. -/
theorem GenOrRewriteOptimizedCode_sync (T : OpcodeTable) (p : OpcodeProcessor)
    (he : p.enabled = true) (address : Address) (code : List Nat) (hash : Hash) :
    ∃ fused c1 p1,
      doCodeFusion T p.codeCache code = some (fused, none, c1) ∧
      p.GenOrRewriteOptimizedCode T address code hash = some (some fused, none, p1) ∧
      p1.codeCache = (c1.UpdateCodeCache address fused).1 ∧
      p1.LoadOptimizedCode address hash = some fused := by
  obtain ⟨c1, h1, h2⟩ := GenOrRewriteOptimizedCode_enabled T p he address code hash
  refine ⟨fusedBytes T code, c1, _, h1, h2, rfl, ?_⟩
  rw [LoadOptimizedCode_withCache p he]
  exact UpdateCodeCache_get_self c1 address (fusedBytes T code)

theorem GenOrRewriteOptimizedCode_sync_witness :
    (⟨true, ⟨[(1, [0x50])], 1, []⟩, []⟩ : OpcodeProcessor).enabled = true ∧
    ∃ fused c1 p1,
      doCodeFusion sampleTable
          (⟨true, ⟨[(1, [0x50])], 1, []⟩, []⟩ : OpcodeProcessor).codeCache
          [sampleTable .SWAP1, sampleTable .POP, 0x00] = some (fused, none, c1) ∧
      (⟨true, ⟨[(1, [0x50])], 1, []⟩, []⟩ : OpcodeProcessor).GenOrRewriteOptimizedCode
          sampleTable 1 [sampleTable .SWAP1, sampleTable .POP, 0x00] 0xaa =
        some (some fused, none, p1) ∧
      p1.codeCache = (c1.UpdateCodeCache 1 fused).1 ∧
      p1.LoadOptimizedCode 1 0xaa = some fused :=
  ⟨rfl, GenOrRewriteOptimizedCode_sync sampleTable ⟨true, ⟨[(1, [0x50])], 1, []⟩, []⟩ rfl 1
    [sampleTable .SWAP1, sampleTable .POP, 0x00] 0xaa⟩

/-- C14, as stated, fails: the cache holds an entry for the identity, left by
`GenOrRewriteOptimizedCode` on an empty raw code, and
`TryGenerateOptimizedCode` reports a miss, compiles and overwrites the entry. -/
theorem TryGenerateOptimizedCode_empty_entry_miss :
    (⟨true, GetOpCodeCacheInstance, []⟩ : OpcodeProcessor).GenOrRewriteOptimizedCode
        sampleTable 1 [] 0xaa = some (some [], none, ⟨true, ⟨[(1, [])], 0, []⟩, []⟩) ∧
    (⟨true, ⟨[(1, [])], 0, []⟩, []⟩ : OpcodeProcessor).codeCache.GetCachedCode 1 = some [] ∧
    (⟨true, ⟨[(1, [])], 0, []⟩, []⟩ : OpcodeProcessor).TryGenerateOptimizedCode
        sampleTable 1 [0x50] 0xaa =
      some (some [0x50], false, none, ⟨true, ⟨[(1, [0x50])], 1, []⟩, []⟩) := by
  decide

/-- C14, amended. With `enabled = true`, `TryGenerateOptimizedCode` reports a
hit exactly when the cache holds a non-empty code for the identity, and then
returns that code and leaves the processor as it was; when the cache holds no
entry or an empty code, it reports a miss, returns the bytes that
`doCodeFusion` produces for the raw code, with a nil error, and the cache
afterwards maps the identity to these bytes. -/
theorem TryGenerateOptimizedCode_spec (T : OpcodeTable) (p : OpcodeProcessor)
    (he : p.enabled = true) (address : Address) (code : List Nat) (hash : Hash) :
    (∀ cached, p.codeCache.GetCachedCode address = some cached → cached ≠ [] →
      p.TryGenerateOptimizedCode T address code hash = some (some cached, true, none, p)) ∧
    (p.codeCache.GetCachedCode address = none ∨ p.codeCache.GetCachedCode address = some [] →
      ∃ fused c1 p1,
        doCodeFusion T p.codeCache code = some (fused, none, c1) ∧
        p.TryGenerateOptimizedCode T address code hash = some (some fused, false, none, p1) ∧
        p1.codeCache.GetCachedCode address = some fused) ∧
    ((∃ r, p.TryGenerateOptimizedCode T address code hash = some r ∧ r.2.1 = true) ↔
      ∃ cached, p.codeCache.GetCachedCode address = some cached ∧ cached ≠ []) := by
  have hhit := TryGenerateOptimizedCode_hit T p he address code hash
  have hmiss := TryGenerateOptimizedCode_miss T p he address code hash
  refine ⟨hhit, ?_, ?_⟩
  · intro hc
    obtain ⟨c1, h1, h2⟩ := hmiss hc
    exact ⟨fusedBytes T code, c1, _, h1, h2, UpdateCodeCache_get_self c1 address _⟩
  · constructor
    · rintro ⟨r, hr, hflag⟩
      cases hg : p.codeCache.GetCachedCode address with
      | none =>
        obtain ⟨c1, _, h2⟩ := hmiss (Or.inl hg)
        rw [h2] at hr
        cases hr
        cases hflag
      | some cached =>
        by_cases hne : cached = []
        · subst hne
          obtain ⟨c1, _, h2⟩ := hmiss (Or.inr hg)
          rw [h2] at hr
          cases hr
          cases hflag
        · exact ⟨cached, rfl, hne⟩
    · rintro ⟨cached, hc, hne⟩
      exact ⟨_, hhit cached hc hne, rfl⟩

theorem TryGenerateOptimizedCode_spec_witness :
    (⟨true, ⟨[(1, [0x50])], 1, []⟩, []⟩ : OpcodeProcessor).enabled = true ∧
    (⟨true, ⟨[(1, [0x50])], 1, []⟩, []⟩ : OpcodeProcessor).TryGenerateOptimizedCode
        sampleTable 1 [0x01] 0xaa =
      some (some [0x50], true, none, ⟨true, ⟨[(1, [0x50])], 1, []⟩, []⟩) :=
  ⟨rfl, (TryGenerateOptimizedCode_spec sampleTable ⟨true, ⟨[(1, [0x50])], 1, []⟩, []⟩ rfl 1
    [0x01] 0xaa).1 [0x50] (by decide) (by decide)⟩

/-- C15, as stated, fails: the cache holds the code `[0x01]` for the identity;
the generate task enqueued by `GenOrLoadOptimizedCode` for the raw code
`[0x02]` is received and handled, and `LoadOptimizedCode` still returns
`[0x01]`, while `GenOrRewriteOptimizedCode` returns `[0x02]`. -/
theorem generate_keeps_cached_entry :
    (⟨true, ⟨[(1, [0x01])], 1, []⟩, []⟩ : OpcodeProcessor).GenOrLoadOptimizedCode 1 [0x02] 0xaa =
      ⟨true, ⟨[(1, [0x01])], 1, []⟩, [⟨.generate, 1, 0xaa, [0x02]⟩]⟩ ∧
    (⟨true, ⟨[(1, [0x01])], 1, []⟩, [⟨.generate, 1, 0xaa, [0x02]⟩]⟩ :
        OpcodeProcessor).taskProcessor sampleTable =
      some ⟨true, ⟨[(1, [0x01])], 1, []⟩, []⟩ ∧
    (⟨true, ⟨[(1, [0x01])], 1, []⟩, []⟩ : OpcodeProcessor).handleOptimizationTask sampleTable
        ⟨.generate, 1, 0xaa, [0x02]⟩ = some ⟨true, ⟨[(1, [0x01])], 1, []⟩, []⟩ ∧
    (⟨true, ⟨[(1, [0x01])], 1, []⟩, []⟩ : OpcodeProcessor).LoadOptimizedCode 1 0xaa =
      some [0x01] ∧
    ((⟨true, ⟨[(1, [0x01])], 1, []⟩, []⟩ : OpcodeProcessor).GenOrRewriteOptimizedCode
        sampleTable 1 [0x02] 0xaa).map (fun r => r.1) = some (some [0x02]) := by
  decide

/-- C15, amended. With `enabled = true` when the task is handled:
`GenOrLoadOptimizedCode` appends the generate task to the channel; after
`handleOptimizationTask` has handled it, `LoadOptimizedCode` for the identity
returns the code that `GenOrRewriteOptimizedCode` returns for the raw code
whenever the cache held no entry or an empty code for the identity, and
returns the code the cache already held when that was non-empty. -/
theorem generate_then_load (T : OpcodeTable) (p : OpcodeProcessor) (he : p.enabled = true)
    (address : Address) (raw : List Nat) (hash : Hash) :
    (p.GenOrLoadOptimizedCode address raw hash).taskChannel =
      p.taskChannel ++ [⟨.generate, address, hash, raw⟩] ∧
    ∃ p1 p2 code,
      p.handleOptimizationTask T ⟨.generate, address, hash, raw⟩ = some p1 ∧
      p.GenOrRewriteOptimizedCode T address raw hash = some (some code, none, p2) ∧
      (p.codeCache.GetCachedCode address = none ∨
          p.codeCache.GetCachedCode address = some [] →
        p1.LoadOptimizedCode address hash = some code) ∧
      (∀ cached, p.codeCache.GetCachedCode address = some cached → cached ≠ [] →
        p1.LoadOptimizedCode address hash = some cached) := by
  refine ⟨rfl, ?_⟩
  obtain ⟨c1, h1, h2⟩ := GenOrRewriteOptimizedCode_enabled T p he address raw hash
  have hcases : (p.codeCache.GetCachedCode address = none ∨
      p.codeCache.GetCachedCode address = some []) ∨
      ∃ cached, p.codeCache.GetCachedCode address = some cached ∧ cached ≠ [] := by
    cases hg : p.codeCache.GetCachedCode address with
    | none => exact Or.inl (Or.inl rfl)
    | some cached =>
      by_cases hne : cached = []
      · exact Or.inl (Or.inr (by rw [hne]))
      · exact Or.inr ⟨cached, rfl, hne⟩
  rcases hcases with hc | ⟨cached, hc, hne⟩
  · obtain ⟨c2, h3, h4⟩ := TryGenerateOptimizedCode_miss T p he address raw hash hc
    refine ⟨{ p with codeCache := (c2.UpdateCodeCache address (fusedBytes T raw)).1 }, _,
      fusedBytes T raw, ?_, h2, ?_, ?_⟩
    · simp only [OpcodeProcessor.handleOptimizationTask, h4, Option.map_some']
    · intro _
      rw [LoadOptimizedCode_withCache p he]
      exact UpdateCodeCache_get_self c2 address _
    · intro cached hcached hne
      rcases hc with hc | hc
      · rw [hc] at hcached; cases hcached
      · rw [hc] at hcached; cases hcached; exact absurd rfl hne
  · have h4 := TryGenerateOptimizedCode_hit T p he address raw hash cached hc hne
    refine ⟨p, _, fusedBytes T raw, ?_, h2, ?_, ?_⟩
    · simp only [OpcodeProcessor.handleOptimizationTask, h4, Option.map_some']
    · intro hc'
      rcases hc' with hc' | hc'
      · rw [hc'] at hc; cases hc
      · rw [hc'] at hc; cases hc; exact absurd rfl hne
    · intro cached' hcached _
      rw [hc] at hcached
      cases hcached
      rw [LoadOptimizedCode_enabled _ he, hc]

theorem generate_then_load_witness :
    ((⟨true, GetOpCodeCacheInstance, []⟩ : OpcodeProcessor).enabled = true ∧
      (⟨true, GetOpCodeCacheInstance, []⟩ : OpcodeProcessor).codeCache.GetCachedCode 1 = none) ∧
    ∃ p1 p2 code,
      (⟨true, GetOpCodeCacheInstance, []⟩ : OpcodeProcessor).handleOptimizationTask sampleTable
        ⟨.generate, 1, 0xaa, [0x02]⟩ = some p1 ∧
      (⟨true, GetOpCodeCacheInstance, []⟩ : OpcodeProcessor).GenOrRewriteOptimizedCode
        sampleTable 1 [0x02] 0xaa = some (some code, none, p2) ∧
      p1.LoadOptimizedCode 1 0xaa = some code :=
  ⟨⟨rfl, rfl⟩,
    (generate_then_load sampleTable ⟨true, GetOpCodeCacheInstance, []⟩ rfl 1 [0x02] 0xaa).2.elim
      fun p1 h1 => h1.elim fun p2 h2 => h2.elim fun code h =>
        ⟨p1, p2, code, h.1, h.2.1, h.2.2.1 (Or.inl rfl)⟩⟩

/-- C18: the flag is read when a task is handled. With `enabled = false` at
that time `handleOptimizationTask` leaves the processor, with its code cache
and memo table, as it was, for every task; with `enabled = true` a flush task
applies `RemoveCachedCode` and a generate task has the effect of
`TryGenerateOptimizedCode`. The producers append the task whatever the flag
is: a task enqueued while disabled and received after `EnableOptimization`
takes effect, and a task enqueued while enabled and received after
`DisableOptimization` changes nothing. -/
theorem flag_read_at_execution (T : OpcodeTable) (p : OpcodeProcessor) (task : optimizeTask)
    (address : Address) (raw : List Nat) (hash : Hash) :
    (p.enabled = false → p.handleOptimizationTask T task = some p) ∧
    (p.enabled = true → task.taskType = .flush →
      p.handleOptimizationTask T task =
        some { p with codeCache := p.codeCache.RemoveCachedCode task.addr }) ∧
    (p.enabled = true → task.taskType = .generate →
      ∃ r, p.TryGenerateOptimizedCode T task.addr task.rawCode task.codeHash = some r ∧
        p.handleOptimizationTask T task = some r.2.2.2) ∧
    (p.GenOrLoadOptimizedCode address raw hash =
        { p with taskChannel := p.taskChannel ++ [⟨.generate, address, hash, raw⟩] } ∧
      p.FlushCodeCache address hash =
        { p with taskChannel := p.taskChannel ++ [⟨.flush, address, hash, []⟩] }) ∧
    (p.enabled = false → p.taskChannel = [] →
      ((p.FlushCodeCache address hash).EnableOptimization).taskProcessor T =
        some { p with enabled := true, codeCache := p.codeCache.RemoveCachedCode address } ∧
      (p.codeCache.GetCachedCode address = none →
        ∃ p1, ((p.GenOrLoadOptimizedCode address raw hash).EnableOptimization).taskProcessor T =
            some p1 ∧
          p1.LoadOptimizedCode address hash = some (fusedBytes T raw))) ∧
    (p.enabled = true → p.taskChannel = [] →
      ((p.FlushCodeCache address hash).DisableOptimization).taskProcessor T =
        some { p with enabled := false } ∧
      ((p.GenOrLoadOptimizedCode address raw hash).DisableOptimization).taskProcessor T =
        some { p with enabled := false }) := by
  refine ⟨fun hd => handleOptimizationTask_disabled T p hd task, ?_, ?_, ⟨rfl, rfl⟩, ?_, ?_⟩
  · intro he ht
    simp only [OpcodeProcessor.handleOptimizationTask, ht, OpcodeProcessor.DeleteCodeCache, he,
      Bool.not_true, Bool.false_eq_true, if_false]
  · intro he ht
    rcases hg : p.TryGenerateOptimizedCode T task.addr task.rawCode task.codeHash with _ | r
    · exfalso
      cases hc : p.codeCache.GetCachedCode task.addr with
      | none =>
        obtain ⟨c1, _, h2⟩ := TryGenerateOptimizedCode_miss T p he task.addr task.rawCode
          task.codeHash (Or.inl hc)
        rw [h2] at hg
        cases hg
      | some cached =>
        by_cases hne : cached = []
        · subst hne
          obtain ⟨c1, _, h2⟩ := TryGenerateOptimizedCode_miss T p he task.addr task.rawCode
            task.codeHash (Or.inr hc)
          rw [h2] at hg
          cases hg
        · rw [TryGenerateOptimizedCode_hit T p he task.addr task.rawCode task.codeHash cached
            hc hne] at hg
          cases hg
    · exact ⟨r, rfl, by
        simp only [OpcodeProcessor.handleOptimizationTask, ht, hg, Option.map_some']⟩
  · intro hd hch
    constructor
    · simp only [OpcodeProcessor.FlushCodeCache, OpcodeProcessor.EnableOptimization, hd, hch,
        List.nil_append, OpcodeProcessor.taskProcessor, OpcodeProcessor.handleOptimizationTask,
        OpcodeProcessor.DeleteCodeCache, Bool.false_eq_true, if_false, Bool.not_true]
    · intro hc
      obtain ⟨c1, _, h2⟩ := TryGenerateOptimizedCode_miss T
        ({ p with enabled := true, taskChannel := [] } : OpcodeProcessor) rfl address raw hash
        (Or.inl hc)
      refine ⟨⟨true, (c1.UpdateCodeCache address (fusedBytes T raw)).1, []⟩, ?_, ?_⟩
      · simp only [OpcodeProcessor.GenOrLoadOptimizedCode, OpcodeProcessor.EnableOptimization,
          hd, hch, List.nil_append, OpcodeProcessor.taskProcessor,
          OpcodeProcessor.handleOptimizationTask, Bool.false_eq_true, if_false, h2,
          Option.map_some']
      · simp only [OpcodeProcessor.LoadOptimizedCode, Bool.not_true, Bool.false_eq_true,
          if_false]
        exact UpdateCodeCache_get_self c1 address _
  · intro he hch
    constructor
    · simp only [OpcodeProcessor.FlushCodeCache, OpcodeProcessor.DisableOptimization, hch,
        List.nil_append, OpcodeProcessor.taskProcessor, OpcodeProcessor.handleOptimizationTask,
        OpcodeProcessor.DeleteCodeCache, Bool.not_false, if_true]
    · simp only [OpcodeProcessor.GenOrLoadOptimizedCode, OpcodeProcessor.DisableOptimization,
        hch, List.nil_append, OpcodeProcessor.taskProcessor,
        OpcodeProcessor.handleOptimizationTask, OpcodeProcessor.TryGenerateOptimizedCode,
        Bool.not_false, if_true, Option.map_some']

theorem flag_read_at_execution_witness :
    ((⟨false, ⟨[(1, [0x50])], 1, []⟩, []⟩ : OpcodeProcessor).enabled = false ∧
      (⟨false, ⟨[(1, [0x50])], 1, []⟩, []⟩ : OpcodeProcessor).taskChannel = []) ∧
    (⟨false, ⟨[(1, [0x50])], 1, []⟩, []⟩ : OpcodeProcessor).handleOptimizationTask sampleTable
        ⟨.flush, 1, 0xaa, []⟩ = some ⟨false, ⟨[(1, [0x50])], 1, []⟩, []⟩ ∧
    (((⟨false, ⟨[(1, [0x50])], 1, []⟩, []⟩ : OpcodeProcessor).FlushCodeCache 1
        0xaa).EnableOptimization).taskProcessor sampleTable =
      some ⟨true, ⟨[], 1, []⟩, []⟩ :=
  ⟨⟨rfl, rfl⟩,
    (flag_read_at_execution sampleTable ⟨false, ⟨[(1, [0x50])], 1, []⟩, []⟩ ⟨.flush, 1, 0xaa, []⟩
      1 [0x02] 0xaa).1 rfl,
    ((flag_read_at_execution sampleTable ⟨false, ⟨[(1, [0x50])], 1, []⟩, []⟩
      ⟨.flush, 1, 0xaa, []⟩ 1 [0x02] 0xaa).2.2.2.2.1 rfl rfl).1⟩

end OpcodeCompiler
